import Mathlib

/-!
# RangeSumQuery: the deferred-update segment tree `TRsq` of `src/main.cpp`

A shallow embedding of the class template `TRsq<T, TOp>` and of the operator
structs `TMin` and `TMax`.

* `size_t` values are natural numbers below `2 ^ 64`; every `size_t` operation of
  the source is written with its explicit reduction modulo `2 ^ 64`.
* `std::vector<T>` is a `List T`.  `operator[]` is unchecked in C++; here a read or
  a write outside the vector is reported as `Res.outOfBounds`.
* The recursive member functions take a `fuel` argument that bounds the depth of
  the recursion; running out of it is reported as `Res.outOfFuel`.
* `std::unordered_map<size_t, T>` is an association list without a fixed order of
  iteration: the relation `Reach` lets the entries be permuted at any time.
* The template parameter `TOp` is the function `op`, and the value-initialised
  `T()` is the value `dflt`.
-/

set_option autoImplicit false

namespace RangeSumQuery

/-! ## Results of the embedded code -/

/-- Outcome of a piece of embedded code: a value, an access outside a vector, or
recursion deeper than the fuel allows. -/
inductive Res (α : Type) where
  | ok (a : α) : Res α
  | outOfBounds : Res α
  | outOfFuel : Res α
  deriving DecidableEq, Repr

/-- Sequencing of two computations: the first fault met is the outcome. -/
def Res.bind {α β : Type} (x : Res α) (f : α → Res β) : Res β :=
  match x with
  | .ok a => f a
  | .outOfBounds => .outOfBounds
  | .outOfFuel => .outOfFuel

/-- The unchecked read `v[i]` of a `std::vector`. -/
def rd {T : Type} (v : List T) (i : Nat) : Res T :=
  match v[i]? with
  | some x => .ok x
  | none => .outOfBounds

/-- The unchecked write `v[i] = x` of a `std::vector`. -/
def wr {T : Type} (v : List T) (i : Nat) (x : T) : Res (List T) :=
  if i < v.length then .ok (v.set i x) else .outOfBounds

/-! ## The class `TRsq` (main.cpp, lines 7-100) -/

/-- The data members of `TRsq` (main.cpp, lines 97-99). -/
structure TRsq (T : Type) where
  N : Nat
  Tree : List T
  Updates : List (Nat × T)
  deriving DecidableEq, Repr

/-- The private member `Build` (main.cpp, lines 34-46); the vector `Tree` is passed
in and returned. -/
def Build {T : Type} (op : T → T → T) :
    Nat → List T → List T → Nat → Nat → Nat → Res (List T)
  | 0, _, _, _, _, _ => .outOfFuel
  | fuel + 1, data, tree, node, leftBound, rightBound =>
    if leftBound = rightBound then
      (rd data leftBound).bind fun x => wr tree node x
    else
      let mid := (leftBound + (rightBound + 2 ^ 64 - leftBound) % 2 ^ 64 / 2) % 2 ^ 64
      let nn := (2 * node) % 2 ^ 64
      (Build op fuel data tree nn leftBound mid).bind fun t1 =>
      (Build op fuel data t1 ((nn + 1) % 2 ^ 64) ((mid + 1) % 2 ^ 64) rightBound).bind fun t2 =>
      (rd t2 nn).bind fun a =>
      (rd t2 ((nn + 1) % 2 ^ 64)).bind fun b =>
      wr t2 node (op a b)

/-- The constructor of `TRsq` (main.cpp, lines 10-17); `resize` fills the new
vector with value-initialised elements. -/
def construct {T : Type} (op : T → T → T) (dflt : T) (fuel : Nat) (data : List T) :
    Res (TRsq T) :=
  let N := data.length
  if N ≠ 0 then
    (Build op fuel data (List.replicate ((4 * N) % 2 ^ 64) dflt) 1 0
        ((N + 2 ^ 64 - 1) % 2 ^ 64)).bind fun t =>
    .ok { N := N, Tree := t, Updates := [] }
  else
    .ok { N := N, Tree := [], Updates := [] }

/-- The private recursive overload of `Get` (main.cpp, lines 48-64).  The two
recursive calls are pure; the one on the left child is sequenced first, which only
decides which of two faults is reported. -/
def GetRec {T : Type} (op : T → T → T) (dflt : T) :
    Nat → List T → Nat → Nat → Nat → Nat → Nat → Res T
  | 0, _, _, _, _, _, _ => .outOfFuel
  | fuel + 1, tree, node, treeLeftBound, treeRightBound, leftBound, rightBound =>
    if leftBound > rightBound then
      .ok dflt
    else if leftBound = treeLeftBound ∧ rightBound = treeRightBound then
      rd tree node
    else
      let mid :=
        (treeLeftBound + (treeRightBound + 2 ^ 64 - treeLeftBound) % 2 ^ 64 / 2) % 2 ^ 64
      let nn := (2 * node) % 2 ^ 64
      (GetRec op dflt fuel tree nn treeLeftBound mid leftBound (min rightBound mid)).bind
        fun a =>
      (GetRec op dflt fuel tree ((nn + 1) % 2 ^ 64) ((mid + 1) % 2 ^ 64) treeRightBound
          (max leftBound ((mid + 1) % 2 ^ 64)) rightBound).bind fun b =>
      .ok (op a b)

/-- The private member `Update` (main.cpp, lines 78-94). -/
def Update {T : Type} (op : T → T → T) :
    Nat → List T → Nat → Nat → Nat → Nat → T → Res (List T)
  | 0, _, _, _, _, _, _ => .outOfFuel
  | fuel + 1, tree, node, leftBound, rightBound, pos, val =>
    if leftBound = rightBound then
      wr tree node val
    else
      let mid := (leftBound + rightBound) % 2 ^ 64 / 2
      let nn := (2 * node) % 2 ^ 64
      (if pos ≤ mid then
        Update op fuel tree nn leftBound mid pos val
      else
        Update op fuel tree ((nn + 1) % 2 ^ 64) ((mid + 1) % 2 ^ 64) rightBound pos val).bind
        fun t =>
      (rd t nn).bind fun a =>
      (rd t ((nn + 1) % 2 ^ 64)).bind fun b =>
      wr t node (op a b)

/-- The loop of `FlushChanges` (main.cpp, lines 71-73): one `Update` from the root
for every entry of the buffer, in the order of iteration. -/
def FlushLoop {T : Type} (op : T → T → T) (fuel N : Nat) :
    List (Nat × T) → List T → Res (List T)
  | [], tree => .ok tree
  | (pos, val) :: rest, tree =>
    (Update op fuel tree 1 0 ((N + 2 ^ 64 - 1) % 2 ^ 64) pos val).bind fun t =>
    FlushLoop op fuel N rest t

/-- The private member `FlushChanges` (main.cpp, lines 66-76). -/
def FlushChanges {T : Type} (op : T → T → T) (fuel : Nat) (s : TRsq T) : Res (TRsq T) :=
  if s.Updates.isEmpty then
    .ok s
  else
    (FlushLoop op fuel s.N s.Updates s.Tree).bind fun t =>
    .ok { s with Tree := t, Updates := [] }

/-- The public member `Get` (main.cpp, lines 19-23): the value returned and the
state left behind. -/
def Get {T : Type} (op : T → T → T) (dflt : T) (fuel : Nat) (s : TRsq T)
    (leftBound rightBound : Nat) : Res (T × TRsq T) :=
  (FlushChanges op fuel s).bind fun s1 =>
  (GetRec op dflt fuel s1.Tree 1 0 ((s1.N + 2 ^ 64 - 1) % 2 ^ 64) leftBound rightBound).bind
    fun v =>
  .ok (v, s1)

/-- The assignment `Updates[pos] = val` on the map (main.cpp, line 30): the entry
of an existing key is overwritten where it stands, a new key gets a new entry. -/
def assign {T : Type} (pos : Nat) (val : T) : List (Nat × T) → List (Nat × T)
  | [] => [(pos, val)]
  | (k, w) :: rest =>
    if k = pos then (k, val) :: rest else (k, w) :: assign pos val rest

/-- The public member `Modify` (main.cpp, lines 25-31). -/
def Modify {T : Type} (s : TRsq T) (pos : Nat) (val : T) : TRsq T :=
  if pos ≥ s.N then s else { s with Updates := assign pos val s.Updates }

/-- The operator struct `TMin` (main.cpp, lines 102-107): `std::min(a, b)`. -/
def TMin (a b : Int) : Int := if b < a then b else a

/-- The operator struct `TMax` (main.cpp, lines 109-114): `std::max(a, b)`. -/
def TMax (a b : Int) : Int := if a < b then b else a

/-! ## Specification-side definitions -/

/-- The elements `data[l], ..., data[r]` of a sequence. -/
def slice {T : Type} (data : List T) (l r : Nat) : List T :=
  (data.drop l).take (r + 1 - l)

/-- The left-to-right reduction `x0 op x1 op ... op xn` of a non-empty sequence;
there is none for the empty sequence. -/
def reduce {T : Type} (op : T → T → T) : List T → Option T
  | [] => none
  | x :: xs => some (xs.foldl op x)

/-- The tree invariant below `node`, whose range is `[lb, rb]`: the leaf of index
`i` holds `data[i]` and an internal node holds the combination of its two children,
node `2 * node` over the left half and node `2 * node + 1` over the right half. -/
inductive TreeInv {T : Type} (op : T → T → T) (tree data : List T) :
    Nat → Nat → Nat → Prop where
  | leaf (node i : Nat) (x : T) :
      tree[node]? = some x → data[i]? = some x → TreeInv op tree data node i i
  | inner (node lb rb : Nat) (a b : T) :
      lb < rb →
      TreeInv op tree data (2 * node) lb (lb + (rb - lb) / 2) →
      TreeInv op tree data (2 * node + 1) (lb + (rb - lb) / 2 + 1) rb →
      tree[2 * node]? = some a → tree[2 * node + 1]? = some b →
      tree[node]? = some (op a b) →
      TreeInv op tree data node lb rb

/-- Slot `k` of the array belongs to the subtree of `node`: halving `k` some number
of times gives `node`. -/
def Sub (node k : Nat) : Prop := ∃ j, k / 2 ^ j = node

/-- The states reached from the construction on `init` by a finite interleaving of
`Modify` and `Get` calls, each with its reference array: `init` with every `Modify`
applied directly, in call order.  The map has no fixed order of iteration, so its
entries may be permuted at any time. -/
inductive Reach {T : Type} (op : T → T → T) (dflt : T) (init : List T) :
    TRsq T → List T → Prop where
  | construct (fuel : Nat) (s : TRsq T) :
      construct op dflt fuel init = .ok s → Reach op dflt init s init
  | modify (s : TRsq T) (ref : List T) (pos : Nat) (val : T) :
      Reach op dflt init s ref → Reach op dflt init (Modify s pos val) (ref.set pos val)
  | get (fuel : Nat) (s s1 : TRsq T) (ref : List T) (l r : Nat) (v : T) :
      Reach op dflt init s ref → Get op dflt fuel s l r = .ok (v, s1) →
      Reach op dflt init s1 ref
  | reorder (s : TRsq T) (ref : List T) (u : List (Nat × T)) :
      Reach op dflt init s ref → s.Updates.Perm u →
      Reach op dflt init { s with Updates := u } ref

/-- The representation invariant of the states reached on a non-empty sequence,
against the reference array `ref`: every pending entry carries the reference value
of its position, and the tree satisfies `TreeInv` for a sequence that agrees with
the reference array at every position without a pending entry. -/
structure Inv {T : Type} (op : T → T → T) (s : TRsq T) (ref : List T) : Prop where
  size : s.N = ref.length
  nonempty : 1 ≤ s.N
  small : 4 * s.N < 2 ^ 64
  len : s.Tree.length = 4 * s.N
  nodup : (s.Updates.map Prod.fst).Nodup
  pending : ∀ k v, (k, v) ∈ s.Updates → ref[k]? = some v
  tree : ∃ D : List T, D.length = s.N ∧ TreeInv op s.Tree D 1 0 (s.N - 1) ∧
    ∀ i, (∀ v, (i, v) ∉ s.Updates) → D[i]? = ref[i]?

/-! ## Instrumented copies of the recursive members

The following functions repeat the control flow of `Build`, `Update` and the
recursive `Get` and return, instead of the values, what the claims about their
footprint speak of: the subscripts of `Tree` that are evaluated, the leaves that are
assigned, and the arguments of the recursive calls. -/

/-- The split point of `Build` and of the recursive `Get` (main.cpp, lines 38 and
57): `leftBound + (rightBound - leftBound) / 2` in `size_t` arithmetic. -/
def midBuild (leftBound rightBound : Nat) : Nat :=
  (leftBound + (rightBound + 2 ^ 64 - leftBound) % 2 ^ 64 / 2) % 2 ^ 64

/-- The split point of `Update` (main.cpp, line 84): `(leftBound + rightBound) / 2`
in `size_t` arithmetic. -/
def midUpdate (leftBound rightBound : Nat) : Nat :=
  (leftBound + rightBound) % 2 ^ 64 / 2

/-- The subscripts of `Tree` evaluated by `Build` (main.cpp, lines 36 and 44), in
the order of evaluation. -/
def BuildAccess : Nat → Nat → Nat → Nat → Res (List Nat)
  | 0, _, _, _ => .outOfFuel
  | fuel + 1, node, leftBound, rightBound =>
    if leftBound = rightBound then
      .ok [node]
    else
      let mid := midBuild leftBound rightBound
      let nn := (2 * node) % 2 ^ 64
      (BuildAccess fuel nn leftBound mid).bind fun left =>
      (BuildAccess fuel ((nn + 1) % 2 ^ 64) ((mid + 1) % 2 ^ 64) rightBound).bind fun right =>
      .ok (left ++ right ++ [nn, (nn + 1) % 2 ^ 64, node])

/-- The leaf assignments `Tree[node] = data[leftBound]` of `Build` (main.cpp, line
36): the pairs `(node, leftBound)`, in the order of execution. -/
def BuildLeaves : Nat → Nat → Nat → Nat → Res (List (Nat × Nat))
  | 0, _, _, _ => .outOfFuel
  | fuel + 1, node, leftBound, rightBound =>
    if leftBound = rightBound then
      .ok [(node, leftBound)]
    else
      let mid := midBuild leftBound rightBound
      let nn := (2 * node) % 2 ^ 64
      (BuildLeaves fuel nn leftBound mid).bind fun left =>
      (BuildLeaves fuel ((nn + 1) % 2 ^ 64) ((mid + 1) % 2 ^ 64) rightBound).bind fun right =>
      .ok (left ++ right)

/-- The subscripts of `Tree` evaluated by `Update` (main.cpp, lines 80 and 93), in
the order of evaluation. -/
def UpdateAccess : Nat → Nat → Nat → Nat → Nat → Res (List Nat)
  | 0, _, _, _, _ => .outOfFuel
  | fuel + 1, node, leftBound, rightBound, pos =>
    if leftBound = rightBound then
      .ok [node]
    else
      let mid := midUpdate leftBound rightBound
      let nn := (2 * node) % 2 ^ 64
      (if pos ≤ mid then
        UpdateAccess fuel nn leftBound mid pos
      else
        UpdateAccess fuel ((nn + 1) % 2 ^ 64) ((mid + 1) % 2 ^ 64) rightBound pos).bind
        fun below =>
      .ok (below ++ [nn, (nn + 1) % 2 ^ 64, node])

/-- The call of `Update` that reaches the base case `Tree[node] = val` (main.cpp,
lines 79-81): its `node`, `leftBound` and `rightBound`. -/
def UpdateLeaf : Nat → Nat → Nat → Nat → Nat → Res (Nat × Nat × Nat)
  | 0, _, _, _, _ => .outOfFuel
  | fuel + 1, node, leftBound, rightBound, pos =>
    if leftBound = rightBound then
      .ok (node, leftBound, rightBound)
    else
      let mid := midUpdate leftBound rightBound
      let nn := (2 * node) % 2 ^ 64
      if pos ≤ mid then
        UpdateLeaf fuel nn leftBound mid pos
      else
        UpdateLeaf fuel ((nn + 1) % 2 ^ 64) ((mid + 1) % 2 ^ 64) rightBound pos

/-- The four bounds passed to a call of the recursive `Get`. -/
structure GetArgs where
  treeLeftBound : Nat
  treeRightBound : Nat
  leftBound : Nat
  rightBound : Nat
  deriving DecidableEq, Repr

/-- The bounds of the two recursive calls of the recursive `Get` (main.cpp, lines
57-62), the call on the left child first. -/
def GetCalls (treeLeftBound treeRightBound leftBound rightBound : Nat) : GetArgs × GetArgs :=
  let mid := midBuild treeLeftBound treeRightBound
  ({ treeLeftBound := treeLeftBound, treeRightBound := mid,
     leftBound := leftBound, rightBound := min rightBound mid },
   { treeLeftBound := (mid + 1) % 2 ^ 64, treeRightBound := treeRightBound,
     leftBound := max leftBound ((mid + 1) % 2 ^ 64), rightBound := rightBound })

/-- The subscripts of `Tree` evaluated by the recursive `Get` (main.cpp, line 54),
in the order of evaluation. -/
def GetAccess : Nat → Nat → Nat → Nat → Nat → Nat → Res (List Nat)
  | 0, _, _, _, _, _ => .outOfFuel
  | fuel + 1, node, treeLeftBound, treeRightBound, leftBound, rightBound =>
    if leftBound > rightBound then
      .ok []
    else if leftBound = treeLeftBound ∧ rightBound = treeRightBound then
      .ok [node]
    else
      let c := GetCalls treeLeftBound treeRightBound leftBound rightBound
      let nn := (2 * node) % 2 ^ 64
      (GetAccess fuel nn c.1.treeLeftBound c.1.treeRightBound c.1.leftBound
        c.1.rightBound).bind fun left =>
      (GetAccess fuel ((nn + 1) % 2 ^ 64) c.2.treeLeftBound c.2.treeRightBound c.2.leftBound
        c.2.rightBound).bind fun right =>
      .ok (left ++ right)

/-- A recursive call made from a node of range `[tl, tr]` is well-founded: its node
range is a range strictly shorter than `[tl, tr]`, and its query range is empty or
lies inside its node range. -/
def GetArgs.Descends (tl tr : Nat) (a : GetArgs) : Prop :=
  a.treeLeftBound ≤ a.treeRightBound ∧
  a.treeRightBound - a.treeLeftBound < tr - tl ∧
  (a.rightBound < a.leftBound ∨
    (a.treeLeftBound ≤ a.leftBound ∧ a.rightBound ≤ a.treeRightBound))

/-- Slot `k` lies on the path from `node`, whose range is `[lb, rb]`, down to the
leaf of position `pos`: it is `node` itself or lies on the path from the child whose
half of the range holds `pos`. -/
inductive OnPath : Nat → Nat → Nat → Nat → Nat → Prop where
  | here (node lb rb pos : Nat) : lb ≤ pos → pos ≤ rb → OnPath node lb rb pos node
  | left (node lb rb pos k : Nat) :
      lb < rb → pos ≤ lb + (rb - lb) / 2 →
      OnPath (2 * node) lb (lb + (rb - lb) / 2) pos k → OnPath node lb rb pos k
  | right (node lb rb pos k : Nat) :
      lb < rb → lb + (rb - lb) / 2 < pos →
      OnPath (2 * node + 1) (lb + (rb - lb) / 2 + 1) rb pos k → OnPath node lb rb pos k

/-! ## The concrete scenario of the specification: `[3, 1, 4, 1, 5]` with sum -/

/-- The scenario of the specification, section 8, run on the embedded code. -/
theorem scenario_sum : ∃ s, construct (· + ·) (0 : Int) 5 [3, 1, 4, 1, 5] = .ok s ∧
    ∃ s1, Get (· + ·) 0 5 s 0 4 = .ok (14, s1) ∧
    ∃ s2, Get (· + ·) 0 5 (Modify s1 2 10) 0 4 = .ok (20, s2) ∧
    ∃ s3, Get (· + ·) 0 5 s2 2 2 = .ok (10, s3) ∧
    ∃ s4, Get (· + ·) 0 5 (Modify (Modify s3 0 0) 0 7) 0 1 = .ok (8, s4) :=
  ⟨_, rfl, _, rfl, _, rfl, _, rfl, _, rfl⟩

/-! ## Basic facts about results and vector accesses -/

@[simp] theorem Res.ok_bind {α β : Type} (a : α) (f : α → Res β) :
    (Res.ok a).bind f = f a := rfl

@[simp] theorem Res.outOfBounds_bind {α β : Type} (f : α → Res β) :
    (Res.outOfBounds : Res α).bind f = .outOfBounds := rfl

@[simp] theorem Res.outOfFuel_bind {α β : Type} (f : α → Res β) :
    (Res.outOfFuel : Res α).bind f = .outOfFuel := rfl

theorem rd_of_getElem? {T : Type} {v : List T} {i : Nat} {x : T} (h : v[i]? = some x) :
    rd v i = .ok x := by
  simp [rd, h]

theorem wr_of_lt {T : Type} {v : List T} {i : Nat} (x : T) (h : i < v.length) :
    wr v i x = .ok (v.set i x) := by
  simp [wr, h]

theorem lt_of_getElem? {T : Type} {v : List T} {i : Nat} {x : T} (h : v[i]? = some x) :
    i < v.length := by
  by_contra hc
  rw [List.getElem?_eq_none (by omega)] at h
  exact Option.noConfusion h

/-! ## The `size_t` arithmetic of the source on values that do not wrap -/

theorem mid_build (lb rb : Nat) (h : lb ≤ rb) (hr : rb < 2 ^ 64) :
    (lb + (rb + 2 ^ 64 - lb) % 2 ^ 64 / 2) % 2 ^ 64 = lb + (rb - lb) / 2 := by
  have h1 : (rb + 2 ^ 64 - lb) % 2 ^ 64 = rb - lb := by omega
  rw [h1]
  omega

theorem mid_update (lb rb : Nat) (h : lb ≤ rb) (hr : 2 * rb < 2 ^ 64) :
    (lb + rb) % 2 ^ 64 / 2 = lb + (rb - lb) / 2 := by
  omega

theorem pred_size (N : Nat) (h1 : 1 ≤ N) (h2 : N < 2 ^ 64) :
    (N + 2 ^ 64 - 1) % 2 ^ 64 = N - 1 := by
  omega

/-! ## Subtrees of the implicit binary tree -/

theorem Sub.refl (n : Nat) : Sub n n := ⟨0, by simp⟩

theorem Sub.of_left {n k : Nat} (h : Sub (2 * n) k) : Sub n k := by
  obtain ⟨j, hj⟩ := h
  refine ⟨j + 1, ?_⟩
  rw [pow_succ, ← Nat.div_div_eq_div_mul, hj]
  omega

theorem Sub.of_right {n k : Nat} (h : Sub (2 * n + 1) k) : Sub n k := by
  obtain ⟨j, hj⟩ := h
  refine ⟨j + 1, ?_⟩
  rw [pow_succ, ← Nat.div_div_eq_div_mul, hj]
  omega

theorem Sub.le {n k : Nat} (h : Sub n k) : n ≤ k := by
  obtain ⟨j, hj⟩ := h
  rw [← hj]
  exact Nat.div_le_self k (2 ^ j)

theorem div_two_pow_le_half (x c : Nat) (hc : 1 ≤ c) : x / 2 ^ c ≤ x / 2 := by
  obtain ⟨d, rfl⟩ : ∃ d, c = d + 1 := ⟨c - 1, by omega⟩
  rw [pow_succ, Nat.mul_comm, ← Nat.div_div_eq_div_mul]
  exact Nat.div_le_self _ _

theorem Sub.disjoint {n k : Nat} (hn : 1 ≤ n) (h1 : Sub (2 * n) k) (h2 : Sub (2 * n + 1) k) :
    False := by
  obtain ⟨j, hj⟩ := h1
  obtain ⟨i, hi⟩ := h2
  rcases Nat.lt_trichotomy j i with hlt | heq | hgt
  · obtain ⟨c, rfl⟩ : ∃ c, i = j + c := ⟨i - j, by omega⟩
    rw [pow_add, ← Nat.div_div_eq_div_mul, hj] at hi
    have := Nat.div_le_self (2 * n) (2 ^ c)
    omega
  · subst heq
    omega
  · obtain ⟨c, rfl⟩ : ∃ c, j = i + c := ⟨j - i, by omega⟩
    rw [pow_add, ← Nat.div_div_eq_div_mul, hi] at hj
    have := div_two_pow_le_half (2 * n + 1) c (by omega)
    omega

theorem Sub.not_left_self {n : Nat} (hn : 1 ≤ n) : ¬ Sub (2 * n) n := by
  intro h
  have := h.le
  omega

theorem Sub.not_right_self {n : Nat} : ¬ Sub (2 * n + 1) n := by
  intro h
  have := h.le
  omega

theorem Sub.left (n : Nat) : Sub n (2 * n) := ⟨1, by simp⟩

theorem Sub.right (n : Nat) : Sub n (2 * n + 1) := ⟨1, by simp; omega⟩

/-! ## Slices and reductions -/

theorem slice_single {T : Type} {D : List T} {i : Nat} {x : T} (h : D[i]? = some x) :
    slice D i i = [x] := by
  have hi := lt_of_getElem? h
  have hx : D[i] = x := by
    rw [List.getElem?_eq_getElem hi] at h
    exact Option.some.inj h
  unfold slice
  rw [List.drop_eq_getElem_cons hi, hx]
  simp

theorem slice_split {T : Type} (D : List T) {l m r : Nat} (h1 : l ≤ m) (h2 : m < r) :
    slice D l r = slice D l m ++ slice D (m + 1) r := by
  unfold slice
  have e : r + 1 - l = (m + 1 - l) + (r + 1 - (m + 1)) := by omega
  rw [e, List.take_add, List.drop_drop]
  have e2 : l + (m + 1 - l) = m + 1 := by omega
  rw [e2]

theorem foldl_assoc {T : Type} (op : T → T → T)
    (hassoc : ∀ a b c, op (op a b) c = op a (op b c)) (a y : T) (ys : List T) :
    ys.foldl op (op a y) = op a (ys.foldl op y) := by
  induction ys generalizing y with
  | nil => rfl
  | cons z zs ih =>
    simp only [List.foldl_cons]
    rw [hassoc, ih]

theorem reduce_append {T : Type} (op : T → T → T)
    (hassoc : ∀ a b c, op (op a b) c = op a (op b c)) {xs ys : List T} {a b : T}
    (hx : reduce op xs = some a) (hy : reduce op ys = some b) :
    reduce op (xs ++ ys) = some (op a b) := by
  cases xs with
  | nil => simp [reduce] at hx
  | cons x xs =>
    cases ys with
    | nil => simp [reduce] at hy
    | cons y ys =>
      simp only [reduce, Option.some.injEq] at hx hy
      simp only [reduce, List.cons_append, List.foldl_append, List.foldl_cons, hx]
      rw [foldl_assoc op hassoc, hy]

/-! ## The tree invariant -/

theorem TreeInv.congr {T : Type} {op : T → T → T} {t t2 D D2 : List T} {n lb rb : Nat}
    (h : TreeInv op t D n lb rb)
    (ht : ∀ k, Sub n k → t2[k]? = t[k]?)
    (hd : ∀ i, lb ≤ i → i ≤ rb → D2[i]? = D[i]?) : TreeInv op t2 D2 n lb rb := by
  induction h with
  | leaf node i x h1 h2 =>
    exact .leaf node i x (by rw [ht node (Sub.refl _)]; exact h1)
      (by rw [hd i le_rfl le_rfl]; exact h2)
  | inner node lb rb a b hlt _ _ ha hb hn ihl ihr =>
    refine .inner node lb rb a b hlt (ihl ?_ ?_) (ihr ?_ ?_) ?_ ?_ ?_
    · exact fun k hk => ht k hk.of_left
    · exact fun i h1 h2 => hd i h1 (by omega)
    · exact fun k hk => ht k hk.of_right
    · exact fun i h1 h2 => hd i (by omega) h2
    · rw [ht _ (Sub.left node)]; exact ha
    · rw [ht _ (Sub.right node)]; exact hb
    · rw [ht _ (Sub.refl node)]; exact hn

theorem TreeInv.lb_le_rb {T : Type} {op : T → T → T} {t D : List T} {n lb rb : Nat}
    (h : TreeInv op t D n lb rb) : lb ≤ rb := by
  cases h with
  | leaf => exact le_rfl
  | inner _ _ _ _ _ hlt => exact hlt.le

theorem TreeInv.rb_lt {T : Type} {op : T → T → T} {t D : List T} {n lb rb : Nat}
    (h : TreeInv op t D n lb rb) : rb < D.length := by
  induction h with
  | leaf node i x _ h2 => exact lt_of_getElem? h2
  | inner _ _ _ _ _ _ _ _ _ _ _ _ ihr => exact ihr

theorem TreeInv.node_lt {T : Type} {op : T → T → T} {t D : List T} {n lb rb : Nat}
    (h : TreeInv op t D n lb rb) : n < t.length := by
  cases h with
  | leaf _ _ x h1 => exact lt_of_getElem? h1
  | inner _ _ _ _ _ _ _ _ _ _ hn => exact lt_of_getElem? hn

/-- Under the invariant and associativity the value cached at a node is the
left-to-right reduction of the elements of its range. -/
theorem TreeInv.value {T : Type} {op : T → T → T}
    (hassoc : ∀ a b c, op (op a b) c = op a (op b c)) {t D : List T} {n lb rb : Nat}
    (h : TreeInv op t D n lb rb) :
    ∃ v, t[n]? = some v ∧ reduce op (slice D lb rb) = some v := by
  induction h with
  | leaf node i x h1 h2 =>
    exact ⟨x, h1, by rw [slice_single h2]; rfl⟩
  | inner node lb rb a b hlt _ _ ha hb hn ihl ihr =>
    obtain ⟨va, hva, ra⟩ := ihl
    obtain ⟨vb, hvb, rb2⟩ := ihr
    rw [ha] at hva
    rw [hb] at hvb
    cases hva
    cases hvb
    refine ⟨op a b, hn, ?_⟩
    rw [slice_split D (m := lb + (rb - lb) / 2) (by omega) (by omega)]
    exact reduce_append op hassoc ra rb2

theorem TreeInv.root {T : Type} {op : T → T → T} {t D : List T} {n lb rb : Nat}
    (h : TreeInv op t D n lb rb) : ∃ v, t[n]? = some v := by
  cases h with
  | leaf _ _ x h1 => exact ⟨x, h1⟩
  | inner _ _ _ a b _ _ _ _ _ hn => exact ⟨op a b, hn⟩

/-! ## `Build` establishes the invariant -/

theorem Build_spec {T : Type} (op : T → T → T) (data : List T) (hdata : data.length ≤ 2 ^ 64) :
    ∀ (h fuel : Nat) (tree : List T) (node lb rb : Nat),
      rb - lb < fuel → 1 ≤ node → lb ≤ rb → rb < data.length →
      rb - lb + 1 ≤ 2 ^ h → (node + 1) * 2 ^ h ≤ tree.length → tree.length ≤ 2 ^ 64 →
      ∃ t2, Build op fuel data tree node lb rb = .ok t2 ∧ t2.length = tree.length ∧
        (∀ k, ¬ Sub node k → t2[k]? = tree[k]?) ∧ TreeInv op t2 data node lb rb := by
  intro h
  induction h with
  | zero =>
    intro fuel tree node lb rb hf hn hle hrb hsz hcap hlen
    obtain ⟨f, rfl⟩ : ∃ f, fuel = f + 1 := ⟨fuel - 1, by omega⟩
    have heq : lb = rb := by simp at hsz; omega
    subst heq
    have hnode : node < tree.length := by simp at hcap; omega
    refine ⟨tree.set node data[lb], ?_, by simp, ?_, ?_⟩
    · simp [Build, rd, List.getElem?_eq_getElem hrb, wr, hnode]
    · intro k hk
      have : node ≠ k := fun e => hk (e ▸ Sub.refl node)
      simp [List.getElem?_set_ne this]
    · exact .leaf node lb data[lb] (by simp [List.getElem?_set_self, hnode])
        (List.getElem?_eq_getElem hrb)
  | succ h ih =>
    intro fuel tree node lb rb hf hn hle hrb hsz hcap hlen
    obtain ⟨f, rfl⟩ : ∃ f, fuel = f + 1 := ⟨fuel - 1, by omega⟩
    have hp : 1 ≤ 2 ^ h := Nat.one_le_two_pow
    have hcap2 : (2 * node + 1 + 1) * 2 ^ h ≤ tree.length := by
      have : (node + 1) * 2 ^ (h + 1) = (2 * node + 1 + 1) * 2 ^ h := by ring
      omega
    have hcap1 : (2 * node + 1) * 2 ^ h ≤ tree.length :=
      le_trans (Nat.mul_le_mul_right _ (by omega)) hcap2
    have hn2 : 2 * node + 1 < tree.length := by
      have : 2 * node + 1 + 1 ≤ (2 * node + 1 + 1) * 2 ^ h := Nat.le_mul_of_pos_right _ hp
      omega
    by_cases heq : lb = rb
    · subst heq
      have hnode : node < tree.length := by omega
      refine ⟨tree.set node data[lb], ?_, by simp, ?_, ?_⟩
      · simp [Build, rd, List.getElem?_eq_getElem hrb, wr, hnode]
      · intro k hk
        have : node ≠ k := fun e => hk (e ▸ Sub.refl node)
        simp [List.getElem?_set_ne this]
      · exact .leaf node lb data[lb] (by simp [List.getElem?_set_self, hnode])
          (List.getElem?_eq_getElem hrb)
    · have hlt : lb < rb := by omega
      have e1 : (lb + (rb + 2 ^ 64 - lb) % 2 ^ 64 / 2) % 2 ^ 64 = lb + (rb - lb) / 2 :=
        mid_build lb rb hle (by omega)
      have e2 : (2 * node) % 2 ^ 64 = 2 * node := Nat.mod_eq_of_lt (by omega)
      have e3 : (2 * node + 1) % 2 ^ 64 = 2 * node + 1 := Nat.mod_eq_of_lt (by omega)
      have e4 : (lb + (rb - lb) / 2 + 1) % 2 ^ 64 = lb + (rb - lb) / 2 + 1 :=
        Nat.mod_eq_of_lt (by omega)
      have hsz2 : rb - lb + 1 ≤ 2 * 2 ^ h := by rw [pow_succ] at hsz; omega
      obtain ⟨t1, hb1, hl1, hfr1, hinv1⟩ :=
        ih f tree (2 * node) lb (lb + (rb - lb) / 2) (by omega) (by omega) (by omega)
          (by omega) (by omega) hcap1 hlen
      obtain ⟨t2, hb2, hl2, hfr2, hinv2⟩ :=
        ih f t1 (2 * node + 1) (lb + (rb - lb) / 2 + 1) rb (by omega) (by omega) (by omega)
          hrb (by omega) (by rw [hl1]; exact hcap2) (by rw [hl1]; exact hlen)
      obtain ⟨a, ha1⟩ := hinv1.root
      obtain ⟨b, hb⟩ := hinv2.root
      have ha : t2[2 * node]? = some a := by
        rw [hfr2 _ (fun hs => by have := hs.le; omega)]
        exact ha1
      have hnode : node < t2.length := by rw [hl2, hl1]; omega
      refine ⟨t2.set node (op a b), ?_, by simp [hl2, hl1], ?_, ?_⟩
      · simp only [Build, if_neg heq, e1, e2, e3, e4, hb1, hb2, Res.ok_bind,
          rd_of_getElem? ha, rd_of_getElem? hb, wr_of_lt _ hnode]
      · intro k hk
        have hne : node ≠ k := fun e => hk (e ▸ Sub.refl node)
        rw [List.getElem?_set_ne hne, hfr2 k (fun hs => hk hs.of_right),
          hfr1 k (fun hs => hk hs.of_left)]
      · refine .inner node lb rb a b hlt ?_ ?_ ?_ ?_ ?_
        · refine hinv1.congr (fun k hk => ?_) (fun _ _ _ => rfl)
          have hne : node ≠ k := fun e => Sub.not_left_self hn (e ▸ hk)
          rw [List.getElem?_set_ne hne, hfr2 k (fun hs => Sub.disjoint hn hk hs)]
        · refine hinv2.congr (fun k hk => ?_) (fun _ _ _ => rfl)
          have hne : node ≠ k := fun e => Sub.not_right_self (e ▸ hk)
          rw [List.getElem?_set_ne hne]
        · rw [List.getElem?_set_ne (by omega)]; exact ha
        · rw [List.getElem?_set_ne (by omega)]; exact hb
        · simp [List.getElem?_set_self, hnode]

/-! ## `Update` re-establishes the invariant for the changed sequence -/

theorem Update_spec {T : Type} (op : T → T → T) {t D : List T} {n lb rb : Nat}
    (h : TreeInv op t D n lb rb) :
    1 ≤ n → t.length ≤ 2 ^ 64 → 2 * D.length ≤ 2 ^ 64 →
    ∀ (fuel pos : Nat) (v : T), rb - lb < fuel → lb ≤ pos → pos ≤ rb →
      ∃ t2, Update op fuel t n lb rb pos v = .ok t2 ∧ t2.length = t.length ∧
        (∀ k, ¬ Sub n k → t2[k]? = t[k]?) ∧ TreeInv op t2 (D.set pos v) n lb rb := by
  induction h with
  | leaf node i x h1 h2 =>
    intro hn ht hD fuel pos v hf hl hr
    obtain ⟨f, rfl⟩ : ∃ f, fuel = f + 1 := ⟨fuel - 1, by omega⟩
    obtain rfl : pos = i := by omega
    have hnode := lt_of_getElem? h1
    have hi := lt_of_getElem? h2
    refine ⟨t.set node v, by simp [Update, wr, hnode], by simp, ?_, ?_⟩
    · intro k hk
      have : node ≠ k := fun e => hk (e ▸ Sub.refl node)
      simp [List.getElem?_set_ne this]
    · exact .leaf node pos v (by simp [List.getElem?_set_self, hnode])
        (by simp [List.getElem?_set_self, hi])
  | inner node lb rb a b hlt hinvl hinvr ha hb hnd ihl ihr =>
    intro hn ht hD fuel pos v hf hl hr
    obtain ⟨f, rfl⟩ : ∃ f, fuel = f + 1 := ⟨fuel - 1, by omega⟩
    have hrb := hinvr.rb_lt
    have hna := lt_of_getElem? ha
    have hnb := lt_of_getElem? hb
    have hnode := lt_of_getElem? hnd
    have hne : ¬ lb = rb := by omega
    have e1 : (lb + rb) % 2 ^ 64 / 2 = lb + (rb - lb) / 2 :=
      mid_update lb rb hlt.le (by omega)
    have e2 : (2 * node) % 2 ^ 64 = 2 * node := Nat.mod_eq_of_lt (by omega)
    have e3 : (2 * node + 1) % 2 ^ 64 = 2 * node + 1 := Nat.mod_eq_of_lt (by omega)
    have e4 : (lb + (rb - lb) / 2 + 1) % 2 ^ 64 = lb + (rb - lb) / 2 + 1 :=
      Nat.mod_eq_of_lt (by omega)
    by_cases hpos : pos ≤ lb + (rb - lb) / 2
    · obtain ⟨t1, hu, hlen, hfr, hinv⟩ :=
        ihl (by omega) ht hD f pos v (by omega) hl hpos
      obtain ⟨a2, ha2⟩ := hinv.root
      have hb2 : t1[2 * node + 1]? = some b := by
        rw [hfr _ (fun hs => Sub.disjoint hn hs (Sub.refl _))]; exact hb
      have hnode1 : node < t1.length := by omega
      refine ⟨t1.set node (op a2 b), ?_, by simp [hlen], ?_, ?_⟩
      · simp only [Update, if_neg hne, e1, e2, e3, e4, if_pos hpos, hu, Res.ok_bind,
          rd_of_getElem? ha2, rd_of_getElem? hb2, wr_of_lt _ hnode1]
      · intro k hk
        have hne : node ≠ k := fun e => hk (e ▸ Sub.refl node)
        rw [List.getElem?_set_ne hne, hfr k (fun hs => hk hs.of_left)]
      · refine .inner node lb rb a2 b hlt ?_ ?_ ?_ ?_ ?_
        · refine hinv.congr (fun k hk => ?_) (fun _ _ _ => rfl)
          have hne : node ≠ k := fun e => Sub.not_left_self hn (e ▸ hk)
          rw [List.getElem?_set_ne hne]
        · refine hinvr.congr (fun k hk => ?_) (fun i hi1 _ => ?_)
          · have hne : node ≠ k := fun e => Sub.not_right_self (e ▸ hk)
            rw [List.getElem?_set_ne hne, hfr k (fun hs => Sub.disjoint hn hs hk)]
          · rw [List.getElem?_set_ne (by omega)]
        · rw [List.getElem?_set_ne (by omega)]; exact ha2
        · rw [List.getElem?_set_ne (by omega)]; exact hb2
        · simp [List.getElem?_set_self, hnode1]
    · obtain ⟨t1, hu, hlen, hfr, hinv⟩ :=
        ihr (by omega) ht hD f pos v (by omega) (by omega) hr
      obtain ⟨b2, hb2⟩ := hinv.root
      have ha2 : t1[2 * node]? = some a := by
        rw [hfr _ (fun hs => Sub.disjoint hn (Sub.refl _) hs)]; exact ha
      have hnode1 : node < t1.length := by omega
      refine ⟨t1.set node (op a b2), ?_, by simp [hlen], ?_, ?_⟩
      · simp only [Update, if_neg hne, e1, e2, e3, e4, if_neg hpos, hu, Res.ok_bind,
          rd_of_getElem? ha2, rd_of_getElem? hb2, wr_of_lt _ hnode1]
      · intro k hk
        have hne : node ≠ k := fun e => hk (e ▸ Sub.refl node)
        rw [List.getElem?_set_ne hne, hfr k (fun hs => hk hs.of_right)]
      · refine .inner node lb rb a b2 hlt ?_ ?_ ?_ ?_ ?_
        · refine hinvl.congr (fun k hk => ?_) (fun i _ hi2 => ?_)
          · have hne : node ≠ k := fun e => Sub.not_left_self hn (e ▸ hk)
            rw [List.getElem?_set_ne hne, hfr k (fun hs => Sub.disjoint hn hk hs)]
          · rw [List.getElem?_set_ne (by omega)]
        · refine hinv.congr (fun k hk => ?_) (fun _ _ _ => rfl)
          have hne : node ≠ k := fun e => Sub.not_right_self (e ▸ hk)
          rw [List.getElem?_set_ne hne]
        · rw [List.getElem?_set_ne (by omega)]; exact ha2
        · rw [List.getElem?_set_ne (by omega)]; exact hb2
        · simp [List.getElem?_set_self, hnode1]

/-! ## The recursive query under the invariant -/

theorem GetRec_empty {T : Type} (op : T → T → T) (dflt : T) (f : Nat) (t : List T)
    (n tl tr l r : Nat) (h : r < l) : GetRec op dflt (f + 1) t n tl tr l r = .ok dflt := by
  simp [GetRec, h]

theorem GetRec_spec {T : Type} (op : T → T → T) (dflt : T)
    (hassoc : ∀ a b c, op (op a b) c = op a (op b c))
    (hidl : ∀ a, op dflt a = a) (hidr : ∀ a, op a dflt = a)
    {t D : List T} {n tl tr : Nat} (h : TreeInv op t D n tl tr) :
    t.length ≤ 2 ^ 64 → D.length ≤ 2 ^ 64 →
    ∀ (fuel l r : Nat), tr - tl < fuel → tl ≤ l → l ≤ r → r ≤ tr →
      ∃ v, GetRec op dflt fuel t n tl tr l r = .ok v ∧ reduce op (slice D l r) = some v := by
  induction h with
  | leaf node i x h1 h2 =>
    intro ht hD fuel l r hf hl hlr hr
    obtain ⟨f, rfl⟩ : ∃ f, fuel = f + 1 := ⟨fuel - 1, by omega⟩
    obtain rfl : l = i := by omega
    obtain rfl : r = l := by omega
    exact ⟨x, by simp [GetRec, rd_of_getElem? h1], by rw [slice_single h2]; rfl⟩
  | inner node tl tr a b hlt hinvl hinvr ha hb hnd ihl ihr =>
    intro ht hD fuel l r hf hl hlr hr
    obtain ⟨f, rfl⟩ : ∃ f, fuel = f + 1 := ⟨fuel - 1, by omega⟩
    obtain ⟨g, rfl⟩ : ∃ g, f = g + 1 := ⟨f - 1, by omega⟩
    have hrb := hinvr.rb_lt
    have hna := lt_of_getElem? ha
    have hnb := lt_of_getElem? hb
    have hnlr : ¬ l > r := by omega
    by_cases hex : l = tl ∧ r = tr
    · obtain ⟨rfl, rfl⟩ := hex
      obtain ⟨v, hv, hred⟩ := (TreeInv.inner node l r a b hlt hinvl hinvr ha hb hnd).value hassoc
      exact ⟨v, by simp [GetRec, rd_of_getElem? hv, if_neg hnlr], hred⟩
    · have e1 : (tl + (tr + 2 ^ 64 - tl) % 2 ^ 64 / 2) % 2 ^ 64 = tl + (tr - tl) / 2 :=
        mid_build tl tr hlt.le (by omega)
      have e2 : (2 * node) % 2 ^ 64 = 2 * node := Nat.mod_eq_of_lt (by omega)
      have e3 : (2 * node + 1) % 2 ^ 64 = 2 * node + 1 := Nat.mod_eq_of_lt (by omega)
      have e4 : (tl + (tr - tl) / 2 + 1) % 2 ^ 64 = tl + (tr - tl) / 2 + 1 :=
        Nat.mod_eq_of_lt (by omega)
      have unfold1 : GetRec op dflt (g + 1 + 1) t node tl tr l r =
          (GetRec op dflt (g + 1) t (2 * node) tl (tl + (tr - tl) / 2) l
            (min r (tl + (tr - tl) / 2))).bind fun a =>
          (GetRec op dflt (g + 1) t (2 * node + 1) (tl + (tr - tl) / 2 + 1) tr
            (max l (tl + (tr - tl) / 2 + 1)) r).bind fun b => .ok (op a b) := by
        rw [GetRec]
        simp only [if_neg hnlr, if_neg hex, e1, e2, e3, e4]
      rw [unfold1]
      rcases Nat.lt_or_ge (tl + (tr - tl) / 2) l with hcase | hcase
      · -- the query lies in the right half
        obtain ⟨vb, hgb, hrb2⟩ := ihr ht hD (g + 1) l r (by omega) (by omega) hlr hr
        rw [GetRec_empty op dflt g t _ _ _ _ _ (by omega : min r (tl + (tr - tl) / 2) < l),
          Nat.max_eq_left (by omega : tl + (tr - tl) / 2 + 1 ≤ l), hgb]
        exact ⟨vb, by simp [hidl], hrb2⟩
      · rcases Nat.lt_or_ge (tl + (tr - tl) / 2) r with hcase2 | hcase2
        · -- the query straddles the split
          obtain ⟨va, hga, hra⟩ :=
            ihl ht hD (g + 1) l (tl + (tr - tl) / 2) (by omega) hl hcase le_rfl
          obtain ⟨vb, hgb, hrb2⟩ :=
            ihr ht hD (g + 1) (tl + (tr - tl) / 2 + 1) r (by omega) le_rfl (by omega) hr
          rw [Nat.min_eq_right (by omega : tl + (tr - tl) / 2 ≤ r), hga,
            Nat.max_eq_right (by omega : l ≤ tl + (tr - tl) / 2 + 1), hgb]
          refine ⟨op va vb, rfl, ?_⟩
          rw [slice_split D hcase hcase2]
          exact reduce_append op hassoc hra hrb2
        · -- the query lies in the left half
          obtain ⟨va, hga, hra⟩ := ihl ht hD (g + 1) l r (by omega) hl hlr hcase2
          rw [Nat.min_eq_left hcase2, hga,
            GetRec_empty op dflt g t _ _ _ _ _
              (by omega : r < max l (tl + (tr - tl) / 2 + 1))]
          exact ⟨va, by simp [hidr], hra⟩

/-! ## More fuel never changes an outcome other than `outOfFuel` -/

theorem Res.bind_ne_outOfFuel {α β : Type} {x : Res α} {f : α → Res β}
    (h : x.bind f ≠ .outOfFuel) : x ≠ .outOfFuel := by
  intro hx
  rw [hx] at h
  exact h rfl

theorem Build_succ {T : Type} (op : T → T → T) (data : List T) :
    ∀ (fuel : Nat) (tree : List T) (node lb rb : Nat),
      Build op fuel data tree node lb rb ≠ .outOfFuel →
      Build op (fuel + 1) data tree node lb rb = Build op fuel data tree node lb rb := by
  intro fuel
  induction fuel with
  | zero => intro tree node lb rb h; exact absurd rfl h
  | succ f ih =>
    intro tree node lb rb h
    by_cases heq : lb = rb
    · simp only [Build, if_pos heq]
    · rw [Build] at h ⊢
      simp only [if_neg heq] at h ⊢
      have h1 := Res.bind_ne_outOfFuel h
      rw [ih _ _ _ _ h1]
      cases hx : Build op f data tree (2 * node % 2 ^ 64) lb
          ((lb + (rb + 2 ^ 64 - lb) % 2 ^ 64 / 2) % 2 ^ 64) with
      | ok t1 =>
        rw [hx] at h
        simp only [Res.ok_bind] at h ⊢
        have h2 := Res.bind_ne_outOfFuel h
        rw [ih _ _ _ _ h2]
        conv_rhs => rw [Build]
        simp only [if_neg heq, hx, Res.ok_bind]
      | outOfBounds =>
        conv_rhs => rw [Build]
        simp only [if_neg heq, hx, Res.outOfBounds_bind]
      | outOfFuel => exact absurd hx h1

theorem Build_mono {T : Type} (op : T → T → T) (data : List T) (fuel more : Nat)
    (tree : List T) (node lb rb : Nat)
    (h : Build op fuel data tree node lb rb ≠ .outOfFuel) :
    Build op (fuel + more) data tree node lb rb = Build op fuel data tree node lb rb := by
  induction more with
  | zero => rfl
  | succ m ih =>
    rw [← Nat.add_assoc, Build_succ op data _ _ _ _ _ (by rw [ih]; exact h), ih]

theorem Update_succ {T : Type} (op : T → T → T) :
    ∀ (fuel : Nat) (tree : List T) (node lb rb pos : Nat) (v : T),
      Update op fuel tree node lb rb pos v ≠ .outOfFuel →
      Update op (fuel + 1) tree node lb rb pos v = Update op fuel tree node lb rb pos v := by
  intro fuel
  induction fuel with
  | zero => intro tree node lb rb pos v h; exact absurd rfl h
  | succ f ih =>
    intro tree node lb rb pos v h
    by_cases heq : lb = rb
    · simp only [Update, if_pos heq]
    · by_cases hpos : pos ≤ (lb + rb) % 2 ^ 64 / 2
      · rw [Update] at h ⊢
        simp only [if_neg heq, if_pos hpos] at h ⊢
        rw [ih _ _ _ _ _ _ (Res.bind_ne_outOfFuel h)]
        conv_rhs => rw [Update]
        simp only [if_neg heq, if_pos hpos]
      · rw [Update] at h ⊢
        simp only [if_neg heq, if_neg hpos] at h ⊢
        rw [ih _ _ _ _ _ _ (Res.bind_ne_outOfFuel h)]
        conv_rhs => rw [Update]
        simp only [if_neg heq, if_neg hpos]

theorem Update_mono {T : Type} (op : T → T → T) (fuel more : Nat)
    (tree : List T) (node lb rb pos : Nat) (v : T)
    (h : Update op fuel tree node lb rb pos v ≠ .outOfFuel) :
    Update op (fuel + more) tree node lb rb pos v = Update op fuel tree node lb rb pos v := by
  induction more with
  | zero => rfl
  | succ m ih =>
    rw [← Nat.add_assoc, Update_succ op _ _ _ _ _ _ _ (by rw [ih]; exact h), ih]

theorem GetRec_succ {T : Type} (op : T → T → T) (dflt : T) :
    ∀ (fuel : Nat) (tree : List T) (node tl tr l r : Nat),
      GetRec op dflt fuel tree node tl tr l r ≠ .outOfFuel →
      GetRec op dflt (fuel + 1) tree node tl tr l r = GetRec op dflt fuel tree node tl tr l r := by
  intro fuel
  induction fuel with
  | zero => intro tree node tl tr l r h; exact absurd rfl h
  | succ f ih =>
    intro tree node tl tr l r h
    by_cases hgt : l > r
    · simp only [GetRec, if_pos hgt]
    · by_cases hex : l = tl ∧ r = tr
      · simp only [GetRec, if_neg hgt, if_pos hex]
      · rw [GetRec] at h ⊢
        simp only [if_neg hgt, if_neg hex] at h ⊢
        have h1 := Res.bind_ne_outOfFuel h
        rw [ih _ _ _ _ _ _ h1]
        cases hx : GetRec op dflt f tree (2 * node % 2 ^ 64) tl
            ((tl + (tr + 2 ^ 64 - tl) % 2 ^ 64 / 2) % 2 ^ 64) l
            (min r ((tl + (tr + 2 ^ 64 - tl) % 2 ^ 64 / 2) % 2 ^ 64)) with
        | ok a =>
          rw [hx] at h
          simp only [Res.ok_bind] at h ⊢
          have h2 := Res.bind_ne_outOfFuel h
          rw [ih _ _ _ _ _ _ h2]
          conv_rhs => rw [GetRec]
          simp only [if_neg hgt, if_neg hex, hx, Res.ok_bind]
        | outOfBounds =>
          conv_rhs => rw [GetRec]
          simp only [if_neg hgt, if_neg hex, hx, Res.outOfBounds_bind]
        | outOfFuel => exact absurd hx h1

theorem GetRec_mono {T : Type} (op : T → T → T) (dflt : T) (fuel more : Nat)
    (tree : List T) (node tl tr l r : Nat)
    (h : GetRec op dflt fuel tree node tl tr l r ≠ .outOfFuel) :
    GetRec op dflt (fuel + more) tree node tl tr l r =
      GetRec op dflt fuel tree node tl tr l r := by
  induction more with
  | zero => rfl
  | succ m ih =>
    rw [← Nat.add_assoc, GetRec_succ op dflt _ _ _ _ _ _ _ (by rw [ih]; exact h), ih]

theorem FlushLoop_mono {T : Type} (op : T → T → T) (fuel more N : Nat) :
    ∀ (buf : List (Nat × T)) (tree : List T),
      FlushLoop op fuel N buf tree ≠ .outOfFuel →
      FlushLoop op (fuel + more) N buf tree = FlushLoop op fuel N buf tree := by
  intro buf
  induction buf with
  | nil => intro tree _; rfl
  | cons p rest ih =>
    intro tree h
    obtain ⟨pos, val⟩ := p
    simp only [FlushLoop] at h ⊢
    have h1 := Res.bind_ne_outOfFuel h
    rw [Update_mono op fuel more _ _ _ _ _ _ h1]
    cases hx : Update op fuel tree 1 0 ((N + 2 ^ 64 - 1) % 2 ^ 64) pos val with
    | ok t1 =>
      rw [hx] at h
      simp only [Res.ok_bind] at h ⊢
      exact ih t1 h
    | outOfBounds => rfl
    | outOfFuel => exact absurd hx h1

/-- The unconditional form of `FlushChanges`: on an empty buffer the loop and the
clearing change nothing. -/
theorem FlushChanges_eq {T : Type} (op : T → T → T) (fuel : Nat) (s : TRsq T) :
    FlushChanges op fuel s =
      (FlushLoop op fuel s.N s.Updates s.Tree).bind fun t =>
        .ok { s with Tree := t, Updates := [] } := by
  obtain ⟨N, tree, buf⟩ := s
  cases buf with
  | nil => simp [FlushChanges, FlushLoop]
  | cons p rest => simp [FlushChanges]

theorem FlushChanges_mono {T : Type} (op : T → T → T) (fuel more : Nat) (s : TRsq T)
    (h : FlushChanges op fuel s ≠ .outOfFuel) :
    FlushChanges op (fuel + more) s = FlushChanges op fuel s := by
  rw [FlushChanges_eq] at h
  rw [FlushChanges_eq op (fuel + more), FlushChanges_eq op fuel,
    FlushLoop_mono op fuel more _ _ _ (Res.bind_ne_outOfFuel h)]

/-! ## The constructor -/

theorem exists_height (N : Nat) (hN : 1 ≤ N) : ∃ h, N ≤ 2 ^ h ∧ 2 ^ h < 2 * N := by
  rcases Nat.eq_or_lt_of_le hN with h1 | h1
  · exact ⟨0, by omega, by omega⟩
  · refine ⟨Nat.clog 2 N, Nat.le_pow_clog (by omega) N, ?_⟩
    have hpos : 0 < Nat.clog 2 N := Nat.clog_pos (by omega) h1
    have hlt := Nat.pow_pred_clog_lt_self (b := 2) (by omega) h1
    obtain ⟨c, hc⟩ : ∃ c, Nat.clog 2 N = c + 1 := ⟨Nat.clog 2 N - 1, by omega⟩
    rw [hc] at hlt ⊢
    simp only [Nat.pred_succ] at hlt
    rw [pow_succ]
    omega

theorem construct_spec {T : Type} (op : T → T → T) (dflt : T) (data : List T) (fuel : Nat)
    (hne : data ≠ []) (hsmall : 4 * data.length < 2 ^ 64) (hfuel : data.length ≤ fuel) :
    ∃ t, construct op dflt fuel data = .ok { N := data.length, Tree := t, Updates := [] } ∧
      t.length = 4 * data.length ∧ TreeInv op t data 1 0 (data.length - 1) := by
  have hN : 1 ≤ data.length := by
    cases data with
    | nil => exact absurd rfl hne
    | cons x xs => simp
  obtain ⟨h, hh1, hh2⟩ := exists_height data.length hN
  have e1 : (4 * data.length) % 2 ^ 64 = 4 * data.length := Nat.mod_eq_of_lt hsmall
  have e2 : (data.length + 2 ^ 64 - 1) % 2 ^ 64 = data.length - 1 :=
    pred_size _ hN (by omega)
  obtain ⟨t, hb, hl, _, hinv⟩ :=
    Build_spec op data (by omega) h fuel (List.replicate (4 * data.length) dflt) 1 0
      (data.length - 1) (by omega) le_rfl (by omega) (by omega) (by omega)
      (by simp; omega) (by simp; omega)
  refine ⟨t, ?_, by simpa using hl, hinv⟩
  have hN0 : data.length ≠ 0 := by omega
  simp only [construct, if_pos hN0, e1, e2, hb, Res.ok_bind, ne_eq, not_false_eq_true]

/-- Whatever the fuel, a construction that returns has built the invariant. -/
theorem construct_ok {T : Type} (op : T → T → T) (dflt : T) (data : List T) (fuel : Nat)
    (s : TRsq T) (hne : data ≠ []) (hsmall : 4 * data.length < 2 ^ 64)
    (h : construct op dflt fuel data = .ok s) :
    s.N = data.length ∧ s.Updates = [] ∧ s.Tree.length = 4 * data.length ∧
      TreeInv op s.Tree data 1 0 (data.length - 1) := by
  obtain ⟨t, hc, hl, hinv⟩ :=
    construct_spec op dflt data (fuel + data.length) hne hsmall (by omega)
  have hN0 : data.length ≠ 0 := by
    cases data with
    | nil => exact absurd rfl hne
    | cons x xs => simp
  simp only [construct, if_pos hN0, ne_eq, not_false_eq_true] at h hc
  have hnf : Build op fuel data (List.replicate ((4 * data.length) % 2 ^ 64) dflt) 1 0
      ((data.length + 2 ^ 64 - 1) % 2 ^ 64) ≠ .outOfFuel := by
    intro hx
    rw [hx] at h
    exact Res.noConfusion h
  rw [Build_mono op data fuel data.length _ _ _ _ hnf] at hc
  rw [hc] at h
  cases h
  exact ⟨rfl, rfl, hl, hinv⟩

/-! ## The pending-update buffer -/

theorem mem_assign_self {T : Type} (pos : Nat) (v : T) (buf : List (Nat × T)) :
    (pos, v) ∈ assign pos v buf := by
  induction buf with
  | nil => simp [assign]
  | cons p rest ih =>
    obtain ⟨k, w⟩ := p
    by_cases hk : k = pos
    · simp [assign, hk]
    · simp [assign, hk, ih]

theorem mem_assign_of_ne {T : Type} (pos : Nat) (v : T) (buf : List (Nat × T)) (k : Nat)
    (w : T) (hmem : (k, w) ∈ buf) (hne : k ≠ pos) : (k, w) ∈ assign pos v buf := by
  induction buf with
  | nil => simp at hmem
  | cons p rest ih =>
    obtain ⟨k2, w2⟩ := p
    by_cases hk : k2 = pos
    · simp only [assign, if_pos hk]
      rcases List.mem_cons.mp hmem with h | h
      · cases h; exact absurd hk hne
      · exact List.mem_cons_of_mem _ h
    · simp only [assign, if_neg hk]
      rcases List.mem_cons.mp hmem with h | h
      · rw [h]; exact List.mem_cons_self _ _
      · exact List.mem_cons_of_mem _ (ih h)

theorem mem_assign {T : Type} (pos : Nat) (v : T) (buf : List (Nat × T))
    (hnd : (buf.map Prod.fst).Nodup) (k : Nat) (w : T) (hmem : (k, w) ∈ assign pos v buf) :
    (k, w) = (pos, v) ∨ ((k, w) ∈ buf ∧ k ≠ pos) := by
  induction buf with
  | nil => left; simpa [assign] using hmem
  | cons p rest ih =>
    obtain ⟨k2, w2⟩ := p
    simp only [List.map_cons, List.nodup_cons, List.mem_map, not_exists, not_and] at hnd
    by_cases hk : k2 = pos
    · simp only [assign, if_pos hk] at hmem
      rcases List.mem_cons.mp hmem with h | h
      · left; rw [h, hk]
      · right
        refine ⟨List.mem_cons_of_mem _ h, fun hkp => ?_⟩
        exact hnd.1 (k, w) h (by rw [hk, hkp])
    · simp only [assign, if_neg hk] at hmem
      rcases List.mem_cons.mp hmem with h | h
      · right
        cases h
        exact ⟨List.mem_cons_self _ _, hk⟩
      · rcases ih hnd.2 h with h2 | h2
        · exact Or.inl h2
        · exact Or.inr ⟨List.mem_cons_of_mem _ h2.1, h2.2⟩

theorem keys_assign {T : Type} (pos : Nat) (v : T) (buf : List (Nat × T)) :
    (assign pos v buf).map Prod.fst =
      if pos ∈ buf.map Prod.fst then buf.map Prod.fst else buf.map Prod.fst ++ [pos] := by
  induction buf with
  | nil => simp [assign]
  | cons p rest ih =>
    obtain ⟨k, w⟩ := p
    by_cases hk : k = pos
    · simp [assign, hk]
    · have hk2 : ¬ pos = k := fun e => hk e.symm
      simp only [assign, if_neg hk, List.map_cons, ih, List.mem_cons, hk2, false_or]
      split_ifs <;> simp

theorem nodup_assign {T : Type} (pos : Nat) (v : T) (buf : List (Nat × T))
    (hnd : (buf.map Prod.fst).Nodup) : ((assign pos v buf).map Prod.fst).Nodup := by
  rw [keys_assign]
  split_ifs with h
  · exact hnd
  · exact List.Nodup.append hnd (List.nodup_singleton pos) (by simpa using h)

/-- Replaying entries that all carry the reference value of their position, on a
sequence that agrees with the reference array everywhere else, gives the reference
array. -/
theorem foldl_set_eq {T : Type} (ref : List T) :
    ∀ (buf : List (Nat × T)) (D : List T), D.length = ref.length →
      (∀ k v, (k, v) ∈ buf → ref[k]? = some v) →
      (∀ i, (∀ v, (i, v) ∉ buf) → D[i]? = ref[i]?) →
      buf.foldl (fun E p => E.set p.1 p.2) D = ref := by
  intro buf
  induction buf with
  | nil =>
    intro D _ _ hrest
    exact List.ext_getElem? fun i => hrest i (fun v => by simp)
  | cons p rest ih =>
    intro D hlen hpend hrest
    obtain ⟨k, v⟩ := p
    simp only [List.foldl_cons]
    have hk : ref[k]? = some v := hpend k v (List.mem_cons_self _ _)
    have hklt : k < D.length := by rw [hlen]; exact lt_of_getElem? hk
    refine ih (D.set k v) (by simp [hlen])
      (fun k2 v2 h2 => hpend k2 v2 (List.mem_cons_of_mem _ h2)) (fun i hi => ?_)
    by_cases hik : k = i
    · subst hik
      rw [hk]; simp [List.getElem?_set_self, hklt]
    · rw [List.getElem?_set_ne hik]
      refine hrest i (fun w hw => ?_)
      rcases List.mem_cons.mp hw with h | h
      · cases h; exact hik rfl
      · exact hi w h

/-! ## The flush -/

theorem FlushLoop_spec {T : Type} (op : T → T → T) (fuel N : Nat) (hN : 1 ≤ N)
    (hsmall : 4 * N < 2 ^ 64) (hfuel : N ≤ fuel) :
    ∀ (buf : List (Nat × T)) (t D : List T), t.length ≤ 2 ^ 64 → D.length = N →
      TreeInv op t D 1 0 (N - 1) → (∀ k v, (k, v) ∈ buf → k < N) →
      ∃ t2, FlushLoop op fuel N buf t = .ok t2 ∧ t2.length = t.length ∧
        TreeInv op t2 (buf.foldl (fun E p => E.set p.1 p.2) D) 1 0 (N - 1) := by
  intro buf
  induction buf with
  | nil => intro t D _ _ hinv _; exact ⟨t, rfl, rfl, hinv⟩
  | cons p rest ih =>
    intro t D ht hD hinv hkeys
    obtain ⟨k, v⟩ := p
    have hk := hkeys k v (List.mem_cons_self _ _)
    obtain ⟨t1, hu, hl1, _, hinv1⟩ :=
      Update_spec op hinv le_rfl ht (by omega) fuel k v (by omega) (Nat.zero_le _) (by omega)
    obtain ⟨t2, hf, hl2, hinv2⟩ :=
      ih t1 (D.set k v) (by omega) (by simp [hD]) hinv1
        (fun k2 v2 h2 => hkeys k2 v2 (List.mem_cons_of_mem _ h2))
    refine ⟨t2, ?_, by omega, hinv2⟩
    simp only [FlushLoop, pred_size N hN (by omega), hu, Res.ok_bind, hf]

/-- From a state that satisfies the invariant, a flush with enough fuel returns the
state with an empty buffer and a tree that satisfies `TreeInv` for the reference
array itself. -/
theorem FlushChanges_spec {T : Type} (op : T → T → T) (fuel : Nat) (s : TRsq T)
    (ref : List T) (hinv : Inv op s ref) (hfuel : s.N ≤ fuel) :
    ∃ t, FlushChanges op fuel s = .ok { N := s.N, Tree := t, Updates := [] } ∧
      t.length = s.Tree.length ∧ TreeInv op t ref 1 0 (s.N - 1) := by
  obtain ⟨D, hD, htree, hrest⟩ := hinv.tree
  have hkeys : ∀ k v, (k, v) ∈ s.Updates → k < s.N := fun k v h => by
    rw [hinv.size]; exact lt_of_getElem? (hinv.pending k v h)
  obtain ⟨t2, hf, hl, hinv2⟩ :=
    FlushLoop_spec op fuel s.N hinv.nonempty hinv.small hfuel s.Updates s.Tree D
      (by rw [hinv.len]; have := hinv.small; omega) hD htree hkeys
  rw [foldl_set_eq ref s.Updates D (by rw [hD, hinv.size]) hinv.pending hrest] at hinv2
  exact ⟨t2, by rw [FlushChanges_eq, hf]; rfl, hl, hinv2⟩

/-! ## The recursive query returns, whatever the operator -/

theorem GetRec_returns {T : Type} (op : T → T → T) (dflt : T)
    {t D : List T} {n tl tr : Nat} (h : TreeInv op t D n tl tr) :
    t.length ≤ 2 ^ 64 → D.length ≤ 2 ^ 64 →
    ∀ (fuel l r : Nat), tr - tl < fuel → (r < l ∨ (tl ≤ l ∧ r ≤ tr)) →
      ∃ v, GetRec op dflt fuel t n tl tr l r = .ok v := by
  induction h with
  | leaf node i x h1 h2 =>
    intro ht hD fuel l r hf hq
    obtain ⟨f, rfl⟩ : ∃ f, fuel = f + 1 := ⟨fuel - 1, by omega⟩
    by_cases hgt : r < l
    · exact ⟨dflt, GetRec_empty op dflt f t _ _ _ _ _ hgt⟩
    · obtain rfl : l = i := by omega
      obtain rfl : r = l := by omega
      exact ⟨x, by simp [GetRec, rd_of_getElem? h1]⟩
  | inner node tl tr a b hlt hinvl hinvr ha hb hnd ihl ihr =>
    intro ht hD fuel l r hf hq
    obtain ⟨f, rfl⟩ : ∃ f, fuel = f + 1 := ⟨fuel - 1, by omega⟩
    by_cases hgt : r < l
    · exact ⟨dflt, GetRec_empty op dflt f t _ _ _ _ _ hgt⟩
    · have hrb := hinvr.rb_lt
      have hna := lt_of_getElem? ha
      have hnb := lt_of_getElem? hb
      have hnlr : ¬ l > r := hgt
      by_cases hex : l = tl ∧ r = tr
      · obtain ⟨rfl, rfl⟩ := hex
        exact ⟨op a b, by simp [GetRec, rd_of_getElem? hnd, if_neg hnlr]⟩
      · have e1 : (tl + (tr + 2 ^ 64 - tl) % 2 ^ 64 / 2) % 2 ^ 64 = tl + (tr - tl) / 2 :=
          mid_build tl tr hlt.le (by omega)
        have e2 : (2 * node) % 2 ^ 64 = 2 * node := Nat.mod_eq_of_lt (by omega)
        have e3 : (2 * node + 1) % 2 ^ 64 = 2 * node + 1 := Nat.mod_eq_of_lt (by omega)
        have e4 : (tl + (tr - tl) / 2 + 1) % 2 ^ 64 = tl + (tr - tl) / 2 + 1 :=
          Nat.mod_eq_of_lt (by omega)
        obtain ⟨va, hga⟩ := ihl ht hD f l (min r (tl + (tr - tl) / 2)) (by omega)
          (by omega)
        obtain ⟨vb, hgb⟩ := ihr ht hD f (max l (tl + (tr - tl) / 2 + 1)) r (by omega)
          (by omega)
        refine ⟨op va vb, ?_⟩
        rw [GetRec]
        simp only [if_neg hnlr, if_neg hex, e1, e2, e3, e4, hga, hgb, Res.ok_bind]

/-! ## The public `Get` -/

theorem Get_of_flush {T : Type} (op : T → T → T) (dflt : T) (fuel : Nat) (s s1 : TRsq T)
    (l r : Nat) (h : FlushChanges op fuel s = .ok s1) :
    Get op dflt fuel s l r =
      (GetRec op dflt fuel s1.Tree 1 0 ((s1.N + 2 ^ 64 - 1) % 2 ^ 64) l r).bind
        fun v => .ok (v, s1) := by
  simp only [Get, h, Res.ok_bind]

theorem FlushChanges_clean {T : Type} (op : T → T → T) (fuel : Nat) (s : TRsq T)
    (h : s.Updates = []) : FlushChanges op fuel s = .ok s := by
  simp [FlushChanges, h]

theorem Get_flushed {T : Type} (op : T → T → T) (dflt : T) (fuel : Nat) (s s1 : TRsq T)
    (l r : Nat) (v : T) (h : Get op dflt fuel s l r = .ok (v, s1)) :
    FlushChanges op fuel s = .ok s1 := by
  unfold Get at h
  cases hx : FlushChanges op fuel s with
  | ok s2 =>
    rw [hx] at h
    simp only [Res.ok_bind] at h
    cases hy : GetRec op dflt fuel s2.Tree 1 0 ((s2.N + 2 ^ 64 - 1) % 2 ^ 64) l r with
    | ok w =>
      rw [hy] at h
      simp only [Res.ok_bind, Res.ok.injEq, Prod.mk.injEq] at h
      rw [h.2]
    | outOfBounds => rw [hy] at h; exact Res.noConfusion h
    | outOfFuel => rw [hy] at h; exact Res.noConfusion h
  | outOfBounds => rw [hx] at h; exact Res.noConfusion h
  | outOfFuel => rw [hx] at h; exact Res.noConfusion h

theorem Get_mono {T : Type} (op : T → T → T) (dflt : T) (fuel more : Nat) (s : TRsq T)
    (l r : Nat) (h : Get op dflt fuel s l r ≠ .outOfFuel) :
    Get op dflt (fuel + more) s l r = Get op dflt fuel s l r := by
  unfold Get at h ⊢
  have h1 := Res.bind_ne_outOfFuel h
  rw [FlushChanges_mono op fuel more s h1]
  cases hx : FlushChanges op fuel s with
  | ok s1 =>
    rw [hx] at h
    simp only [Res.ok_bind] at h ⊢
    rw [GetRec_mono op dflt fuel more _ _ _ _ _ _ (Res.bind_ne_outOfFuel h)]
  | outOfBounds => rfl
  | outOfFuel => exact absurd hx h1

/-! ## The invariant holds in every reachable state -/

theorem Inv.of_flushed {T : Type} (op : T → T → T) {s : TRsq T} {ref t : List T}
    (hinv : Inv op s ref) (hl : t.length = s.Tree.length)
    (ht : TreeInv op t ref 1 0 (s.N - 1)) :
    Inv op { N := s.N, Tree := t, Updates := [] } ref where
  size := hinv.size
  nonempty := hinv.nonempty
  small := hinv.small
  len := by rw [hl]; exact hinv.len
  nodup := List.nodup_nil
  pending := fun k v h => by simp at h
  tree := ⟨ref, hinv.size.symm, ht, fun _ _ => rfl⟩

theorem Inv.modify {T : Type} (op : T → T → T) {s : TRsq T} {ref : List T}
    (hinv : Inv op s ref) (pos : Nat) (val : T) :
    Inv op (Modify s pos val) (ref.set pos val) := by
  by_cases hpos : pos ≥ s.N
  · have e1 : Modify s pos val = s := by simp [Modify, hpos]
    have e2 : ref.set pos val = ref :=
      List.set_eq_of_length_le (by rw [← hinv.size]; exact hpos)
    rw [e1, e2]
    exact hinv
  · have e1 : Modify s pos val = { s with Updates := assign pos val s.Updates } := by
      simp [Modify, hpos]
    have hlt : pos < ref.length := by rw [← hinv.size]; omega
    obtain ⟨D, hD, htree, hrest⟩ := hinv.tree
    rw [e1]
    refine ⟨by simpa using hinv.size, hinv.nonempty, hinv.small, hinv.len,
      nodup_assign pos val _ hinv.nodup, ?_, ⟨D, hD, htree, ?_⟩⟩
    · intro k v hmem
      rcases mem_assign pos val _ hinv.nodup k v hmem with h | ⟨h, hne⟩
      · cases h
        simp [List.getElem?_set_self, hlt]
      · rw [List.getElem?_set_ne (fun e => hne e.symm)]
        exact hinv.pending k v h
    · intro i hi
      have hne : pos ≠ i := fun e => hi val (e ▸ mem_assign_self pos val _)
      rw [List.getElem?_set_ne hne]
      exact hrest i (fun w hw => hi w (mem_assign_of_ne pos val _ i w hw (fun e => hne e.symm)))

theorem Inv.reorder {T : Type} (op : T → T → T) {s : TRsq T} {ref : List T}
    (hinv : Inv op s ref) (u : List (Nat × T)) (hperm : s.Updates.Perm u) :
    Inv op { s with Updates := u } ref := by
  obtain ⟨D, hD, htree, hrest⟩ := hinv.tree
  refine ⟨hinv.size, hinv.nonempty, hinv.small, hinv.len,
    (hperm.map Prod.fst).nodup_iff.mp hinv.nodup,
    fun k v h => hinv.pending k v (hperm.mem_iff.mpr h),
    ⟨D, hD, htree, fun i hi => hrest i (fun w hw => hi w (hperm.mem_iff.mp hw))⟩⟩

/-- Whatever the fuel and the bounds, a `Get` that returns leaves the flushed
state: the buffer is empty and the tree satisfies `TreeInv` for the reference
array. -/
theorem Inv.get {T : Type} (op : T → T → T) (dflt : T) {s s1 : TRsq T} {ref : List T}
    (hinv : Inv op s ref) (fuel l r : Nat) (v : T)
    (h : Get op dflt fuel s l r = .ok (v, s1)) :
    Inv op s1 ref ∧ s1.N = s.N ∧ s1.Updates = [] ∧ TreeInv op s1.Tree ref 1 0 (s.N - 1) := by
  have hf := Get_flushed op dflt fuel s s1 l r v h
  obtain ⟨t, hft, hl, ht⟩ := FlushChanges_spec op (fuel + s.N) s ref hinv (by omega)
  rw [FlushChanges_mono op fuel s.N s (by rw [hf]; exact fun e => Res.noConfusion e), hf] at hft
  cases hft
  exact ⟨Inv.of_flushed op hinv hl ht, rfl, rfl, ht⟩

theorem Reach.inv {T : Type} (op : T → T → T) (dflt : T) {init : List T} {s : TRsq T}
    {ref : List T} (h : Reach op dflt init s ref) (hne : init ≠ [])
    (hsmall : 4 * init.length < 2 ^ 64) : Inv op s ref ∧ s.N = init.length := by
  induction h with
  | construct fuel s hc =>
    obtain ⟨hN, hU, hL, hT⟩ := construct_ok op dflt init fuel s hne hsmall hc
    have hpos : 1 ≤ init.length := by
      cases init with
      | nil => exact absurd rfl hne
      | cons x xs => simp
    refine ⟨⟨hN, by omega, by omega, by omega, by simp [hU], by simp [hU],
      ⟨init, hN.symm, by rw [hN]; exact hT, fun _ _ => rfl⟩⟩, hN⟩
  | modify s ref pos val _ ih =>
    refine ⟨ih.1.modify op pos val, ?_⟩
    have := (ih.1.modify op pos val).size
    have h2 := ih.1.size
    simp only [List.length_set] at this
    omega
  | get fuel s s1 ref l r v _ hg ih =>
    obtain ⟨h1, h2, _, _⟩ := ih.1.get op dflt fuel l r v hg
    exact ⟨h1, by omega⟩
  | reorder s ref u _ hperm ih =>
    exact ⟨ih.1.reorder op u hperm, ih.2⟩

/-- From a state that satisfies the invariant, a `Get` with enough fuel and a right
bound below `N` returns, and leaves the flushed state. -/
theorem Get_returns {T : Type} (op : T → T → T) (dflt : T) {s : TRsq T} {ref : List T}
    (hinv : Inv op s ref) (fuel l r : Nat) (hfuel : s.N ≤ fuel) (hr : r < s.N) :
    ∃ v t, Get op dflt fuel s l r = .ok (v, { N := s.N, Tree := t, Updates := [] }) ∧
      FlushChanges op fuel s = .ok { N := s.N, Tree := t, Updates := [] } ∧
      GetRec op dflt fuel t 1 0 (s.N - 1) l r = .ok v ∧
      t.length = s.Tree.length ∧ TreeInv op t ref 1 0 (s.N - 1) := by
  obtain ⟨t, hf, hl, ht⟩ := FlushChanges_spec op fuel s ref hinv hfuel
  have hlen : t.length ≤ 2 ^ 64 := by rw [hl, hinv.len]; have := hinv.small; omega
  have hsz : ref.length ≤ 2 ^ 64 := by rw [← hinv.size]; have := hinv.small; omega
  obtain ⟨v, hg⟩ :=
    GetRec_returns op dflt ht hlen hsz fuel l r (by omega) (Or.inr ⟨Nat.zero_le _, by omega⟩)
  refine ⟨v, t, ?_, hf, hg, hl, ht⟩
  rw [Get_of_flush op dflt fuel s _ l r hf]
  simp only [pred_size s.N hinv.nonempty (by have := hinv.small; omega), hg, Res.ok_bind]

/-- From a state that satisfies the invariant, for an associative operator with
`dflt` as two-sided identity, an in-range `Get` returns the ordered reduction of
the reference array over the queried range. -/
theorem Get_value {T : Type} (op : T → T → T) (dflt : T)
    (hassoc : ∀ a b c, op (op a b) c = op a (op b c))
    (hidl : ∀ a, op dflt a = a) (hidr : ∀ a, op a dflt = a)
    {s : TRsq T} {ref : List T} (hinv : Inv op s ref) (fuel l r : Nat)
    (hfuel : s.N ≤ fuel) (hlr : l ≤ r) (hr : r < s.N) :
    ∃ v s1, Get op dflt fuel s l r = .ok (v, s1) ∧ reduce op (slice ref l r) = some v := by
  obtain ⟨v, t, hg, _, hrec, hl, ht⟩ := Get_returns op dflt hinv fuel l r hfuel hr
  have hlen : t.length ≤ 2 ^ 64 := by rw [hl, hinv.len]; have := hinv.small; omega
  have hsz : ref.length ≤ 2 ^ 64 := by rw [← hinv.size]; have := hinv.small; omega
  obtain ⟨w, hw, hred⟩ :=
    GetRec_spec op dflt hassoc hidl hidr ht hlen hsz fuel l r (by omega) (Nat.zero_le _) hlr
      (by omega)
  rw [hrec] at hw
  cases hw
  exact ⟨v, _, hg, hred⟩

theorem reduce_add_eq_sum (xs : List Int) (v : Int)
    (h : reduce (fun a b : Int => a + b) xs = some v) : xs.sum = v := by
  cases xs with
  | nil => simp [reduce] at h
  | cons x rest =>
    simp only [reduce, Option.some.injEq] at h
    rw [← h, List.sum_cons]
    clear h
    induction rest generalizing x with
    | nil => simp
    | cons y ys ih =>
      simp only [List.foldl_cons, List.sum_cons]
      rw [← ih (x + y)]
      ring

theorem slice_full {T : Type} (S : List T) : slice S 0 (S.length - 1) = S := by
  cases S with
  | nil => rfl
  | cons x xs => simp [slice]

theorem assign_assign {T : Type} (pos : Nat) (v1 v2 : T) (buf : List (Nat × T)) :
    assign pos v2 (assign pos v1 buf) = assign pos v2 buf := by
  induction buf with
  | nil => simp [assign]
  | cons p rest ih =>
    obtain ⟨k, w⟩ := p
    by_cases hk : k = pos
    · simp [assign, hk]
    · simp [assign, hk, ih]

theorem lookup_assign_self {T : Type} (pos : Nat) (v : T) (buf : List (Nat × T)) :
    (assign pos v buf).lookup pos = some v := by
  induction buf with
  | nil => simp [assign, List.lookup]
  | cons p rest ih =>
    obtain ⟨k, w⟩ := p
    by_cases hk : k = pos
    · simp [assign, hk, List.lookup]
    · have hk2 : (pos == k) = false := by simpa using fun e => hk e.symm
      simp [assign, hk, List.lookup, hk2, ih]

theorem lookup_assign_ne {T : Type} (pos q : Nat) (v : T) (buf : List (Nat × T))
    (hq : q ≠ pos) : (assign pos v buf).lookup q = buf.lookup q := by
  induction buf with
  | nil =>
    have : (q == pos) = false := by simpa using hq
    simp [assign, List.lookup, this]
  | cons p rest ih =>
    obtain ⟨k, w⟩ := p
    by_cases hk : k = pos
    · have : (q == k) = false := by simpa [hk] using hq
      simp [assign, hk, List.lookup, this]
      rw [← hk, this]
    · by_cases hqk : q = k
      · simp [assign, hk, List.lookup, hqk]
      · have : (q == k) = false := by simpa using hqk
        simp [assign, hk, List.lookup, this, ih]

theorem TMin_assoc (a b c : Int) : TMin (TMin a b) c = TMin a (TMin b c) := by
  unfold TMin
  split_ifs <;> omega

/-! ## The claims -/

/-- C1 (update correctness, `TRsq<int, std::plus<>>`): in every state reached from
the construction on a non-empty integer sequence `S` by any finite interleaving of
`Modify` and `Get` calls, `Get(l, r)` with `0 <= l <= r < N` returns the sum of
`R[l..r]`, where `R` is `S` with every `Modify` issued so far applied in call order.
The length of `S` is such that `4 * N` is a `size_t`; the fuel only has to reach
`N`. -/
theorem update_correctness (S R : List Int) (s : TRsq Int) (fuel l r : Nat)
    (hS : S ≠ []) (hsmall : 4 * S.length < 2 ^ 64)
    (hreach : Reach (fun a b : Int => a + b) 0 S s R)
    (hlr : l ≤ r) (hr : r < S.length) (hfuel : S.length ≤ fuel) :
    ∃ s1, Get (fun a b : Int => a + b) 0 fuel s l r = .ok ((slice R l r).sum, s1) := by
  obtain ⟨hinv, hN⟩ := hreach.inv _ _ hS hsmall
  obtain ⟨v, s1, hg, hred⟩ :=
    Get_value (fun a b : Int => a + b) 0 (fun a b c => Int.add_assoc a b c)
      (fun a => Int.zero_add a) (fun a => Int.add_zero a) hinv fuel l r (by omega) hlr
      (by omega)
  rw [reduce_add_eq_sum _ _ hred]
  exact ⟨s1, hg⟩

/-- Witness of C1: the scenario of the specification, `[3, 1, 4, 1, 5]`, then
`Modify(2, 10)`, then `Get(0, 4)`, which returns 20. -/
theorem update_correctness_witness :
    ∃ s0, construct (fun a b : Int => a + b) 0 5 [3, 1, 4, 1, 5] = .ok s0 ∧
      ∃ s1, Get (fun a b : Int => a + b) 0 5 (Modify s0 2 10) 0 4 = .ok (20, s1) :=
  ⟨_, rfl, update_correctness [3, 1, 4, 1, 5] _ _ 5 0 4 (by decide) (by norm_num)
    (Reach.modify _ _ 2 10 (Reach.construct 5 _ rfl)) (by decide) (by decide) (by decide)⟩

/-- C2 (build correctness): for every non-empty sequence `S` and every associative
operator, with no assumption on `T()`, the construction returns and `Get(0, N-1)`
issued right after it returns the left-to-right reduction of `S`. -/
theorem build_correctness {T : Type} (op : T → T → T) (dflt : T) (S : List T) (fuel : Nat)
    (hassoc : ∀ a b c, op (op a b) c = op a (op b c))
    (hS : S ≠ []) (hsmall : 4 * S.length < 2 ^ 64) (hfuel : S.length ≤ fuel) :
    ∃ s v s1, construct op dflt fuel S = .ok s ∧
      Get op dflt fuel s 0 (S.length - 1) = .ok (v, s1) ∧ reduce op S = some v := by
  obtain ⟨t, hc, hl, hinv⟩ := construct_spec op dflt S fuel hS hsmall hfuel
  obtain ⟨v, hv, hred⟩ := hinv.value hassoc
  rw [slice_full] at hred
  have hN : 1 ≤ S.length := by
    cases S with
    | nil => exact absurd rfl hS
    | cons x xs => simp
  obtain ⟨f, rfl⟩ : ∃ f, fuel = f + 1 := ⟨fuel - 1, by omega⟩
  refine ⟨_, v, { N := S.length, Tree := t, Updates := [] }, hc, ?_, hred⟩
  rw [Get_of_flush op dflt _ _ _ 0 _ (FlushChanges_clean op _ _ rfl)]
  simp only [pred_size S.length hN (by omega), GetRec, gt_iff_lt, Nat.not_lt_zero,
    if_false, and_self, if_true, rd_of_getElem? hv, Res.ok_bind]

/-- Witness of C2: the minimum of `[5, 7, 6]` with `TMin`, whose `T()` is not an
identity. -/
theorem build_correctness_witness :
    ∃ s v s1, construct TMin 0 3 [5, 7, 6] = .ok s ∧
      Get TMin 0 3 s 0 2 = .ok (v, s1) ∧ reduce TMin [5, 7, 6] = some v :=
  build_correctness TMin 0 [5, 7, 6] 3 TMin_assoc (by decide) (by norm_num) (by decide)

/-- C3 (failing input): with `TMin` and `T() = 0`, on `[1, 2, 3]` the query
`Get(0, 1)` returns 0, while the minimum of `S[0..1]` is 1: the default value of the
empty sub-range under node 3 enters the result. -/
theorem min_query_returns_default :
    ∃ s s1, construct TMin 0 3 [1, 2, 3] = .ok s ∧ Get TMin 0 3 s 0 1 = .ok (0, s1) ∧
      reduce TMin (slice [1, 2, 3] 0 1) = some 1 :=
  ⟨_, _, rfl, rfl, rfl⟩

/-- C4 (order preservation): for every associative operator, commutative or not, of
which `T()` is a two-sided identity, every non-empty `S` and `0 <= l <= r < N`,
`Get(l, r)` on the freshly built tree returns `S[l] op ... op S[r]` combined in
increasing index order. -/
theorem order_preservation {T : Type} (op : T → T → T) (dflt : T) (S : List T)
    (fuel l r : Nat) (hassoc : ∀ a b c, op (op a b) c = op a (op b c))
    (hidl : ∀ a, op dflt a = a) (hidr : ∀ a, op a dflt = a)
    (hS : S ≠ []) (hsmall : 4 * S.length < 2 ^ 64) (hfuel : S.length ≤ fuel)
    (hlr : l ≤ r) (hr : r < S.length) :
    ∃ s v s1, construct op dflt fuel S = .ok s ∧ Get op dflt fuel s l r = .ok (v, s1) ∧
      reduce op (slice S l r) = some v := by
  obtain ⟨t, hc, _, _⟩ := construct_spec op dflt S fuel hS hsmall hfuel
  obtain ⟨hinv, hN⟩ := (Reach.construct fuel _ hc).inv op dflt hS hsmall
  obtain ⟨v, s1, hg, hred⟩ :=
    Get_value op dflt hassoc hidl hidr hinv fuel l r hfuel hlr hr
  exact ⟨_, v, s1, hc, hg, hred⟩

/-- Witness of C4: list concatenation over `[[1], [2], [3]]`, query `(1, 2)`. -/
theorem order_preservation_witness :
    ∃ s v s1, construct (fun a b : List Nat => a ++ b) [] 3 [[1], [2], [3]] = .ok s ∧
      Get (fun a b : List Nat => a ++ b) [] 3 s 1 2 = .ok (v, s1) ∧
      reduce (fun a b : List Nat => a ++ b) (slice [[1], [2], [3]] 1 2) = some v :=
  order_preservation (fun a b : List Nat => a ++ b) [] [[1], [2], [3]] 3 1 2
    (fun a b c => List.append_assoc a b c) (fun a => List.nil_append a)
    (fun a => List.append_nil a) (by decide) (by norm_num) (by decide) (by decide)
    (by decide)

/-- C5 (last write wins): for every state, position and values, the state after
`Modify(pos, v1)` followed by `Modify(pos, v2)` is the state after `Modify(pos, v2)`
alone, so every later `Get` has the same outcome in both. -/
theorem last_write_wins {T : Type} (s : TRsq T) (pos : Nat) (v1 v2 : T) :
    Modify (Modify s pos v1) pos v2 = Modify s pos v2 ∧
      ∀ (op : T → T → T) (dflt : T) (fuel l r : Nat),
        Get op dflt fuel (Modify (Modify s pos v1) pos v2) l r =
          Get op dflt fuel (Modify s pos v2) l r := by
  have h : Modify (Modify s pos v1) pos v2 = Modify s pos v2 := by
    by_cases hpos : pos ≥ s.N
    · simp [Modify, hpos]
    · simp [Modify, hpos, assign_assign]
  exact ⟨h, fun op dflt fuel l r => by rw [h]⟩

/-- C6 (out-of-range update): for every state and every `pos >= N`, `Modify(pos, v)`
leaves the state, tree array and pending buffer, unchanged, so every later `Get`
has the outcome it would have had without the call. -/
theorem modify_out_of_range {T : Type} (s : TRsq T) (pos : Nat) (v : T)
    (hpos : s.N ≤ pos) :
    (Modify s pos v).Tree = s.Tree ∧ (Modify s pos v).Updates = s.Updates ∧
      Modify s pos v = s ∧
      ∀ (op : T → T → T) (dflt : T) (fuel l r : Nat),
        Get op dflt fuel (Modify s pos v) l r = Get op dflt fuel s l r := by
  have h : Modify s pos v = s := by simp [Modify, hpos]
  exact ⟨by rw [h], by rw [h], h, fun op dflt fuel l r => by rw [h]⟩

/-- Witness of C6: `Modify(5, 9)` on a dirty state of size 5. -/
theorem modify_out_of_range_witness :
    Modify (T := Int) ⟨5, [0, 14, 8, 6, 4, 4, 1, 5, 3, 1], [(2, 10)]⟩ 5 9 =
      ⟨5, [0, 14, 8, 6, 4, 4, 1, 5, 3, 1], [(2, 10)]⟩ :=
  (modify_out_of_range (T := Int) ⟨5, [0, 14, 8, 6, 4, 4, 1, 5, 3, 1], [(2, 10)]⟩ 5 9
    (by decide)).2.2.1

/-- C7 (idempotent flush): in every reachable state, clean or dirty, of a non-empty
sequence and for `0 <= l <= r < N`, `Get(l, r)` returns, a second `Get(l, r)` right
after it returns the same value, and the second call leaves the tree array and the
empty buffer exactly as the first call left them. -/
theorem idempotent_flush {T : Type} (op : T → T → T) (dflt : T) (S R : List T)
    (s : TRsq T) (fuel l r : Nat) (hS : S ≠ []) (hsmall : 4 * S.length < 2 ^ 64)
    (hreach : Reach op dflt S s R) (_hlr : l ≤ r) (hr : r < s.N) (hfuel : s.N ≤ fuel) :
    ∃ v s1, Get op dflt fuel s l r = .ok (v, s1) ∧ Get op dflt fuel s1 l r = .ok (v, s1) ∧
      s1.Updates = [] := by
  obtain ⟨hinv, _⟩ := hreach.inv op dflt hS hsmall
  obtain ⟨v, t, hg, hf, _, _, _⟩ := Get_returns op dflt hinv fuel l r hfuel hr
  refine ⟨v, _, hg, ?_, rfl⟩
  rw [Get_of_flush op dflt fuel _ _ l r (FlushChanges_clean op fuel _ rfl),
    ← Get_of_flush op dflt fuel s _ l r hf]
  exact hg

/-- Witness of C7: the dirty state after `Modify(2, 10)` on `[3, 1, 4, 1, 5]`. -/
theorem idempotent_flush_witness :
    ∃ s0, construct (fun a b : Int => a + b) 0 5 [3, 1, 4, 1, 5] = .ok s0 ∧
      ∃ v s1, Get (fun a b : Int => a + b) 0 5 (Modify s0 2 10) 0 4 = .ok (v, s1) ∧
        Get (fun a b : Int => a + b) 0 5 s1 0 4 = .ok (v, s1) ∧ s1.Updates = [] :=
  ⟨_, rfl, idempotent_flush (fun a b : Int => a + b) 0 [3, 1, 4, 1, 5] _ _ 5 0 4
    (by decide) (by norm_num) (Reach.modify _ _ 2 10 (Reach.construct 5 _ rfl))
    (by decide) (by decide) (by decide)⟩

set_option maxRecDepth 20000 in
/-- C8 (counterexample): the tree constructed from the empty sequence has `N = 0`
and no storage; `Get(0, 0)` on it computes the right bound `N - 1 = 2 ^ 64 - 1`,
descends 64 levels and reads `Tree[0]` of the empty vector.  With any fuel it does
not return a value. -/
theorem empty_tree_query_faults :
    construct (fun a b : Int => a + b) 0 0 [] = .ok ⟨0, [], []⟩ ∧
      Get (fun a b : Int => a + b) 0 65 ⟨0, [], []⟩ 0 0 = .outOfBounds ∧
      ¬ ∃ fuel v s1, Get (fun a b : Int => a + b) 0 fuel ⟨0, [], []⟩ 0 0 = .ok (v, s1) := by
  have h65 : Get (fun a b : Int => a + b) 0 65 ⟨0, [], []⟩ 0 0 = .outOfBounds := rfl
  refine ⟨rfl, h65, ?_⟩
  rintro ⟨fuel, v, s1, h⟩
  have h1 := Get_mono (fun a b : Int => a + b) 0 fuel 65 ⟨0, [], []⟩ 0 0
    (by rw [h]; exact fun e => Res.noConfusion e)
  have h2 := Get_mono (fun a b : Int => a + b) 0 65 fuel ⟨0, [], []⟩ 0 0
    (by rw [h65]; exact fun e => Res.noConfusion e)
  rw [Nat.add_comm, h1, h, h65] at h2
  exact Res.noConfusion h2

/-- C8 (amended): on the tree constructed from the empty sequence, every query
`Get(l, r)` with `l > r` returns the default value `T()` and leaves the state as it
is. -/
theorem empty_tree_inverted_query {T : Type} (op : T → T → T) (dflt : T) (fuel l r : Nat)
    (hfuel : 1 ≤ fuel) (hlr : r < l) :
    ∃ s, construct op dflt fuel [] = .ok s ∧ s.N = 0 ∧ s.Tree = [] ∧
      Get op dflt fuel s l r = .ok (dflt, s) := by
  obtain ⟨f, rfl⟩ : ∃ f, fuel = f + 1 := ⟨fuel - 1, by omega⟩
  refine ⟨⟨0, [], []⟩, rfl, rfl, rfl, ?_⟩
  rw [Get_of_flush op dflt _ _ _ l r (FlushChanges_clean op _ _ rfl),
    GetRec_empty op dflt f _ _ _ _ _ _ hlr]
  rfl

/-- Witness of C8 (amended): `Get(3, 1)` on the empty tree of integers. -/
theorem empty_tree_inverted_query_witness :
    ∃ s, construct (fun a b : Int => a + b) 0 1 [] = .ok s ∧ s.N = 0 ∧ s.Tree = [] ∧
      Get (fun a b : Int => a + b) 0 1 s 3 1 = .ok (0, s) :=
  empty_tree_inverted_query (fun a b : Int => a + b) 0 1 3 1 (by decide) (by decide)

/-- C9 (Modify defers all tree work): for every state and every `pos < N`,
`Modify(pos, v)` leaves the tree array and `N` unchanged, makes `v` the buffer entry
of `pos`, and leaves the entry of every other position as it was. -/
theorem modify_defers {T : Type} (s : TRsq T) (pos : Nat) (v : T) (hpos : pos < s.N) :
    (Modify s pos v).Tree = s.Tree ∧ (Modify s pos v).N = s.N ∧
      (Modify s pos v).Updates.lookup pos = some v ∧
      ∀ q, q ≠ pos → (Modify s pos v).Updates.lookup q = s.Updates.lookup q := by
  have h : Modify s pos v = { s with Updates := assign pos v s.Updates } := by
    simp [Modify, hpos]
  rw [h]
  exact ⟨rfl, rfl, lookup_assign_self pos v _, fun q hq => lookup_assign_ne pos q v _ hq⟩

/-- Witness of C9: `Modify(0, 7)` on a state of size 5 with entries for 2 and 0. -/
theorem modify_defers_witness :
    (Modify (T := Int) ⟨5, [0, 14, 8, 6, 4, 4, 1, 5, 3, 1], [(2, 10), (0, 0)]⟩ 0 7).Updates
      = [(2, 10), (0, 7)] ∧
    (Modify (T := Int) ⟨5, [0, 14, 8, 6, 4, 4, 1, 5, 3, 1], [(2, 10), (0, 0)]⟩ 0 7).Tree
      = [0, 14, 8, 6, 4, 4, 1, 5, 3, 1] ∧
    (Modify (T := Int) ⟨5, [0, 14, 8, 6, 4, 4, 1, 5, 3, 1], [(2, 10), (0, 0)]⟩ 0 7).Updates.lookup 0
      = some 7 :=
  ⟨rfl, (modify_defers (T := Int) ⟨5, [0, 14, 8, 6, 4, 4, 1, 5, 3, 1], [(2, 10), (0, 0)]⟩ 0 7
      (by decide)).1,
    (modify_defers (T := Int) ⟨5, [0, 14, 8, 6, 4, 4, 1, 5, 3, 1], [(2, 10), (0, 0)]⟩ 0 7
      (by decide)).2.2.1⟩

/-- C10 (query always ends clean): in every reachable state of a non-empty sequence
and for `0 <= l <= r < N`, `Get(l, r)` returns, and after it the pending buffer is
empty and the tree satisfies `TreeInv` for the reference array, the initial sequence
overridden by the last in-range `Modify` of each position: the leaf of every index
holds its element and every internal node the combination of its two children. -/
theorem query_ends_clean {T : Type} (op : T → T → T) (dflt : T) (S R : List T)
    (s : TRsq T) (fuel l r : Nat) (hS : S ≠ []) (hsmall : 4 * S.length < 2 ^ 64)
    (hreach : Reach op dflt S s R) (_hlr : l ≤ r) (hr : r < s.N) (hfuel : s.N ≤ fuel) :
    ∃ v s1, Get op dflt fuel s l r = .ok (v, s1) ∧ s1.Updates = [] ∧ s1.N = s.N ∧
      R.length = s.N ∧ TreeInv op s1.Tree R 1 0 (s.N - 1) := by
  obtain ⟨hinv, _⟩ := hreach.inv op dflt hS hsmall
  obtain ⟨v, t, hg, _, _, _, ht⟩ := Get_returns op dflt hinv fuel l r hfuel hr
  exact ⟨v, _, hg, rfl, rfl, hinv.size.symm, ht⟩

/-- Witness of C10: the dirty state after `Modify(2, 10)` on `[3, 1, 4, 1, 5]`; after
`Get(0, 4)` the tree satisfies the invariant for `[3, 1, 10, 1, 5]`. -/
theorem query_ends_clean_witness :
    ∃ s0, construct (fun a b : Int => a + b) 0 5 [3, 1, 4, 1, 5] = .ok s0 ∧
      ∃ v s1, Get (fun a b : Int => a + b) 0 5 (Modify s0 2 10) 0 4 = .ok (v, s1) ∧
        s1.Updates = [] ∧ s1.N = 5 ∧ [3, 1, 10, 1, 5].length = 5 ∧
        TreeInv (fun a b : Int => a + b) s1.Tree [3, 1, 10, 1, 5] 1 0 4 :=
  ⟨_, rfl, query_ends_clean (fun a b : Int => a + b) 0 [3, 1, 4, 1, 5] _ _ 5 0 4
    (by decide) (by norm_num) (Reach.modify _ _ 2 10 (Reach.construct 5 _ rfl))
    (by decide) (by decide) (by decide)⟩

/-! ## Unfolding the members with the named split points -/

theorem Build_unfold {T : Type} (op : T → T → T) (fuel : Nat) (data tree : List T)
    (node lb rb : Nat) (h : lb ≠ rb) :
    Build op (fuel + 1) data tree node lb rb =
      (Build op fuel data tree ((2 * node) % 2 ^ 64) lb (midBuild lb rb)).bind fun t1 =>
      (Build op fuel data t1 (((2 * node) % 2 ^ 64 + 1) % 2 ^ 64)
        ((midBuild lb rb + 1) % 2 ^ 64) rb).bind fun t2 =>
      (rd t2 ((2 * node) % 2 ^ 64)).bind fun a =>
      (rd t2 (((2 * node) % 2 ^ 64 + 1) % 2 ^ 64)).bind fun b =>
      wr t2 node (op a b) := by
  rw [Build]
  simp only [if_neg h, midBuild]

theorem Update_unfold {T : Type} (op : T → T → T) (fuel : Nat) (tree : List T)
    (node lb rb pos : Nat) (v : T) (h : lb ≠ rb) :
    Update op (fuel + 1) tree node lb rb pos v =
      (if pos ≤ midUpdate lb rb then
        Update op fuel tree ((2 * node) % 2 ^ 64) lb (midUpdate lb rb) pos v
      else
        Update op fuel tree (((2 * node) % 2 ^ 64 + 1) % 2 ^ 64)
          ((midUpdate lb rb + 1) % 2 ^ 64) rb pos v).bind fun t =>
      (rd t ((2 * node) % 2 ^ 64)).bind fun a =>
      (rd t (((2 * node) % 2 ^ 64 + 1) % 2 ^ 64)).bind fun b =>
      wr t node (op a b) := by
  rw [Update]
  simp only [if_neg h, midUpdate]

theorem GetRec_unfold {T : Type} (op : T → T → T) (dflt : T) (fuel : Nat) (tree : List T)
    (node tl tr l r : Nat) (h1 : ¬ l > r) (h2 : ¬ (l = tl ∧ r = tr)) :
    GetRec op dflt (fuel + 1) tree node tl tr l r =
      (GetRec op dflt fuel tree ((2 * node) % 2 ^ 64) (GetCalls tl tr l r).1.treeLeftBound
        (GetCalls tl tr l r).1.treeRightBound (GetCalls tl tr l r).1.leftBound
        (GetCalls tl tr l r).1.rightBound).bind fun a =>
      (GetRec op dflt fuel tree (((2 * node) % 2 ^ 64 + 1) % 2 ^ 64)
        (GetCalls tl tr l r).2.treeLeftBound (GetCalls tl tr l r).2.treeRightBound
        (GetCalls tl tr l r).2.leftBound (GetCalls tl tr l r).2.rightBound).bind fun b =>
      .ok (op a b) := by
  rw [GetRec]
  simp only [if_neg h1, if_neg h2, GetCalls, midBuild]

theorem midBuild_eq (lb rb : Nat) (h : lb ≤ rb) (hr : rb < 2 ^ 64) :
    midBuild lb rb = lb + (rb - lb) / 2 := mid_build lb rb h hr

theorem midUpdate_eq (lb rb : Nat) (h : lb ≤ rb) (hr : 2 * rb < 2 ^ 64) :
    midUpdate lb rb = lb + (rb - lb) / 2 := mid_update lb rb h hr

/-! ## The recursive query terminates -/

theorem Res.bind_ok_ne_outOfFuel {α β γ : Type} {x : Res α} {y : Res β} (f : α → β → γ)
    (hx : x ≠ .outOfFuel) (hy : y ≠ .outOfFuel) :
    (x.bind fun a => y.bind fun b => .ok (f a b)) ≠ .outOfFuel := by
  cases x with
  | ok a =>
    cases y with
    | ok b => exact fun e => Res.noConfusion e
    | outOfBounds => exact fun e => Res.noConfusion e
    | outOfFuel => exact absurd rfl hy
  | outOfBounds => exact fun e => Res.noConfusion e
  | outOfFuel => exact absurd rfl hx

theorem rd_ne_outOfFuel {T : Type} (v : List T) (i : Nat) : rd v i ≠ .outOfFuel := by
  unfold rd
  cases v[i]? with
  | none => exact fun e => Res.noConfusion e
  | some x => exact fun e => Res.noConfusion e

theorem GetCalls_descends (tl tr l r : Nat) (htr : tr < 2 ^ 64) (h1 : tl ≤ l) (h2 : l ≤ r)
    (h3 : r ≤ tr) (hex : ¬ (l = tl ∧ r = tr)) :
    (GetCalls tl tr l r).1.Descends tl tr ∧ (GetCalls tl tr l r).2.Descends tl tr := by
  have hlt : tl < tr := by
    by_contra hc
    exact hex ⟨by omega, by omega⟩
  have e1 := midBuild_eq tl tr hlt.le htr
  have e4 : (tl + (tr - tl) / 2 + 1) % 2 ^ 64 = tl + (tr - tl) / 2 + 1 :=
    Nat.mod_eq_of_lt (by omega)
  simp only [GetCalls, GetArgs.Descends, e1, e4]
  refine ⟨⟨by omega, by omega, ?_⟩, ⟨by omega, by omega, ?_⟩⟩
  · rcases Nat.lt_or_ge (min r (tl + (tr - tl) / 2)) l with h | h
    · exact Or.inl h
    · exact Or.inr ⟨h1, Nat.min_le_right _ _⟩
  · rcases Nat.lt_or_ge r (max l (tl + (tr - tl) / 2 + 1)) with h | h
    · exact Or.inl h
    · exact Or.inr ⟨Nat.le_max_right _ _, h3⟩

theorem GetRec_terminates {T : Type} (op : T → T → T) (dflt : T) (tree : List T) :
    ∀ (fuel node tl tr l r : Nat), tr < 2 ^ 64 → tr - tl < fuel →
      (r < l ∨ (tl ≤ l ∧ r ≤ tr)) →
      GetRec op dflt fuel tree node tl tr l r ≠ .outOfFuel := by
  intro fuel
  induction fuel with
  | zero => intro node tl tr l r _ hf _; omega
  | succ f ih =>
    intro node tl tr l r htr hf hq
    by_cases hgt : r < l
    · rw [GetRec_empty op dflt f tree _ _ _ _ _ hgt]
      exact fun e => Res.noConfusion e
    · have hin : tl ≤ l ∧ r ≤ tr := by
        rcases hq with h | h
        · exact absurd h hgt
        · exact h
      have hnlr : ¬ l > r := hgt
      by_cases hex : l = tl ∧ r = tr
      · rw [GetRec]
        simp only [if_neg hnlr, if_pos hex]
        exact rd_ne_outOfFuel _ _
      · obtain ⟨⟨ha1, ha2, ha3⟩, ⟨hb1, hb2, hb3⟩⟩ :=
          GetCalls_descends tl tr l r htr hin.1 (by omega) hin.2 hex
        have hb4 : (GetCalls tl tr l r).2.treeRightBound = tr := rfl
        have ha4 : (GetCalls tl tr l r).1.treeRightBound < 2 ^ 64 := by
          have : (GetCalls tl tr l r).1.treeLeftBound = tl := rfl
          omega
        rw [GetRec_unfold op dflt f tree node tl tr l r hnlr hex]
        exact Res.bind_ok_ne_outOfFuel op
          (ih _ _ _ _ _ ha4 (by omega) ha3)
          (ih _ _ _ _ _ (by rw [hb4]; exact htr) (by omega) hb3)

/-! ## The keys of the buffer in the reachable states -/

theorem key_of_mem_assign {T : Type} (pos : Nat) (v : T) (buf : List (Nat × T)) (k : Nat)
    (w : T) (h : (k, w) ∈ assign pos v buf) : k = pos ∨ ∃ w2, (k, w2) ∈ buf := by
  induction buf with
  | nil =>
    simp only [assign, List.mem_singleton, Prod.mk.injEq] at h
    exact Or.inl h.1
  | cons p rest ih =>
    obtain ⟨k2, w2⟩ := p
    by_cases hk : k2 = pos
    · simp only [assign, if_pos hk] at h
      rcases List.mem_cons.mp h with h1 | h1
      · simp only [Prod.mk.injEq] at h1
        exact Or.inl (by rw [h1.1, hk])
      · exact Or.inr ⟨w, List.mem_cons_of_mem _ h1⟩
    · simp only [assign, if_neg hk] at h
      rcases List.mem_cons.mp h with h1 | h1
      · exact Or.inr ⟨w, by rw [h1]; exact List.mem_cons_self _ _⟩
      · rcases ih h1 with h2 | ⟨w3, h3⟩
        · exact Or.inl h2
        · exact Or.inr ⟨w3, List.mem_cons_of_mem _ h3⟩

theorem assign_ne_nil {T : Type} (pos : Nat) (v : T) (buf : List (Nat × T)) :
    assign pos v buf ≠ [] := by
  intro h
  have := mem_assign_self pos v buf
  rw [h] at this
  exact List.not_mem_nil _ this

theorem construct_fields {T : Type} (op : T → T → T) (dflt : T) (fuel : Nat) (data : List T)
    (s : TRsq T) (h : construct op dflt fuel data = .ok s) :
    s.N = data.length ∧ s.Updates = [] := by
  unfold construct at h
  by_cases hN : data.length ≠ 0
  · simp only [if_pos hN] at h
    cases hb : Build op fuel data (List.replicate ((4 * data.length) % 2 ^ 64) dflt) 1 0
        ((data.length + 2 ^ 64 - 1) % 2 ^ 64) with
    | ok t =>
      rw [hb] at h
      simp only [Res.ok_bind, Res.ok.injEq] at h
      rw [← h]
      exact ⟨rfl, rfl⟩
    | outOfBounds => rw [hb] at h; exact Res.noConfusion h
    | outOfFuel => rw [hb] at h; exact Res.noConfusion h
  · simp only [if_neg hN, Res.ok.injEq] at h
    rw [← h]
    exact ⟨rfl, rfl⟩

theorem FlushChanges_fields {T : Type} (op : T → T → T) (fuel : Nat) (s s1 : TRsq T)
    (h : FlushChanges op fuel s = .ok s1) : s1.N = s.N ∧ s1.Updates = [] := by
  rw [FlushChanges_eq] at h
  cases hb : FlushLoop op fuel s.N s.Updates s.Tree with
  | ok t =>
    rw [hb] at h
    simp only [Res.ok_bind, Res.ok.injEq] at h
    rw [← h]
    exact ⟨rfl, rfl⟩
  | outOfBounds => rw [hb] at h; exact Res.noConfusion h
  | outOfFuel => rw [hb] at h; exact Res.noConfusion h

/-- In every state reached from a construction, on an empty sequence or not, `N` is the
length of the initial sequence and every key of the buffer is below `N`. -/
theorem Reach.keys_lt {T : Type} (op : T → T → T) (dflt : T) {init : List T} {s : TRsq T}
    {ref : List T} (h : Reach op dflt init s ref) :
    s.N = init.length ∧ ∀ k v, (k, v) ∈ s.Updates → k < s.N := by
  induction h with
  | construct fuel s hc =>
    obtain ⟨hN, hU⟩ := construct_fields op dflt fuel init s hc
    exact ⟨hN, fun k v hm => by rw [hU] at hm; exact absurd hm (List.not_mem_nil _)⟩
  | modify s ref pos val _ ih =>
    by_cases hpos : pos ≥ s.N
    · have e : Modify s pos val = s := by simp [Modify, hpos]
      rw [e]; exact ih
    · have e : Modify s pos val = { s with Updates := assign pos val s.Updates } := by
        simp [Modify, hpos]
      rw [e]
      refine ⟨ih.1, fun k v hm => ?_⟩
      rcases key_of_mem_assign pos val s.Updates k v hm with h1 | ⟨w, h1⟩
      · show k < s.N
        omega
      · exact ih.2 k w h1
  | get fuel s s1 ref l r v _ hg ih =>
    obtain ⟨hN, hU⟩ := FlushChanges_fields op fuel s s1 (Get_flushed op dflt fuel s s1 l r v hg)
    exact ⟨by rw [hN]; exact ih.1,
      fun k v hm => by rw [hU] at hm; exact absurd hm (List.not_mem_nil _)⟩
  | reorder s ref u _ hperm ih =>
    exact ⟨ih.1, fun k v hm => ih.2 k v (hperm.mem_iff.mpr hm)⟩

/-! ## The leaf reached by `Update` and the leaves assigned by `Build` -/

theorem BuildLeaves_range :
    ∀ (fuel node lb rb : Nat), rb - lb < fuel → lb ≤ rb → rb < 2 ^ 64 →
      ∃ lv, BuildLeaves fuel node lb rb = .ok lv ∧
        ∀ k i, (k, i) ∈ lv → lb ≤ i ∧ i ≤ rb := by
  intro fuel
  induction fuel with
  | zero => intro node lb rb hf _ _; omega
  | succ f ih =>
    intro node lb rb hf hle hrb
    by_cases heq : lb = rb
    · refine ⟨[(node, lb)], by simp [BuildLeaves, heq], fun k i hm => ?_⟩
      simp only [List.mem_singleton, Prod.mk.injEq] at hm
      omega
    · have e1 := midBuild_eq lb rb hle hrb
      have e4 : (lb + (rb - lb) / 2 + 1) % 2 ^ 64 = lb + (rb - lb) / 2 + 1 :=
        Nat.mod_eq_of_lt (by omega)
      obtain ⟨l1, h1, r1⟩ := ih ((2 * node) % 2 ^ 64) lb (lb + (rb - lb) / 2) (by omega)
        (by omega) (by omega)
      obtain ⟨l2, h2, r2⟩ := ih (((2 * node) % 2 ^ 64 + 1) % 2 ^ 64) (lb + (rb - lb) / 2 + 1)
        rb (by omega) (by omega) hrb
      refine ⟨l1 ++ l2, ?_, fun k i hm => ?_⟩
      · rw [BuildLeaves]
        simp only [if_neg heq, e1, e4, h1, h2, Res.ok_bind]
      · rcases List.mem_append.mp hm with h | h
        · have := r1 k i h; omega
        · have := r2 k i h; omega

/-- With both split points computed without wrapping, `Update` reaches the base case
at the node that `Build` assigns to `pos`, and at no other; the range there is
`[pos, pos]`. -/
theorem UpdateLeaf_spec :
    ∀ (fuel node lb rb pos : Nat), rb - lb < fuel → lb ≤ pos → pos ≤ rb → 2 * rb < 2 ^ 64 →
      ∃ k lv, UpdateLeaf fuel node lb rb pos = .ok (k, pos, pos) ∧
        BuildLeaves fuel node lb rb = .ok lv ∧ (k, pos) ∈ lv ∧
        ∀ k2, (k2, pos) ∈ lv → k2 = k := by
  intro fuel
  induction fuel with
  | zero => intro node lb rb pos hf _ _ _; omega
  | succ f ih =>
    intro node lb rb pos hf hl hr hrb
    by_cases heq : lb = rb
    · obtain rfl : pos = lb := by omega
      refine ⟨node, [(node, pos)], by simp [UpdateLeaf, heq], by simp [BuildLeaves, heq],
        List.mem_singleton.mpr rfl, fun k2 hm => ?_⟩
      simp only [List.mem_singleton, Prod.mk.injEq] at hm
      exact hm.1
    · have e1 := midBuild_eq lb rb (by omega) (by omega)
      have e2 := midUpdate_eq lb rb (by omega) hrb
      have e4 : (lb + (rb - lb) / 2 + 1) % 2 ^ 64 = lb + (rb - lb) / 2 + 1 :=
        Nat.mod_eq_of_lt (by omega)
      by_cases hpos : pos ≤ lb + (rb - lb) / 2
      · obtain ⟨k, l1, hu, hb, hm, huniq⟩ :=
          ih ((2 * node) % 2 ^ 64) lb (lb + (rb - lb) / 2) pos (by omega) hl hpos (by omega)
        obtain ⟨l2, h2, r2⟩ := BuildLeaves_range f (((2 * node) % 2 ^ 64 + 1) % 2 ^ 64)
          (lb + (rb - lb) / 2 + 1) rb (by omega) (by omega) (by omega)
        refine ⟨k, l1 ++ l2, ?_, ?_, List.mem_append_left _ hm, fun k2 hk2 => ?_⟩
        · rw [UpdateLeaf]
          simp only [if_neg heq, e2, if_pos hpos, hu]
        · rw [BuildLeaves]
          simp only [if_neg heq, e1, e4, hb, h2, Res.ok_bind]
        · rcases List.mem_append.mp hk2 with h | h
          · exact huniq k2 h
          · have := r2 k2 pos h; omega
      · obtain ⟨k, l2, hu, hb, hm, huniq⟩ :=
          ih (((2 * node) % 2 ^ 64 + 1) % 2 ^ 64) (lb + (rb - lb) / 2 + 1) rb pos (by omega)
            (by omega) hr hrb
        obtain ⟨l1, h1, r1⟩ := BuildLeaves_range f ((2 * node) % 2 ^ 64) lb
          (lb + (rb - lb) / 2) (by omega) (by omega) (by omega)
        refine ⟨k, l1 ++ l2, ?_, ?_, List.mem_append_right _ hm, fun k2 hk2 => ?_⟩
        · rw [UpdateLeaf]
          simp only [if_neg heq, e2, if_neg hpos, e4, hu]
        · rw [BuildLeaves]
          simp only [if_neg heq, e1, e4, h1, hb, Res.ok_bind]
        · rcases List.mem_append.mp hk2 with h | h
          · have := r1 k2 pos h; omega
          · exact huniq k2 h

/-- In a tree that satisfies the invariant, every leaf that `Build` assigns holds the
element of its position. -/
theorem BuildLeaves_of_inv {T : Type} {op : T → T → T} {t D : List T} {n lb rb : Nat}
    (h : TreeInv op t D n lb rb) :
    t.length ≤ 2 ^ 64 → D.length ≤ 2 ^ 64 →
    ∀ (fuel : Nat) (lv : List (Nat × Nat)), BuildLeaves fuel n lb rb = .ok lv →
      ∀ k i, (k, i) ∈ lv → t[k]? = D[i]? := by
  induction h with
  | leaf node i x h1 h2 =>
    intro _ _ fuel lv hlv k j hm
    cases fuel with
    | zero => exact Res.noConfusion hlv
    | succ f =>
      simp only [BuildLeaves, if_true, Res.ok.injEq] at hlv
      rw [← hlv] at hm
      simp only [List.mem_singleton, Prod.mk.injEq] at hm
      rw [hm.1, hm.2, h1, h2]
  | inner node lb rb a b hlt hinvl hinvr ha hb hnd ihl ihr =>
    intro ht hD fuel lv hlv k j hm
    cases fuel with
    | zero => exact Res.noConfusion hlv
    | succ f =>
      have hrb := hinvr.rb_lt
      have hna := lt_of_getElem? ha
      have hnb := lt_of_getElem? hb
      have hne : ¬ lb = rb := by omega
      have e1 := midBuild_eq lb rb hlt.le (by omega)
      have e2 : (2 * node) % 2 ^ 64 = 2 * node := Nat.mod_eq_of_lt (by omega)
      have e3 : (2 * node + 1) % 2 ^ 64 = 2 * node + 1 := Nat.mod_eq_of_lt (by omega)
      have e4 : (lb + (rb - lb) / 2 + 1) % 2 ^ 64 = lb + (rb - lb) / 2 + 1 :=
        Nat.mod_eq_of_lt (by omega)
      rw [BuildLeaves] at hlv
      simp only [if_neg hne, e1, e2, e3, e4] at hlv
      cases h1 : BuildLeaves f (2 * node) lb (lb + (rb - lb) / 2) with
      | ok l1 =>
        rw [h1] at hlv
        simp only [Res.ok_bind] at hlv
        cases h2 : BuildLeaves f (2 * node + 1) (lb + (rb - lb) / 2 + 1) rb with
        | ok l2 =>
          rw [h2] at hlv
          simp only [Res.ok_bind, Res.ok.injEq] at hlv
          rw [← hlv] at hm
          rcases List.mem_append.mp hm with h | h
          · exact ihl ht hD f l1 h1 k j h
          · exact ihr ht hD f l2 h2 k j h
        | outOfBounds => rw [h2] at hlv; exact Res.noConfusion hlv
        | outOfFuel => rw [h2] at hlv; exact Res.noConfusion hlv
      | outOfBounds => rw [h1] at hlv; exact Res.noConfusion hlv
      | outOfFuel => rw [h1] at hlv; exact Res.noConfusion hlv

/-! ## The subscripts of `Tree` stay inside the vector -/

theorem Res.bind_eq_ok {α β : Type} {x : Res α} {f : α → Res β} {b : β}
    (h : x.bind f = .ok b) : ∃ a, x = .ok a ∧ f a = .ok b := by
  cases x with
  | ok a => exact ⟨a, rfl, h⟩
  | outOfBounds => exact Res.noConfusion h
  | outOfFuel => exact Res.noConfusion h

theorem capacity_children (node h cap : Nat) (hcap : (node + 1) * 2 ^ (h + 1) ≤ cap) :
    (2 * node + 1) * 2 ^ h ≤ cap ∧ (2 * node + 1 + 1) * 2 ^ h ≤ cap ∧ 2 * node + 1 < cap := by
  have hp : 1 ≤ 2 ^ h := Nat.one_le_two_pow
  have h2 : (2 * node + 1 + 1) * 2 ^ h ≤ cap := by
    have : (node + 1) * 2 ^ (h + 1) = (2 * node + 1 + 1) * 2 ^ h := by ring
    omega
  have h1 : (2 * node + 1) * 2 ^ h ≤ cap :=
    le_trans (Nat.mul_le_mul_right _ (by omega)) h2
  have h3 : 2 * node + 1 + 1 ≤ (2 * node + 1 + 1) * 2 ^ h := Nat.le_mul_of_pos_right _ hp
  exact ⟨h1, h2, by omega⟩

theorem capacity_node (node h cap : Nat) (hcap : (node + 1) * 2 ^ h ≤ cap) : node < cap := by
  have hp : 1 ≤ 2 ^ h := Nat.one_le_two_pow
  have : node + 1 ≤ (node + 1) * 2 ^ h := Nat.le_mul_of_pos_right _ hp
  omega

theorem BuildAccess_bounds (cap : Nat) (hcap : cap ≤ 2 ^ 64) :
    ∀ (h fuel node lb rb : Nat), rb - lb < fuel → 1 ≤ node → lb ≤ rb → rb < 2 ^ 64 →
      rb - lb + 1 ≤ 2 ^ h → (node + 1) * 2 ^ h ≤ cap →
      ∃ tr, BuildAccess fuel node lb rb = .ok tr ∧ ∀ k, k ∈ tr → 1 ≤ k ∧ k < cap := by
  intro h
  induction h with
  | zero =>
    intro fuel node lb rb hf hn hle hrb hsz hc
    obtain ⟨f, rfl⟩ : ∃ f, fuel = f + 1 := ⟨fuel - 1, by omega⟩
    have heq : lb = rb := by simp at hsz; omega
    have hnode := capacity_node node 0 cap hc
    refine ⟨[node], by simp [BuildAccess, heq], fun k hk => ?_⟩
    simp only [List.mem_singleton] at hk
    omega
  | succ h ih =>
    intro fuel node lb rb hf hn hle hrb hsz hc
    obtain ⟨f, rfl⟩ : ∃ f, fuel = f + 1 := ⟨fuel - 1, by omega⟩
    have hnode := capacity_node node (h + 1) cap hc
    by_cases heq : lb = rb
    · refine ⟨[node], by simp [BuildAccess, heq], fun k hk => ?_⟩
      simp only [List.mem_singleton] at hk
      omega
    · obtain ⟨hc1, hc2, hn2⟩ := capacity_children node h cap hc
      have e1 := midBuild_eq lb rb hle hrb
      have e2 : (2 * node) % 2 ^ 64 = 2 * node := Nat.mod_eq_of_lt (by omega)
      have e3 : (2 * node + 1) % 2 ^ 64 = 2 * node + 1 := Nat.mod_eq_of_lt (by omega)
      have e4 : (lb + (rb - lb) / 2 + 1) % 2 ^ 64 = lb + (rb - lb) / 2 + 1 :=
        Nat.mod_eq_of_lt (by omega)
      have hsz2 : rb - lb + 1 ≤ 2 * 2 ^ h := by rw [pow_succ] at hsz; omega
      obtain ⟨l1, h1, b1⟩ := ih f (2 * node) lb (lb + (rb - lb) / 2) (by omega) (by omega)
        (by omega) (by omega) (by omega) hc1
      obtain ⟨l2, h2, b2⟩ := ih f (2 * node + 1) (lb + (rb - lb) / 2 + 1) rb (by omega)
        (by omega) (by omega) hrb (by omega) hc2
      refine ⟨l1 ++ l2 ++ [2 * node, 2 * node + 1, node], ?_, fun k hk => ?_⟩
      · rw [BuildAccess]
        simp only [if_neg heq, e1, e2, e3, e4, h1, h2, Res.ok_bind]
      · simp only [List.mem_append, List.mem_cons, List.mem_singleton, List.not_mem_nil,
          or_false] at hk
        rcases hk with (hk | hk) | hk | hk | hk
        · exact b1 k hk
        · exact b2 k hk
        · omega
        · omega
        · omega

theorem UpdateAccess_bounds (cap : Nat) (hcap : cap ≤ 2 ^ 64) :
    ∀ (h fuel node lb rb pos : Nat), rb - lb < fuel → 1 ≤ node → lb ≤ pos → pos ≤ rb →
      2 * rb < 2 ^ 64 → rb - lb + 1 ≤ 2 ^ h → (node + 1) * 2 ^ h ≤ cap →
      ∃ tr, UpdateAccess fuel node lb rb pos = .ok tr ∧ ∀ k, k ∈ tr → 1 ≤ k ∧ k < cap := by
  intro h
  induction h with
  | zero =>
    intro fuel node lb rb pos hf hn hl hr hrb hsz hc
    obtain ⟨f, rfl⟩ : ∃ f, fuel = f + 1 := ⟨fuel - 1, by omega⟩
    have heq : lb = rb := by simp at hsz; omega
    have hnode := capacity_node node 0 cap hc
    refine ⟨[node], by simp [UpdateAccess, heq], fun k hk => ?_⟩
    simp only [List.mem_singleton] at hk
    omega
  | succ h ih =>
    intro fuel node lb rb pos hf hn hl hr hrb hsz hc
    obtain ⟨f, rfl⟩ : ∃ f, fuel = f + 1 := ⟨fuel - 1, by omega⟩
    have hnode := capacity_node node (h + 1) cap hc
    by_cases heq : lb = rb
    · refine ⟨[node], by simp [UpdateAccess, heq], fun k hk => ?_⟩
      simp only [List.mem_singleton] at hk
      omega
    · obtain ⟨hc1, hc2, hn2⟩ := capacity_children node h cap hc
      have e1 := midUpdate_eq lb rb (by omega) hrb
      have e2 : (2 * node) % 2 ^ 64 = 2 * node := Nat.mod_eq_of_lt (by omega)
      have e3 : (2 * node + 1) % 2 ^ 64 = 2 * node + 1 := Nat.mod_eq_of_lt (by omega)
      have e4 : (lb + (rb - lb) / 2 + 1) % 2 ^ 64 = lb + (rb - lb) / 2 + 1 :=
        Nat.mod_eq_of_lt (by omega)
      have hsz2 : rb - lb + 1 ≤ 2 * 2 ^ h := by rw [pow_succ] at hsz; omega
      by_cases hpos : pos ≤ lb + (rb - lb) / 2
      · obtain ⟨l1, h1, b1⟩ := ih f (2 * node) lb (lb + (rb - lb) / 2) pos (by omega)
          (by omega) hl hpos (by omega) (by omega) hc1
        refine ⟨l1 ++ [2 * node, 2 * node + 1, node], ?_, fun k hk => ?_⟩
        · rw [UpdateAccess]
          simp only [if_neg heq, e1, e2, e3, e4, if_pos hpos, h1, Res.ok_bind]
        · simp only [List.mem_append, List.mem_cons, List.mem_singleton, List.not_mem_nil,
            or_false] at hk
          rcases hk with hk | hk | hk | hk
          · exact b1 k hk
          · omega
          · omega
          · omega
      · obtain ⟨l1, h1, b1⟩ := ih f (2 * node + 1) (lb + (rb - lb) / 2 + 1) rb pos (by omega)
          (by omega) (by omega) hr hrb (by omega) hc2
        refine ⟨l1 ++ [2 * node, 2 * node + 1, node], ?_, fun k hk => ?_⟩
        · rw [UpdateAccess]
          simp only [if_neg heq, e1, e2, e3, e4, if_neg hpos, h1, Res.ok_bind]
        · simp only [List.mem_append, List.mem_cons, List.mem_singleton, List.not_mem_nil,
            or_false] at hk
          rcases hk with hk | hk | hk | hk
          · exact b1 k hk
          · omega
          · omega
          · omega

theorem GetAccess_empty (f node tl tr l r : Nat) (h : r < l) :
    GetAccess (f + 1) node tl tr l r = .ok [] := by
  simp [GetAccess, h]

theorem GetAccess_bounds (cap : Nat) (hcap : cap ≤ 2 ^ 64) :
    ∀ (h fuel node tl tr l r : Nat), tr - tl < fuel → 1 ≤ node → tl ≤ tr → tr < 2 ^ 64 →
      (r < l ∨ (tl ≤ l ∧ r ≤ tr)) → tr - tl + 1 ≤ 2 ^ h → (node + 1) * 2 ^ h ≤ cap →
      ∃ acc, GetAccess fuel node tl tr l r = .ok acc ∧ ∀ k, k ∈ acc → 1 ≤ k ∧ k < cap := by
  intro h
  induction h with
  | zero =>
    intro fuel node tl tr l r hf hn hle htr hq hsz hc
    obtain ⟨f, rfl⟩ : ∃ f, fuel = f + 1 := ⟨fuel - 1, by omega⟩
    have heq : tl = tr := by simp at hsz; omega
    have hnode := capacity_node node 0 cap hc
    by_cases hgt : r < l
    · exact ⟨[], GetAccess_empty f node tl tr l r hgt, fun k hk => absurd hk (List.not_mem_nil _)⟩
    · have hex : l = tl ∧ r = tr := by omega
      have hnlr : ¬ l > r := hgt
      refine ⟨[node], by rw [GetAccess]; simp only [if_neg hnlr, if_pos hex], fun k hk => ?_⟩
      simp only [List.mem_singleton] at hk
      omega
  | succ h ih =>
    intro fuel node tl tr l r hf hn hle htr hq hsz hc
    obtain ⟨f, rfl⟩ : ∃ f, fuel = f + 1 := ⟨fuel - 1, by omega⟩
    have hnode := capacity_node node (h + 1) cap hc
    by_cases hgt : r < l
    · exact ⟨[], GetAccess_empty f node tl tr l r hgt, fun k hk => absurd hk (List.not_mem_nil _)⟩
    · have hnlr : ¬ l > r := hgt
      have hin : tl ≤ l ∧ r ≤ tr := by
        rcases hq with h | h
        · exact absurd h hgt
        · exact h
      by_cases hex : l = tl ∧ r = tr
      · refine ⟨[node], by rw [GetAccess]; simp only [if_neg hnlr, if_pos hex], fun k hk => ?_⟩
        simp only [List.mem_singleton] at hk
        omega
      · have hlt : tl < tr := by
          by_contra hc2
          exact hex ⟨by omega, by omega⟩
        obtain ⟨hc1, hc2, hn2⟩ := capacity_children node h cap hc
        have e1 := midBuild_eq tl tr hle htr
        have e2 : (2 * node) % 2 ^ 64 = 2 * node := Nat.mod_eq_of_lt (by omega)
        have e3 : (2 * node + 1) % 2 ^ 64 = 2 * node + 1 := Nat.mod_eq_of_lt (by omega)
        have e4 : (tl + (tr - tl) / 2 + 1) % 2 ^ 64 = tl + (tr - tl) / 2 + 1 :=
          Nat.mod_eq_of_lt (by omega)
        have hsz2 : tr - tl + 1 ≤ 2 * 2 ^ h := by rw [pow_succ] at hsz; omega
        obtain ⟨l1, h1, b1⟩ := ih f (2 * node) tl (tl + (tr - tl) / 2) l
          (min r (tl + (tr - tl) / 2)) (by omega) (by omega) (by omega) (by omega)
          (by omega) (by omega) hc1
        obtain ⟨l2, h2, b2⟩ := ih f (2 * node + 1) (tl + (tr - tl) / 2 + 1) tr
          (max l (tl + (tr - tl) / 2 + 1)) r (by omega) (by omega) (by omega) htr
          (by omega) (by omega) hc2
        refine ⟨l1 ++ l2, ?_, fun k hk => ?_⟩
        · rw [GetAccess]
          simp only [if_neg hnlr, if_neg hex, GetCalls, e1, e2, e3, e4, h1, h2, Res.ok_bind]
        · rcases List.mem_append.mp hk with hk | hk
          · exact b1 k hk
          · exact b2 k hk

/-! ## Accesses inside the vector mean no fault -/

theorem Update_of_access {T : Type} (op : T → T → T) (v : T) :
    ∀ (fuel : Nat) (t : List T) (node lb rb pos : Nat) (acc : List Nat),
      UpdateAccess fuel node lb rb pos = .ok acc → (∀ k, k ∈ acc → k < t.length) →
      ∃ t2, Update op fuel t node lb rb pos v = .ok t2 ∧ t2.length = t.length := by
  intro fuel
  induction fuel with
  | zero => intro t node lb rb pos acc h _; exact Res.noConfusion h
  | succ f ih =>
    intro t node lb rb pos acc h hb
    by_cases heq : lb = rb
    · simp only [UpdateAccess, if_pos heq, Res.ok.injEq] at h
      have hn : node < t.length := hb node (by rw [← h]; exact List.mem_singleton.mpr rfl)
      exact ⟨t.set node v, by simp [Update, heq, wr, hn], by simp⟩
    · rw [UpdateAccess] at h
      simp only [if_neg heq] at h
      obtain ⟨below, hbelow, hacc⟩ := Res.bind_eq_ok h
      simp only [Res.ok.injEq] at hacc
      have hmem : ∀ k, k ∈ below ++ [(2 * node) % 2 ^ 64, ((2 * node) % 2 ^ 64 + 1) % 2 ^ 64, node]
          → k < t.length := fun k hk => hb k (by rw [← hacc]; exact hk)
      have hinner : ∃ t1, (if pos ≤ midUpdate lb rb then
            Update op f t ((2 * node) % 2 ^ 64) lb (midUpdate lb rb) pos v
          else
            Update op f t (((2 * node) % 2 ^ 64 + 1) % 2 ^ 64)
              ((midUpdate lb rb + 1) % 2 ^ 64) rb pos v) = .ok t1 ∧ t1.length = t.length := by
        by_cases hpos : pos ≤ midUpdate lb rb
        · simp only [if_pos hpos] at hbelow ⊢
          exact ih t _ _ _ _ below hbelow (fun k hk => hmem k (List.mem_append_left _ hk))
        · simp only [if_neg hpos] at hbelow ⊢
          exact ih t _ _ _ _ below hbelow (fun k hk => hmem k (List.mem_append_left _ hk))
      obtain ⟨t1, ht1, hl1⟩ := hinner
      have h1 : (2 * node) % 2 ^ 64 < t1.length := by
        rw [hl1]; exact hmem _ (by simp)
      have h2 : ((2 * node) % 2 ^ 64 + 1) % 2 ^ 64 < t1.length := by
        rw [hl1]; exact hmem _ (by simp)
      have h3 : node < t1.length := by
        rw [hl1]; exact hmem _ (by simp)
      refine ⟨t1.set node (op t1[(2 * node) % 2 ^ 64] t1[((2 * node) % 2 ^ 64 + 1) % 2 ^ 64]),
        ?_, by simp [hl1]⟩
      rw [Update_unfold op f t node lb rb pos v heq, ht1]
      simp only [Res.ok_bind, rd_of_getElem? (List.getElem?_eq_getElem h1),
        rd_of_getElem? (List.getElem?_eq_getElem h2), wr_of_lt _ h3]

theorem GetRec_of_access {T : Type} (op : T → T → T) (dflt : T) (t : List T) :
    ∀ (fuel node tl tr l r : Nat) (acc : List Nat),
      GetAccess fuel node tl tr l r = .ok acc → (∀ k, k ∈ acc → k < t.length) →
      ∃ v, GetRec op dflt fuel t node tl tr l r = .ok v := by
  intro fuel
  induction fuel with
  | zero => intro node tl tr l r acc h _; exact Res.noConfusion h
  | succ f ih =>
    intro node tl tr l r acc h hb
    by_cases hgt : l > r
    · exact ⟨dflt, GetRec_empty op dflt f t _ _ _ _ _ hgt⟩
    · by_cases hex : l = tl ∧ r = tr
      · simp only [GetAccess, if_neg hgt, if_pos hex, Res.ok.injEq] at h
        have hn : node < t.length := hb node (by rw [← h]; exact List.mem_singleton.mpr rfl)
        refine ⟨t[node], ?_⟩
        rw [GetRec]
        simp only [if_neg hgt, if_pos hex, rd_of_getElem? (List.getElem?_eq_getElem hn)]
      · rw [GetAccess] at h
        simp only [if_neg hgt, if_neg hex] at h
        obtain ⟨l1, h1, h⟩ := Res.bind_eq_ok h
        obtain ⟨l2, h2, h⟩ := Res.bind_eq_ok h
        simp only [Res.ok.injEq] at h
        obtain ⟨a, ha⟩ := ih _ _ _ _ _ l1 h1
          (fun k hk => hb k (by rw [← h]; exact List.mem_append_left _ hk))
        obtain ⟨b, hb2⟩ := ih _ _ _ _ _ l2 h2
          (fun k hk => hb k (by rw [← h]; exact List.mem_append_right _ hk))
        refine ⟨op a b, ?_⟩
        rw [GetRec_unfold op dflt f t node tl tr l r hgt hex, ha, hb2]
        rfl

theorem Build_of_access {T : Type} (op : T → T → T) (data : List T) :
    ∀ (fuel : Nat) (t : List T) (node lb rb : Nat) (acc : List Nat) (lv : List (Nat × Nat)),
      BuildAccess fuel node lb rb = .ok acc → BuildLeaves fuel node lb rb = .ok lv →
      (∀ k, k ∈ acc → k < t.length) → (∀ k i, (k, i) ∈ lv → i < data.length) →
      ∃ t2, Build op fuel data t node lb rb = .ok t2 ∧ t2.length = t.length := by
  intro fuel
  induction fuel with
  | zero => intro t node lb rb acc lv h _ _ _; exact Res.noConfusion h
  | succ f ih =>
    intro t node lb rb acc lv h hlv hb hd
    by_cases heq : lb = rb
    · subst heq
      simp only [BuildAccess, if_true, Res.ok.injEq] at h
      simp only [BuildLeaves, if_true, Res.ok.injEq] at hlv
      have hn : node < t.length := hb node (by rw [← h]; exact List.mem_singleton.mpr rfl)
      have hi : lb < data.length :=
        hd node lb (by rw [← hlv]; exact List.mem_singleton.mpr rfl)
      exact ⟨t.set node data[lb],
        by simp [Build, rd, List.getElem?_eq_getElem hi, wr, hn], by simp⟩
    · rw [BuildAccess] at h
      rw [BuildLeaves] at hlv
      simp only [if_neg heq] at h hlv
      obtain ⟨a1, ha1, h⟩ := Res.bind_eq_ok h
      obtain ⟨a2, ha2, h⟩ := Res.bind_eq_ok h
      obtain ⟨v1, hv1, hlv⟩ := Res.bind_eq_ok hlv
      obtain ⟨v2, hv2, hlv⟩ := Res.bind_eq_ok hlv
      simp only [Res.ok.injEq] at h hlv
      have hmem : ∀ k, k ∈ a1 ++ a2 ++
          [(2 * node) % 2 ^ 64, ((2 * node) % 2 ^ 64 + 1) % 2 ^ 64, node] → k < t.length :=
        fun k hk => hb k (by rw [← h]; exact hk)
      obtain ⟨t1, ht1, hl1⟩ := ih t _ _ _ a1 v1 ha1 hv1
        (fun k hk => hmem k (List.mem_append_left _ (List.mem_append_left _ hk)))
        (fun k i hk => hd k i (by rw [← hlv]; exact List.mem_append_left _ hk))
      obtain ⟨t2, ht2, hl2⟩ := ih t1 _ _ _ a2 v2 ha2 hv2
        (fun k hk => by
          rw [hl1]; exact hmem k (List.mem_append_left _ (List.mem_append_right _ hk)))
        (fun k i hk => hd k i (by rw [← hlv]; exact List.mem_append_right _ hk))
      have h1 : (2 * node) % 2 ^ 64 < t2.length := by
        rw [hl2, hl1]; exact hmem _ (by simp)
      have h2 : ((2 * node) % 2 ^ 64 + 1) % 2 ^ 64 < t2.length := by
        rw [hl2, hl1]; exact hmem _ (by simp)
      have h3 : node < t2.length := by
        rw [hl2, hl1]; exact hmem _ (by simp)
      refine ⟨t2.set node (op t2[(2 * node) % 2 ^ 64] t2[((2 * node) % 2 ^ 64 + 1) % 2 ^ 64]),
        ?_, by simp [hl2, hl1]⟩
      rw [Build_unfold op f data t node lb rb heq, ht1]
      simp only [Res.ok_bind, ht2, rd_of_getElem? (List.getElem?_eq_getElem h1),
        rd_of_getElem? (List.getElem?_eq_getElem h2), wr_of_lt _ h3]

/-! ## `Update` on a vector of arbitrary contents -/

theorem OnPath.sub {node lb rb pos k : Nat} (h : OnPath node lb rb pos k) : Sub node k := by
  induction h with
  | here node lb rb pos _ _ => exact Sub.refl node
  | left node lb rb pos k _ _ _ ih => exact ih.of_left
  | right node lb rb pos k _ _ _ ih => exact ih.of_right

/-- The step of `Update` at an internal node, with the `size_t` arithmetic
resolved. -/
theorem Update_step {T : Type} (op : T → T → T) (f : Nat) (t : List T)
    (node lb rb pos : Nat) (v : T) (hlt : lb < rb) (hrb : 2 * rb < 2 ^ 64)
    (hn : 2 * node + 1 < 2 ^ 64) :
    Update op (f + 1) t node lb rb pos v =
      (if pos ≤ lb + (rb - lb) / 2 then
        Update op f t (2 * node) lb (lb + (rb - lb) / 2) pos v
      else
        Update op f t (2 * node + 1) (lb + (rb - lb) / 2 + 1) rb pos v).bind fun t1 =>
      (rd t1 (2 * node)).bind fun a =>
      (rd t1 (2 * node + 1)).bind fun b =>
      wr t1 node (op a b) := by
  have hne : lb ≠ rb := by omega
  have e1 := midUpdate_eq lb rb hlt.le hrb
  have e2 : (2 * node) % 2 ^ 64 = 2 * node := Nat.mod_eq_of_lt (by omega)
  have e3 : (2 * node + 1) % 2 ^ 64 = 2 * node + 1 := Nat.mod_eq_of_lt (by omega)
  have e4 : (lb + (rb - lb) / 2 + 1) % 2 ^ 64 = lb + (rb - lb) / 2 + 1 :=
    Nat.mod_eq_of_lt (by omega)
  rw [Update_unfold op f t node lb rb pos v hne]
  simp only [e1, e2, e3, e4]

/-- The write `Tree[node] = TOp()(Tree[nn], Tree[nn + 1])` on a vector that holds
the three slots. -/
theorem combine_ok {T : Type} (op : T → T → T) (t1 : List T) (node : Nat)
    (h2 : 2 * node + 1 < t1.length) :
    ∃ a b, t1[2 * node]? = some a ∧ t1[2 * node + 1]? = some b ∧
      ((rd t1 (2 * node)).bind fun a => (rd t1 (2 * node + 1)).bind fun b =>
        wr t1 node (op a b)) = .ok (t1.set node (op a b)) := by
  have h1 : 2 * node < t1.length := by omega
  have h0 : node < t1.length := by omega
  refine ⟨t1[2 * node], t1[2 * node + 1], List.getElem?_eq_getElem h1,
    List.getElem?_eq_getElem h2, ?_⟩
  simp only [rd_of_getElem? (List.getElem?_eq_getElem h1),
    rd_of_getElem? (List.getElem?_eq_getElem h2), Res.ok_bind, wr_of_lt _ h0]

/-- On a vector of any contents that is long enough for the subtree of `node`,
`Update` returns; it reaches its base case at a node on the path of `pos`, whose range
is `[pos, pos]`, writes `val` there, and leaves every slot off the path as it was. -/
theorem Update_path {T : Type} (op : T → T → T) (v : T) :
    ∀ (h fuel : Nat) (t : List T) (node lb rb pos : Nat),
      rb - lb < fuel → 1 ≤ node → lb ≤ pos → pos ≤ rb → 2 * rb < 2 ^ 64 →
      rb - lb + 1 ≤ 2 ^ h → (node + 1) * 2 ^ h ≤ t.length → t.length ≤ 2 ^ 64 →
      ∃ t2 leaf, Update op fuel t node lb rb pos v = .ok t2 ∧ t2.length = t.length ∧
        UpdateLeaf fuel node lb rb pos = .ok (leaf, pos, pos) ∧
        OnPath node lb rb pos leaf ∧ t2[leaf]? = some v ∧
        ∀ k, ¬ OnPath node lb rb pos k → t2[k]? = t[k]? := by
  intro h
  induction h with
  | zero =>
    intro fuel t node lb rb pos hf hn hl hr hrb hsz hc hlen
    obtain ⟨f, rfl⟩ : ∃ f, fuel = f + 1 := ⟨fuel - 1, by omega⟩
    have heq : lb = rb := by simp at hsz; omega
    subst heq
    obtain rfl : pos = lb := by omega
    have hnode := capacity_node node 0 t.length hc
    refine ⟨t.set node v, node, by simp [Update, wr, hnode], by simp,
      by simp [UpdateLeaf], .here node pos pos pos le_rfl le_rfl,
      by simp [List.getElem?_set_self, hnode], fun k hk => ?_⟩
    have : node ≠ k := fun e => hk (e ▸ .here node pos pos pos le_rfl le_rfl)
    rw [List.getElem?_set_ne this]
  | succ h ih =>
    intro fuel t node lb rb pos hf hn hl hr hrb hsz hc hlen
    obtain ⟨f, rfl⟩ : ∃ f, fuel = f + 1 := ⟨fuel - 1, by omega⟩
    have hnode := capacity_node node (h + 1) t.length hc
    by_cases heq : lb = rb
    · subst heq
      obtain rfl : pos = lb := by omega
      refine ⟨t.set node v, node, by simp [Update, wr, hnode], by simp,
        by simp [UpdateLeaf], .here node pos pos pos le_rfl le_rfl,
        by simp [List.getElem?_set_self, hnode], fun k hk => ?_⟩
      have : node ≠ k := fun e => hk (e ▸ .here node pos pos pos le_rfl le_rfl)
      rw [List.getElem?_set_ne this]
    · have hlt : lb < rb := by omega
      obtain ⟨hc1, hc2, hn2⟩ := capacity_children node h t.length hc
      have e1 := midUpdate_eq lb rb hlt.le hrb
      have e2 : (2 * node) % 2 ^ 64 = 2 * node := Nat.mod_eq_of_lt (by omega)
      have e3 : (2 * node + 1) % 2 ^ 64 = 2 * node + 1 := Nat.mod_eq_of_lt (by omega)
      have e4 : (lb + (rb - lb) / 2 + 1) % 2 ^ 64 = lb + (rb - lb) / 2 + 1 :=
        Nat.mod_eq_of_lt (by omega)
      have hsz2 : rb - lb + 1 ≤ 2 * 2 ^ h := by rw [pow_succ] at hsz; omega
      have hstep := Update_step op f t node lb rb pos v hlt hrb (by omega)
      by_cases hpos : pos ≤ lb + (rb - lb) / 2
      · obtain ⟨t1, leaf, hu, hl1, hleaf, hon, hval, hfr⟩ :=
          ih f t (2 * node) lb (lb + (rb - lb) / 2) pos (by omega) (by omega) hl hpos
            (by omega) (by omega) hc1 hlen
        obtain ⟨a, b, _, _, hcomb⟩ := combine_ok op t1 node (by omega)
        have hne : node ≠ leaf := by have := hon.sub.le; omega
        refine ⟨t1.set node (op a b), leaf, ?_, by simp [hl1], ?_, .left _ _ _ _ _ hlt hpos hon,
          by rw [List.getElem?_set_ne hne]; exact hval, fun k hk => ?_⟩
        · rw [hstep]; simp only [if_pos hpos, hu, Res.ok_bind]; exact hcomb
        · rw [UpdateLeaf]; simp only [if_neg heq, e1, e2, if_pos hpos, hleaf]
        · have hk1 : node ≠ k := fun e => hk (e ▸ .here node lb rb pos hl hr)
          rw [List.getElem?_set_ne hk1]
          exact hfr k (fun hc => hk (.left _ _ _ _ _ hlt hpos hc))
      · obtain ⟨t1, leaf, hu, hl1, hleaf, hon, hval, hfr⟩ :=
          ih f t (2 * node + 1) (lb + (rb - lb) / 2 + 1) rb pos (by omega) (by omega)
            (by omega) hr hrb (by omega) hc2 hlen
        obtain ⟨a, b, _, _, hcomb⟩ := combine_ok op t1 node (by omega)
        have hne : node ≠ leaf := by have := hon.sub.le; omega
        refine ⟨t1.set node (op a b), leaf, ?_, by simp [hl1], ?_,
          .right _ _ _ _ _ hlt (by omega) hon,
          by rw [List.getElem?_set_ne hne]; exact hval, fun k hk => ?_⟩
        · rw [hstep]; simp only [if_neg hpos, hu, Res.ok_bind]; exact hcomb
        · rw [UpdateLeaf]; simp only [if_neg heq, e1, e2, e3, e4, if_neg hpos, hleaf]
        · have hk1 : node ≠ k := fun e => hk (e ▸ .here node lb rb pos hl hr)
          rw [List.getElem?_set_ne hk1]
          exact hfr k (fun hc => hk (.right _ _ _ _ _ hlt (by omega) hc))

/-- The same with the coarser frame: every slot outside the subtree of `node` is left
as it was. -/
theorem Update_frame {T : Type} (op : T → T → T) (v : T) (h fuel : Nat) (t : List T)
    (node lb rb pos : Nat) (hf : rb - lb < fuel) (hn : 1 ≤ node) (hl : lb ≤ pos)
    (hr : pos ≤ rb) (hrb : 2 * rb < 2 ^ 64) (hsz : rb - lb + 1 ≤ 2 ^ h)
    (hc : (node + 1) * 2 ^ h ≤ t.length) (hlen : t.length ≤ 2 ^ 64) :
    ∃ t2, Update op fuel t node lb rb pos v = .ok t2 ∧ t2.length = t.length ∧
      ∀ k, ¬ Sub node k → t2[k]? = t[k]? := by
  obtain ⟨t2, _, hu, hl2, _, _, _, hfr⟩ :=
    Update_path op v h fuel t node lb rb pos hf hn hl hr hrb hsz hc hlen
  exact ⟨t2, hu, hl2, fun k hk => hfr k (fun hon => hk hon.sub)⟩

theorem Update_frame_of_ok {T : Type} (op : T → T → T) (v : T) (h fuel : Nat) (t t2 : List T)
    (node lb rb pos : Nat) (hf : rb - lb < fuel) (hn : 1 ≤ node) (hl : lb ≤ pos)
    (hr : pos ≤ rb) (hrb : 2 * rb < 2 ^ 64) (hsz : rb - lb + 1 ≤ 2 ^ h)
    (hc : (node + 1) * 2 ^ h ≤ t.length) (hlen : t.length ≤ 2 ^ 64)
    (hu : Update op fuel t node lb rb pos v = .ok t2) :
    t2.length = t.length ∧ ∀ k, ¬ Sub node k → t2[k]? = t[k]? := by
  obtain ⟨x, hx, hxl, hxf⟩ := Update_frame op v h fuel t node lb rb pos hf hn hl hr hrb hsz hc hlen
  rw [hx] at hu
  obtain rfl := Res.ok.inj hu
  exact ⟨hxl, hxf⟩

theorem set_agree {T : Type} {t1 t2 : List T} (node : Nat) (x : T)
    (hlen : t2.length = t1.length) (k : Nat) (h : t2[k]? = t1[k]?) :
    (t2.set node x)[k]? = (t1.set node x)[k]? := by
  by_cases hk : node = k
  · subst hk
    by_cases hlt : node < t1.length
    · rw [List.getElem?_set_self (by omega), List.getElem?_set_self hlt]
    · rw [List.getElem?_eq_none (by simp; omega), List.getElem?_eq_none (by simp; omega)]
  · rw [List.getElem?_set_ne hk, List.getElem?_set_ne hk]
    exact h

/-- The result of `Update` inside the subtree of `node` depends only on the slots of
that subtree: on a second vector that agrees with the first one there, `Update` gives
the same slots in the subtree and leaves the other slots of the second vector as they
were. -/
theorem Update_agree {T : Type} (op : T → T → T) (v : T) :
    ∀ (h fuel : Nat) (t tB : List T) (node lb rb pos : Nat) (t2 : List T),
      rb - lb < fuel → 1 ≤ node → lb ≤ pos → pos ≤ rb → 2 * rb < 2 ^ 64 →
      rb - lb + 1 ≤ 2 ^ h → (node + 1) * 2 ^ h ≤ t.length → t.length ≤ 2 ^ 64 →
      tB.length = t.length → (∀ k, Sub node k → tB[k]? = t[k]?) →
      Update op fuel t node lb rb pos v = .ok t2 →
      ∃ t2B, Update op fuel tB node lb rb pos v = .ok t2B ∧ t2B.length = tB.length ∧
        (∀ k, Sub node k → t2B[k]? = t2[k]?) ∧ (∀ k, ¬ Sub node k → t2B[k]? = tB[k]?) := by
  intro h
  induction h with
  | zero =>
    intro fuel t tB node lb rb pos t2 hf hn hl hr hrb hsz hc hlen hlenB hag hu
    obtain ⟨f, rfl⟩ : ∃ f, fuel = f + 1 := ⟨fuel - 1, by omega⟩
    have heq : lb = rb := by simp at hsz; omega
    have hnode := capacity_node node 0 t.length hc
    simp only [Update, if_pos heq, wr, if_pos hnode, Res.ok.injEq] at hu
    subst hu
    refine ⟨tB.set node v, by simp [Update, heq, wr, hlenB, hnode], by simp,
      fun k hk => set_agree node v hlenB k (hag k hk), fun k hk => ?_⟩
    have : node ≠ k := fun e => hk (e ▸ Sub.refl node)
    rw [List.getElem?_set_ne this]
  | succ h ih =>
    intro fuel t tB node lb rb pos t2 hf hn hl hr hrb hsz hc hlen hlenB hag hu
    obtain ⟨f, rfl⟩ : ∃ f, fuel = f + 1 := ⟨fuel - 1, by omega⟩
    have hnode := capacity_node node (h + 1) t.length hc
    by_cases heq : lb = rb
    · simp only [Update, if_pos heq, wr, if_pos hnode, Res.ok.injEq] at hu
      subst hu
      refine ⟨tB.set node v, by simp [Update, heq, wr, hlenB, hnode], by simp,
        fun k hk => set_agree node v hlenB k (hag k hk), fun k hk => ?_⟩
      have : node ≠ k := fun e => hk (e ▸ Sub.refl node)
      rw [List.getElem?_set_ne this]
    · have hlt : lb < rb := by omega
      obtain ⟨hc1, hc2, hn2⟩ := capacity_children node h t.length hc
      have hsz2 : rb - lb + 1 ≤ 2 * 2 ^ h := by rw [pow_succ] at hsz; omega
      rw [Update_step op f t node lb rb pos v hlt hrb (by omega)] at hu
      obtain ⟨t1, hu1, hu⟩ := Res.bind_eq_ok hu
      rw [Update_step op f tB node lb rb pos v hlt hrb (by omega)]
      by_cases hpos : pos ≤ lb + (rb - lb) / 2
      · simp only [if_pos hpos] at hu1 ⊢
        obtain ⟨hl1, hfr1⟩ := Update_frame_of_ok op v h f t t1 (2 * node) lb
          (lb + (rb - lb) / 2) pos (by omega) (by omega) hl hpos (by omega) (by omega)
          hc1 hlen hu1
        obtain ⟨t1B, hu1B, hl1B, hin1, hout1⟩ :=
          ih f t tB (2 * node) lb (lb + (rb - lb) / 2) pos t1 (by omega) (by omega) hl hpos
            (by omega) (by omega) hc1 hlen hlenB (fun k hk => hag k hk.of_left) hu1
        have hall : ∀ k, Sub node k → t1B[k]? = t1[k]? := fun k hk => by
          by_cases hs : Sub (2 * node) k
          · exact hin1 k hs
          · rw [hout1 k hs, hfr1 k hs]; exact hag k hk
        obtain ⟨a, b, ha, hb, hcomb⟩ := combine_ok op t1 node (by omega)
        obtain ⟨aB, bB, haB, hbB, hcombB⟩ := combine_ok op t1B node (by omega)
        rw [hcomb] at hu
        cases hu
        rw [hall _ (Sub.left node), ha] at haB
        rw [hall _ (Sub.right node), hb] at hbB
        cases haB
        cases hbB
        refine ⟨t1B.set node (op a b), by rw [hu1B]; exact hcombB, by simp [hl1B],
          fun k hk => set_agree node _ (by omega) k (hall k hk), fun k hk => ?_⟩
        have hk1 : node ≠ k := fun e => hk (e ▸ Sub.refl node)
        rw [List.getElem?_set_ne hk1]
        exact hout1 k (fun hs => hk hs.of_left)
      · simp only [if_neg hpos] at hu1 ⊢
        obtain ⟨hl1, hfr1⟩ := Update_frame_of_ok op v h f t t1 (2 * node + 1)
          (lb + (rb - lb) / 2 + 1) rb pos (by omega) (by omega) (by omega) hr hrb (by omega)
          hc2 hlen hu1
        obtain ⟨t1B, hu1B, hl1B, hin1, hout1⟩ :=
          ih f t tB (2 * node + 1) (lb + (rb - lb) / 2 + 1) rb pos t1 (by omega) (by omega)
            (by omega) hr hrb (by omega) hc2 hlen hlenB (fun k hk => hag k hk.of_right) hu1
        have hall : ∀ k, Sub node k → t1B[k]? = t1[k]? := fun k hk => by
          by_cases hs : Sub (2 * node + 1) k
          · exact hin1 k hs
          · rw [hout1 k hs, hfr1 k hs]; exact hag k hk
        obtain ⟨a, b, ha, hb, hcomb⟩ := combine_ok op t1 node (by omega)
        obtain ⟨aB, bB, haB, hbB, hcombB⟩ := combine_ok op t1B node (by omega)
        rw [hcomb] at hu
        cases hu
        rw [hall _ (Sub.left node), ha] at haB
        rw [hall _ (Sub.right node), hb] at hbB
        cases haB
        cases hbB
        refine ⟨t1B.set node (op a b), by rw [hu1B]; exact hcombB, by simp [hl1B],
          fun k hk => set_agree node _ (by omega) k (hall k hk), fun k hk => ?_⟩
        have hk1 : node ≠ k := fun e => hk (e ▸ Sub.refl node)
        rw [List.getElem?_set_ne hk1]
        exact hout1 k (fun hs => hk hs.of_right)

/-! ## Two point updates of different positions commute -/

theorem set_ext_of_agree {T : Type} {t1 t2 : List T} (node : Nat) (x : T)
    (hlen : t2.length = t1.length) (h : ∀ k, k ≠ node → t2[k]? = t1[k]?) :
    t2.set node x = t1.set node x := by
  refine List.ext_getElem? fun k => ?_
  by_cases hk : node = k
  · subst hk
    by_cases hlt : node < t1.length
    · rw [List.getElem?_set_self (by omega), List.getElem?_set_self hlt]
    · rw [List.getElem?_eq_none (by simp; omega), List.getElem?_eq_none (by simp; omega)]
  · rw [List.getElem?_set_ne hk, List.getElem?_set_ne hk]
    exact h k (fun e => hk e.symm)

theorem set_off_left {T : Type} (t : List T) (node k : Nat) (x : T) (hn : 1 ≤ node)
    (hk : Sub (2 * node) k) : (t.set node x)[k]? = t[k]? :=
  List.getElem?_set_ne (fun (e : node = k) => Sub.not_left_self hn (e ▸ hk))

theorem set_off_right {T : Type} (t : List T) (node k : Nat) (x : T)
    (hk : Sub (2 * node + 1) k) : (t.set node x)[k]? = t[k]? :=
  List.getElem?_set_ne (fun (e : node = k) => Sub.not_right_self (e ▸ hk))

/-- Two vectors that agree off `node` give the same vector after the write
`Tree[node] = TOp()(Tree[nn], Tree[nn + 1])`. -/
theorem combine_congr {T : Type} (op : T → T → T) (X Y : List T) (node : Nat)
    (hn : 1 ≤ node) (hX : 2 * node + 1 < X.length) (hlen : Y.length = X.length)
    (h : ∀ k, k ≠ node → Y[k]? = X[k]?) :
    ∃ u, ((rd X (2 * node)).bind fun a => (rd X (2 * node + 1)).bind fun b =>
        wr X node (op a b)) = .ok u ∧
      ((rd Y (2 * node)).bind fun a => (rd Y (2 * node + 1)).bind fun b =>
        wr Y node (op a b)) = .ok u ∧ u.length = X.length := by
  obtain ⟨a, b, ha, hb, hc⟩ := combine_ok op X node hX
  obtain ⟨aB, bB, haB, hbB, hcB⟩ := combine_ok op Y node (by omega)
  rw [h _ (by omega), ha] at haB
  rw [h _ (by omega), hb] at hbB
  cases haB
  cases hbB
  exact ⟨X.set node (op a b), hc, by rw [hcB, set_ext_of_agree node _ hlen h], by simp⟩

theorem Update_comm_lt {T : Type} (op : T → T → T) (v w : T) :
    ∀ (h fuel : Nat) (t : List T) (node lb rb p q : Nat),
      rb - lb < fuel → 1 ≤ node → lb ≤ p → p < q → q ≤ rb → 2 * rb < 2 ^ 64 →
      rb - lb + 1 ≤ 2 ^ h → (node + 1) * 2 ^ h ≤ t.length → t.length ≤ 2 ^ 64 →
      ∃ A B u, Update op fuel t node lb rb p v = .ok A ∧
        Update op fuel A node lb rb q w = .ok u ∧
        Update op fuel t node lb rb q w = .ok B ∧
        Update op fuel B node lb rb p v = .ok u ∧ u.length = t.length := by
  intro h
  induction h with
  | zero =>
    intro fuel t node lb rb p q hf hn hl hpq hr hrb hsz hc hlen
    simp at hsz
    omega
  | succ h ih =>
    intro fuel t node lb rb p q hf hn hl hpq hr hrb hsz hc hlen
    obtain ⟨f, rfl⟩ : ∃ f, fuel = f + 1 := ⟨fuel - 1, by omega⟩
    have hlt : lb < rb := by omega
    obtain ⟨hc1, hc2, hn2⟩ := capacity_children node h t.length hc
    have hsz2 : rb - lb + 1 ≤ 2 * 2 ^ h := by rw [pow_succ] at hsz; omega
    have hnw : 2 * node + 1 < 2 ^ 64 := by omega
    rw [Update_step op f t node lb rb p v hlt hrb hnw,
      Update_step op f t node lb rb q w hlt hrb hnw]
    by_cases hq : q ≤ lb + (rb - lb) / 2
    · -- both positions lie in the left half
      have hp : p ≤ lb + (rb - lb) / 2 := by omega
      obtain ⟨A1, B1, u1, hA1, hAB, hB1, hBA, hul⟩ :=
        ih f t (2 * node) lb (lb + (rb - lb) / 2) p q (by omega) (by omega) hl hpq hq
          (by omega) (by omega) hc1 hlen
      obtain ⟨hlA1, hfA1⟩ := Update_frame_of_ok op v h f t A1 (2 * node) lb
        (lb + (rb - lb) / 2) p (by omega) (by omega) hl hp (by omega) (by omega) hc1 hlen hA1
      obtain ⟨hlB1, hfB1⟩ := Update_frame_of_ok op w h f t B1 (2 * node) lb
        (lb + (rb - lb) / 2) q (by omega) (by omega) (by omega) hq (by omega) (by omega)
        hc1 hlen hB1
      obtain ⟨a, b, _, _, hcA⟩ := combine_ok op A1 node (by omega)
      obtain ⟨a2, b2, _, _, hcB⟩ := combine_ok op B1 node (by omega)
      obtain ⟨AB1, hAB1, hlAB1, hinA, houtA⟩ :=
        Update_agree op w h f A1 (A1.set node (op a b)) (2 * node) lb (lb + (rb - lb) / 2) q
          u1 (by omega) (by omega) (by omega) hq (by omega) (by omega) (by omega) (by omega)
          (by simp)
          (fun k hk => set_off_left _ node k _ hn hk) hAB
      obtain ⟨BA1, hBA1, hlBA1, hinB, houtB⟩ :=
        Update_agree op v h f B1 (B1.set node (op a2 b2)) (2 * node) lb (lb + (rb - lb) / 2) p
          u1 (by omega) (by omega) hl hp (by omega) (by omega) (by omega) (by omega)
          (by simp)
          (fun k hk => set_off_left _ node k _ hn hk) hBA
      simp only [List.length_set] at hlAB1 hlBA1
      have hagree : ∀ k, k ≠ node → BA1[k]? = AB1[k]? := fun k hk => by
        by_cases hs : Sub (2 * node) k
        · rw [hinA k hs, hinB k hs]
        · rw [houtA k hs, houtB k hs, List.getElem?_set_ne (fun e => hk e.symm),
            List.getElem?_set_ne (fun e => hk e.symm), hfA1 k hs, hfB1 k hs]
      obtain ⟨u, hu1, hu2, hlu⟩ :=
        combine_congr op AB1 BA1 node hn (by omega) (by omega) hagree
      refine ⟨A1.set node (op a b), B1.set node (op a2 b2), u, ?_, ?_, ?_, ?_, by omega⟩
      · simp only [if_pos hp, hA1, Res.ok_bind]; exact hcA
      · rw [Update_step op f _ node lb rb q w hlt hrb hnw]
        simp only [if_pos hq, hAB1, Res.ok_bind]; exact hu1
      · simp only [if_pos hq, hB1, Res.ok_bind]; exact hcB
      · rw [Update_step op f _ node lb rb p v hlt hrb hnw]
        simp only [if_pos hp, hBA1, Res.ok_bind]; exact hu2
    · by_cases hp : p ≤ lb + (rb - lb) / 2
      · -- `p` lies in the left half and `q` in the right half
        obtain ⟨A1, hA1, hlA1, hfA1⟩ := Update_frame op v h f t (2 * node) lb
          (lb + (rb - lb) / 2) p (by omega) (by omega) hl hp (by omega) (by omega) hc1 hlen
        obtain ⟨B1, hB1, hlB1, hfB1⟩ := Update_frame op w h f t (2 * node + 1)
          (lb + (rb - lb) / 2 + 1) rb q (by omega) (by omega) (by omega) hr hrb (by omega)
          hc2 hlen
        obtain ⟨a, b, _, _, hcA⟩ := combine_ok op A1 node (by omega)
        obtain ⟨a2, b2, _, _, hcB⟩ := combine_ok op B1 node (by omega)
        obtain ⟨AB1, hAB1, hlAB1, hinA, houtA⟩ :=
          Update_agree op w h f t (A1.set node (op a b)) (2 * node + 1)
            (lb + (rb - lb) / 2 + 1) rb q B1 (by omega) (by omega) (by omega) hr hrb
            (by omega) hc2 hlen (by simp [hlA1])
            (fun k hk => by
              rw [set_off_right _ node k _ hk,
                hfA1 k (fun hs => Sub.disjoint hn hs hk)]) hB1
        obtain ⟨BA1, hBA1, hlBA1, hinB, houtB⟩ :=
          Update_agree op v h f t (B1.set node (op a2 b2)) (2 * node) lb
            (lb + (rb - lb) / 2) p A1 (by omega) (by omega) hl hp (by omega) (by omega)
            hc1 hlen (by simp [hlB1])
            (fun k hk => by
              rw [set_off_left _ node k _ hn hk,
                hfB1 k (fun hs => Sub.disjoint hn hk hs)]) hA1
        simp only [List.length_set] at hlAB1 hlBA1
        have hagree : ∀ k, k ≠ node → BA1[k]? = AB1[k]? := fun k hk => by
          by_cases hsl : Sub (2 * node) k
          · have hsr : ¬ Sub (2 * node + 1) k := fun hs => Sub.disjoint hn hsl hs
            rw [hinB k hsl, houtA k hsr, List.getElem?_set_ne (fun e => hk e.symm)]
          · by_cases hsr : Sub (2 * node + 1) k
            · rw [hinA k hsr, houtB k hsl, List.getElem?_set_ne (fun e => hk e.symm)]
            · rw [houtA k hsr, houtB k hsl, List.getElem?_set_ne (fun e => hk e.symm),
                List.getElem?_set_ne (fun e => hk e.symm), hfA1 k hsl, hfB1 k hsr]
        obtain ⟨u, hu1, hu2, hlu⟩ :=
          combine_congr op AB1 BA1 node hn (by omega) (by omega) hagree
        refine ⟨A1.set node (op a b), B1.set node (op a2 b2), u, ?_, ?_, ?_, ?_, by omega⟩
        · simp only [if_pos hp, hA1, Res.ok_bind]; exact hcA
        · rw [Update_step op f _ node lb rb q w hlt hrb hnw]
          simp only [if_neg hq, hAB1, Res.ok_bind]; exact hu1
        · simp only [if_neg hq, hB1, Res.ok_bind]; exact hcB
        · rw [Update_step op f _ node lb rb p v hlt hrb hnw]
          simp only [if_pos hp, hBA1, Res.ok_bind]; exact hu2
      · -- both positions lie in the right half
        obtain ⟨A1, B1, u1, hA1, hAB, hB1, hBA, hul⟩ :=
          ih f t (2 * node + 1) (lb + (rb - lb) / 2 + 1) rb p q (by omega) (by omega)
            (by omega) hpq hr hrb (by omega) hc2 hlen
        obtain ⟨hlA1, hfA1⟩ := Update_frame_of_ok op v h f t A1 (2 * node + 1)
          (lb + (rb - lb) / 2 + 1) rb p (by omega) (by omega) (by omega) (by omega) hrb
          (by omega) hc2 hlen hA1
        obtain ⟨hlB1, hfB1⟩ := Update_frame_of_ok op w h f t B1 (2 * node + 1)
          (lb + (rb - lb) / 2 + 1) rb q (by omega) (by omega) (by omega) hr hrb (by omega)
          hc2 hlen hB1
        obtain ⟨a, b, _, _, hcA⟩ := combine_ok op A1 node (by omega)
        obtain ⟨a2, b2, _, _, hcB⟩ := combine_ok op B1 node (by omega)
        obtain ⟨AB1, hAB1, hlAB1, hinA, houtA⟩ :=
          Update_agree op w h f A1 (A1.set node (op a b)) (2 * node + 1)
            (lb + (rb - lb) / 2 + 1) rb q u1 (by omega) (by omega) (by omega) hr hrb
            (by omega) (by omega) (by omega) (by simp)
            (fun k hk => set_off_right _ node k _ hk) hAB
        obtain ⟨BA1, hBA1, hlBA1, hinB, houtB⟩ :=
          Update_agree op v h f B1 (B1.set node (op a2 b2)) (2 * node + 1)
            (lb + (rb - lb) / 2 + 1) rb p u1 (by omega) (by omega) (by omega) (by omega) hrb
            (by omega) (by omega) (by omega) (by simp)
            (fun k hk => set_off_right _ node k _ hk) hBA
        simp only [List.length_set] at hlAB1 hlBA1
        have hagree : ∀ k, k ≠ node → BA1[k]? = AB1[k]? := fun k hk => by
          by_cases hs : Sub (2 * node + 1) k
          · rw [hinA k hs, hinB k hs]
          · rw [houtA k hs, houtB k hs, List.getElem?_set_ne (fun e => hk e.symm),
              List.getElem?_set_ne (fun e => hk e.symm), hfA1 k hs, hfB1 k hs]
        obtain ⟨u, hu1, hu2, hlu⟩ :=
          combine_congr op AB1 BA1 node hn (by omega) (by omega) hagree
        refine ⟨A1.set node (op a b), B1.set node (op a2 b2), u, ?_, ?_, ?_, ?_, by omega⟩
        · simp only [if_neg hp, hA1, Res.ok_bind]; exact hcA
        · rw [Update_step op f _ node lb rb q w hlt hrb hnw]
          simp only [if_neg hq, hAB1, Res.ok_bind]; exact hu1
        · simp only [if_neg hq, hB1, Res.ok_bind]; exact hcB
        · rw [Update_step op f _ node lb rb p v hlt hrb hnw]
          simp only [if_neg hp, hBA1, Res.ok_bind]; exact hu2

/-- On a vector of any contents that is long enough, the updates of two different
positions give the same vector in either order. -/
theorem Update_comm {T : Type} (op : T → T → T) (v w : T) (h fuel : Nat) (t : List T)
    (node lb rb p q : Nat) (hf : rb - lb < fuel) (hn : 1 ≤ node) (hp1 : lb ≤ p)
    (hp2 : p ≤ rb) (hq1 : lb ≤ q) (hq2 : q ≤ rb) (hpq : p ≠ q) (hrb : 2 * rb < 2 ^ 64)
    (hsz : rb - lb + 1 ≤ 2 ^ h) (hc : (node + 1) * 2 ^ h ≤ t.length)
    (hlen : t.length ≤ 2 ^ 64) :
    ∃ A B u, Update op fuel t node lb rb p v = .ok A ∧
      Update op fuel A node lb rb q w = .ok u ∧
      Update op fuel t node lb rb q w = .ok B ∧
      Update op fuel B node lb rb p v = .ok u ∧ u.length = t.length := by
  rcases Nat.lt_or_gt_of_ne hpq with hlt | hgt
  · exact Update_comm_lt op v w h fuel t node lb rb p q hf hn hp1 hlt hq2 hrb hsz hc hlen
  · obtain ⟨B, A, u, h1, h2, h3, h4, h5⟩ :=
      Update_comm_lt op w v h fuel t node lb rb q p hf hn hq1 hgt hp2 hrb hsz hc hlen
    exact ⟨A, B, u, h3, h4, h1, h2, h5⟩

/-! ## The calls made from the root -/

theorem root_bounds (N : Nat) (hN : 1 ≤ N) (hsmall : 4 * N < 2 ^ 64) :
    ∃ h, N - 1 - 0 + 1 ≤ 2 ^ h ∧ (1 + 1) * 2 ^ h ≤ 4 * N ∧ 2 * (N - 1) < 2 ^ 64 := by
  obtain ⟨h, h1, h2⟩ := exists_height N hN
  exact ⟨h, by omega, by omega, by omega⟩

theorem FlushLoop_total {T : Type} (op : T → T → T) (fuel N : Nat) (hN : 1 ≤ N)
    (hsmall : 4 * N < 2 ^ 64) (hfuel : N ≤ fuel) :
    ∀ (buf : List (Nat × T)) (t : List T), t.length = 4 * N →
      (∀ k x, (k, x) ∈ buf → k < N) →
      ∃ t2, FlushLoop op fuel N buf t = .ok t2 ∧ t2.length = 4 * N := by
  obtain ⟨h, hh1, hh2, hh3⟩ := root_bounds N hN hsmall
  intro buf
  induction buf with
  | nil => intro t ht _; exact ⟨t, rfl, ht⟩
  | cons p rest ih =>
    intro t ht hk
    obtain ⟨k, x⟩ := p
    have hkN := hk k x (List.mem_cons_self _ _)
    obtain ⟨t1, hu, hl1, _⟩ := Update_frame op x h fuel t 1 0 (N - 1) k (by omega) le_rfl
      (Nat.zero_le _) (by omega) hh3 hh1 (by omega) (by omega)
    obtain ⟨t2, hf, hl2⟩ := ih t1 (by omega) (fun k2 x2 hm => hk k2 x2 (List.mem_cons_of_mem _ hm))
    exact ⟨t2, by simp only [FlushLoop, pred_size N hN (by omega), hu, Res.ok_bind, hf], hl2⟩

/-- The loop of `FlushChanges` gives the same vector for every order of iteration over
entries with pairwise different keys. -/
theorem FlushLoop_perm {T : Type} (op : T → T → T) (fuel N : Nat) (hN : 1 ≤ N)
    (hsmall : 4 * N < 2 ^ 64) (hfuel : N ≤ fuel) {buf buf2 : List (Nat × T)}
    (hperm : buf.Perm buf2) :
    (buf.map Prod.fst).Nodup → (∀ k x, (k, x) ∈ buf → k < N) →
    ∀ (t : List T), t.length = 4 * N →
      FlushLoop op fuel N buf t = FlushLoop op fuel N buf2 t := by
  obtain ⟨h, hh1, hh2, hh3⟩ := root_bounds N hN hsmall
  induction hperm with
  | nil => intro _ _ t _; rfl
  | cons p hp ih =>
    intro hnd hk t ht
    obtain ⟨k, x⟩ := p
    have hkN := hk k x (List.mem_cons_self _ _)
    obtain ⟨t1, hu, hl1, _⟩ := Update_frame op x h fuel t 1 0 (N - 1) k (by omega) le_rfl
      (Nat.zero_le _) (by omega) hh3 hh1 (by omega) (by omega)
    simp only [FlushLoop, pred_size N hN (by omega), hu, Res.ok_bind]
    exact ih (List.Nodup.of_cons (by simpa using hnd))
      (fun k2 x2 hm => hk k2 x2 (List.mem_cons_of_mem _ hm)) t1 (by omega)
  | swap p q rest =>
    intro hnd hk t ht
    obtain ⟨kp, xp⟩ := p
    obtain ⟨kq, xq⟩ := q
    have hkp := hk kp xp (List.mem_cons_of_mem _ (List.mem_cons_self _ _))
    have hkq := hk kq xq (List.mem_cons_self _ _)
    have hne : kq ≠ kp := by
      simp only [List.map_cons, List.nodup_cons, List.mem_cons, not_or] at hnd
      exact hnd.1.1
    obtain ⟨A, B, u, h1, h2, h3, h4, _⟩ :=
      Update_comm op xq xp h fuel t 1 0 (N - 1) kq kp (by omega) le_rfl (Nat.zero_le _)
        (by omega) (Nat.zero_le _) (by omega) hne hh3 hh1 (by omega) (by omega)
    simp only [FlushLoop, pred_size N hN (by omega), h1, h2, h3, h4, Res.ok_bind]
  | trans hp1 hp2 ih1 ih2 =>
    intro hnd hk t ht
    rw [ih1 hnd hk t ht]
    exact ih2 ((hp1.map Prod.fst).nodup_iff.mp hnd)
      (fun k x hm => hk k x (hp1.mem_iff.mpr hm)) t ht

/-! ## The claims, continued -/

/-- C11 (counterexample): `Modify(5, 9)` on the clean state built from
`[3, 1, 4, 1, 5]`, whose size is 5, leaves the buffer empty: the state stays
Clean. -/
theorem clean_after_rejected_modify :
    ∃ s, construct (fun a b : Int => a + b) 0 5 [3, 1, 4, 1, 5] = .ok s ∧ s.N = 5 ∧
      s.Updates = [] ∧ (Modify s 5 9).Updates = [] :=
  ⟨_, rfl, rfl, rfl, rfl⟩

/-- C11 (amended): for every state, position and value, after `Modify(pos, v)` the
structure is Dirty whenever `pos < N` or it was Dirty before: a Clean state becomes
Dirty when `pos < N`, and a Dirty state stays Dirty. -/
theorem modify_makes_dirty {T : Type} (s : TRsq T) (pos : Nat) (v : T)
    (h : pos < s.N ∨ s.Updates ≠ []) : (Modify s pos v).Updates ≠ [] := by
  by_cases hpos : pos ≥ s.N
  · have e : Modify s pos v = s := by simp [Modify, hpos]
    rw [e]
    rcases h with h | h
    · omega
    · exact h
  · have e : Modify s pos v = { s with Updates := assign pos v s.Updates } := by
      simp [Modify, hpos]
    rw [e]
    exact assign_ne_nil pos v s.Updates

/-- Witness of C11 (amended): `Modify(2, 10)` on a clean state of size 5. -/
theorem modify_makes_dirty_witness :
    (Modify (T := Int) ⟨5, [0, 14, 8, 6, 4, 4, 1, 5, 3, 1], []⟩ 2 10).Updates ≠ [] :=
  modify_makes_dirty (T := Int) ⟨5, [0, 14, 8, 6, 4, 4, 1, 5, 3, 1], []⟩ 2 10
    (Or.inl (by decide))

/-- C12 (tree invariant): for every non-empty sequence and every operator, with no law
assumed, the tree built by the constructor satisfies `TreeInv` (every leaf holds its
element, every internal node the combination of its two children); and on every tree
that satisfies it, `Update(1, 0, N-1, pos, v)` with `pos < N` returns a tree that
satisfies it for the sequence with `v` at `pos`, the leaf of `pos` holding `v`. -/
theorem tree_invariant {T : Type} (op : T → T → T) (dflt : T) (S : List T) (fuel : Nat)
    (hS : S ≠ []) (hsmall : 4 * S.length < 2 ^ 64) (hfuel : S.length ≤ fuel) :
    (∃ s, construct op dflt fuel S = .ok s ∧ TreeInv op s.Tree S 1 0 (S.length - 1)) ∧
      ∀ (t D : List T) (pos : Nat) (v : T), t.length = 4 * S.length →
        D.length = S.length → TreeInv op t D 1 0 (S.length - 1) → pos < S.length →
        ∃ t2 leaf, Update op fuel t 1 0 (S.length - 1) pos v = .ok t2 ∧
          TreeInv op t2 (D.set pos v) 1 0 (S.length - 1) ∧
          (D.set pos v)[pos]? = some v ∧
          UpdateLeaf fuel 1 0 (S.length - 1) pos = .ok (leaf, pos, pos) ∧
          t2[leaf]? = some v := by
  have hN : 1 ≤ S.length := by
    cases S with
    | nil => exact absurd rfl hS
    | cons x xs => simp
  obtain ⟨t0, hc, _, hinv0⟩ := construct_spec op dflt S fuel hS hsmall hfuel
  refine ⟨⟨_, hc, hinv0⟩, fun t D pos v ht hD hinv hpos => ?_⟩
  obtain ⟨h, hh1, hh2, hh3⟩ := root_bounds S.length hN hsmall
  obtain ⟨t2, hu, _, _, hinv2⟩ :=
    Update_spec op hinv le_rfl (by omega) (by omega) fuel pos v (by omega) (Nat.zero_le _)
      (by omega)
  obtain ⟨t3, leaf, hu3, _, hleaf, _, hval, _⟩ :=
    Update_path op v h fuel t 1 0 (S.length - 1) pos (by omega) le_rfl (Nat.zero_le _)
      (by omega) hh3 hh1 (by omega) (by omega)
  rw [hu] at hu3
  obtain rfl := Res.ok.inj hu3
  exact ⟨t2, leaf, hu, hinv2, by simp [List.getElem?_set_self, hD, hpos], hleaf, hval⟩

/-- Witness of C12: the sequence `[3, 1, 4, 1, 5]` with the subtraction, which obeys
no law. -/
theorem tree_invariant_witness :
    (∃ s, construct (fun a b : Int => a - b) 0 5 [3, 1, 4, 1, 5] = .ok s ∧
      TreeInv (fun a b : Int => a - b) s.Tree [3, 1, 4, 1, 5] 1 0 4) ∧
      ∀ (t D : List Int) (pos : Nat) (v : Int), t.length = 20 → D.length = 5 →
        TreeInv (fun a b : Int => a - b) t D 1 0 4 → pos < 5 →
        ∃ t2 leaf, Update (fun a b : Int => a - b) 5 t 1 0 4 pos v = .ok t2 ∧
          TreeInv (fun a b : Int => a - b) t2 (D.set pos v) 1 0 4 ∧
          (D.set pos v)[pos]? = some v ∧
          UpdateLeaf 5 1 0 4 pos = .ok (leaf, pos, pos) ∧ t2[leaf]? = some v :=
  tree_invariant (fun a b : Int => a - b) 0 [3, 1, 4, 1, 5] 5 (by decide) (by norm_num)
    (by decide)

/-- C13 (index safety of the `4 * N` array): for a non-empty sequence of length `N`
with `4 * N` a `size_t`, every subscript of `Tree` evaluated by `Build(1, 0, N-1)`, by
`Update(1, 0, N-1, pos, v)` with `pos < N` and by `Get(1, 0, N-1, l, r)` with
`0 <= l <= r < N` satisfies `1 <= node < 4 * N`; so on a vector of size `4 * N` the
three members return without an access out of bounds. -/
theorem index_safety {T : Type} (op : T → T → T) (dflt : T) (data t : List T) (v : T)
    (fuel pos l r : Nat) (hdata : data ≠ []) (hsmall : 4 * data.length < 2 ^ 64)
    (ht : t.length = 4 * data.length) (hfuel : data.length ≤ fuel)
    (hpos : pos < data.length) (_hlr : l ≤ r) (hr : r < data.length) :
    ∃ accB accU accG, BuildAccess fuel 1 0 (data.length - 1) = .ok accB ∧
      UpdateAccess fuel 1 0 (data.length - 1) pos = .ok accU ∧
      GetAccess fuel 1 0 (data.length - 1) l r = .ok accG ∧
      (∀ k, k ∈ accB ∨ k ∈ accU ∨ k ∈ accG → 1 ≤ k ∧ k < 4 * data.length) ∧
      (∃ t2, Build op fuel data t 1 0 (data.length - 1) = .ok t2) ∧
      (∃ t2, Update op fuel t 1 0 (data.length - 1) pos v = .ok t2) ∧
      (∃ x, GetRec op dflt fuel t 1 0 (data.length - 1) l r = .ok x) := by
  have hN : 1 ≤ data.length := by
    cases data with
    | nil => exact absurd rfl hdata
    | cons x xs => simp
  obtain ⟨h, hh1, hh2, hh3⟩ := root_bounds data.length hN hsmall
  obtain ⟨accB, hB, bB⟩ := BuildAccess_bounds (4 * data.length) (by omega) h fuel 1 0
    (data.length - 1) (by omega) le_rfl (Nat.zero_le _) (by omega) hh1 hh2
  obtain ⟨accU, hU, bU⟩ := UpdateAccess_bounds (4 * data.length) (by omega) h fuel 1 0
    (data.length - 1) pos (by omega) le_rfl (Nat.zero_le _) (by omega) hh3 hh1 hh2
  obtain ⟨accG, hG, bG⟩ := GetAccess_bounds (4 * data.length) (by omega) h fuel 1 0
    (data.length - 1) l r (by omega) le_rfl (Nat.zero_le _) (by omega)
    (Or.inr ⟨Nat.zero_le _, by omega⟩) hh1 hh2
  obtain ⟨lv, hlv, blv⟩ := BuildLeaves_range fuel 1 0 (data.length - 1) (by omega)
    (Nat.zero_le _) (by omega)
  obtain ⟨t2, hb, _⟩ := Build_of_access op data fuel t 1 0 (data.length - 1) accB lv hB hlv
    (fun k hk => by rw [ht]; exact (bB k hk).2)
    (fun k i hk => by have := blv k i hk; omega)
  obtain ⟨t3, hu, _⟩ := Update_of_access op v fuel t 1 0 (data.length - 1) pos accU hU
    (fun k hk => by rw [ht]; exact (bU k hk).2)
  obtain ⟨x, hg⟩ := GetRec_of_access op dflt t fuel 1 0 (data.length - 1) l r accG hG
    (fun k hk => by rw [ht]; exact (bG k hk).2)
  refine ⟨accB, accU, accG, hB, hU, hG, fun k hk => ?_, ⟨t2, hb⟩, ⟨t3, hu⟩, ⟨x, hg⟩⟩
  rcases hk with hk | hk | hk
  · exact bB k hk
  · exact bU k hk
  · exact bG k hk

/-- Witness of C13: `N = 5`, `pos = 2`, query `(1, 3)`, on a vector of 20 zeros. -/
theorem index_safety_witness :
    ∃ accB accU accG, BuildAccess 5 1 0 4 = .ok accB ∧ UpdateAccess 5 1 0 4 2 = .ok accU ∧
      GetAccess 5 1 0 4 1 3 = .ok accG ∧
      (∀ k, k ∈ accB ∨ k ∈ accU ∨ k ∈ accG → 1 ≤ k ∧ k < 20) ∧
      (∃ t2, Build (fun a b : Int => a + b) 5 [3, 1, 4, 1, 5] (List.replicate 20 0) 1 0 4
        = .ok t2) ∧
      (∃ t2, Update (fun a b : Int => a + b) 5 (List.replicate 20 0) 1 0 4 2 10 = .ok t2) ∧
      (∃ x, GetRec (fun a b : Int => a + b) 0 5 (List.replicate 20 0) 1 0 4 1 3 = .ok x) :=
  index_safety (fun a b : Int => a + b) 0 [3, 1, 4, 1, 5] (List.replicate 20 0) 10 5 2 1 3
    (by decide) (by norm_num) (by decide) (by decide) (by decide) (by decide) (by decide)

/-- C14 (flush order independence): on every tree array of size `4 * N` and for every
operator, the updates of two positions `p != q` below `N` give the same array in
either order; hence `FlushChanges` leaves the same state for every order of iteration
over the pending entries. -/
theorem flush_order_independence {T : Type} (op : T → T → T) (N fuel : Nat) (t : List T)
    (p q : Nat) (v w : T) (hN : 1 ≤ N) (hsmall : 4 * N < 2 ^ 64) (hlen : t.length = 4 * N)
    (hfuel : N ≤ fuel) (hp : p < N) (hq : q < N) (hpq : p ≠ q) :
    (∃ A B u, Update op fuel t 1 0 (N - 1) p v = .ok A ∧
        Update op fuel A 1 0 (N - 1) q w = .ok u ∧
        Update op fuel t 1 0 (N - 1) q w = .ok B ∧
        Update op fuel B 1 0 (N - 1) p v = .ok u) ∧
      ∀ (buf buf2 : List (Nat × T)), buf.Perm buf2 → (buf.map Prod.fst).Nodup →
        (∀ k x, (k, x) ∈ buf → k < N) →
        ∃ s1, FlushChanges op fuel { N := N, Tree := t, Updates := buf } = .ok s1 ∧
          FlushChanges op fuel { N := N, Tree := t, Updates := buf2 } = .ok s1 := by
  obtain ⟨h, hh1, hh2, hh3⟩ := root_bounds N hN hsmall
  constructor
  · obtain ⟨A, B, u, h1, h2, h3, h4, _⟩ :=
      Update_comm op v w h fuel t 1 0 (N - 1) p q (by omega) le_rfl (Nat.zero_le _)
        (by omega) (Nat.zero_le _) (by omega) hpq hh3 hh1 (by omega) (by omega)
    exact ⟨A, B, u, h1, h2, h3, h4⟩
  · intro buf buf2 hperm hnd hk
    obtain ⟨t2, hf, _⟩ := FlushLoop_total op fuel N hN hsmall hfuel buf t hlen hk
    have hf2 := FlushLoop_perm op fuel N hN hsmall hfuel hperm hnd hk t hlen
    refine ⟨{ N := N, Tree := t2, Updates := [] }, ?_, ?_⟩
    · rw [FlushChanges_eq]; simp only [hf, Res.ok_bind]
    · rw [FlushChanges_eq]; simp only [← hf2, hf, Res.ok_bind]

/-- Witness of C14: the positions 2 and 0 on a vector of 20 zeros, `N = 5`. -/
theorem flush_order_independence_witness :
    (∃ A B u, Update (fun a b : Int => a + b) 5 (List.replicate 20 0) 1 0 4 2 10 = .ok A ∧
        Update (fun a b : Int => a + b) 5 A 1 0 4 0 7 = .ok u ∧
        Update (fun a b : Int => a + b) 5 (List.replicate 20 0) 1 0 4 0 7 = .ok B ∧
        Update (fun a b : Int => a + b) 5 B 1 0 4 2 10 = .ok u) ∧
      ∀ (buf buf2 : List (Nat × Int)), buf.Perm buf2 → (buf.map Prod.fst).Nodup →
        (∀ k x, (k, x) ∈ buf → k < 5) →
        ∃ s1, FlushChanges (fun a b : Int => a + b) 5
            { N := 5, Tree := List.replicate 20 0, Updates := buf } = .ok s1 ∧
          FlushChanges (fun a b : Int => a + b) 5
            { N := 5, Tree := List.replicate 20 0, Updates := buf2 } = .ok s1 :=
  flush_order_independence (fun a b : Int => a + b) 5 5 (List.replicate 20 0) 2 0 10 7
    (by decide) (by norm_num) (by decide) (by decide) (by decide) (by decide) (by decide)

/-- C15 (termination of the recursive query): for every node range `tl <= tr` and
every query range with `tl <= l <= r <= tr`, the recursive `Get` does not run out of
fuel once the fuel exceeds `tr - tl`; and when it recurses, each of its two calls is
made on a strictly shorter node range, with a query range that is empty or lies
inside that node range. -/
theorem get_terminates {T : Type} (op : T → T → T) (dflt : T) (tree : List T)
    (fuel node tl tr l r : Nat) (htr : tr < 2 ^ 64) (h1 : tl ≤ l) (h2 : l ≤ r) (h3 : r ≤ tr)
    (hfuel : tr - tl < fuel) :
    GetRec op dflt fuel tree node tl tr l r ≠ .outOfFuel ∧
      (¬ (l = tl ∧ r = tr) →
        (GetCalls tl tr l r).1.Descends tl tr ∧ (GetCalls tl tr l r).2.Descends tl tr) :=
  ⟨GetRec_terminates op dflt tree fuel node tl tr l r htr hfuel (Or.inr ⟨h1, h3⟩),
    fun hex => GetCalls_descends tl tr l r htr h1 h2 h3 hex⟩

/-- Witness of C15: the query `(1, 3)` at the root of range `[0, 4]`. -/
theorem get_terminates_witness :
    GetRec (fun a b : Int => a + b) 0 5 [0, 14, 8, 6, 4, 4, 1, 5, 3, 1] 1 0 4 1 3
        ≠ .outOfFuel ∧
      (¬ (1 = 0 ∧ 3 = 4) →
        (GetCalls 0 4 1 3).1.Descends 0 4 ∧ (GetCalls 0 4 1 3).2.Descends 0 4) :=
  get_terminates (fun a b : Int => a + b) 0 [0, 14, 8, 6, 4, 4, 1, 5, 3, 1] 5 1 0 4 1 3
    (by norm_num) (by decide) (by decide) (by decide) (by decide)

/-- C16 (point-update footprint): on every tree array of size `4 * N` with `N >= 1`,
for every `pos < N` and every value, `Update(1, 0, N-1, pos, v)` returns, writes `v`
into the leaf node of `pos`, the node that `Build` assigns to `pos`, and leaves every
slot that is not on the root-to-leaf path of `pos` unchanged. -/
theorem update_footprint {T : Type} (op : T → T → T) (t : List T) (N fuel pos : Nat) (v : T)
    (hN : 1 ≤ N) (hsmall : 4 * N < 2 ^ 64) (hlen : t.length = 4 * N) (hpos : pos < N)
    (hfuel : N ≤ fuel) :
    ∃ t2 leaf lv, Update op fuel t 1 0 (N - 1) pos v = .ok t2 ∧ t2.length = t.length ∧
      UpdateLeaf fuel 1 0 (N - 1) pos = .ok (leaf, pos, pos) ∧
      BuildLeaves fuel 1 0 (N - 1) = .ok lv ∧ (leaf, pos) ∈ lv ∧
      OnPath 1 0 (N - 1) pos leaf ∧ t2[leaf]? = some v ∧
      ∀ k, ¬ OnPath 1 0 (N - 1) pos k → t2[k]? = t[k]? := by
  obtain ⟨h, hh1, hh2, hh3⟩ := root_bounds N hN hsmall
  obtain ⟨t2, leaf, hu, hl2, hleaf, hon, hval, hfr⟩ :=
    Update_path op v h fuel t 1 0 (N - 1) pos (by omega) le_rfl (Nat.zero_le _)
      (by omega) hh3 hh1 (by omega) (by omega)
  obtain ⟨k, lv, hk, hlv, hmem, _⟩ :=
    UpdateLeaf_spec fuel 1 0 (N - 1) pos (by omega) (Nat.zero_le _) (by omega) hh3
  rw [hleaf] at hk
  simp only [Res.ok.injEq, Prod.mk.injEq, and_true] at hk
  subst hk
  exact ⟨t2, leaf, lv, hu, hl2, hleaf, hlv, hmem, hon, hval, hfr⟩

/-- Witness of C16: `Update(1, 0, 4, 2, 10)` on a vector of 20 zeros. -/
theorem update_footprint_witness :
    ∃ t2 leaf lv, Update (fun a b : Int => a + b) 5 (List.replicate 20 0) 1 0 4 2 10 = .ok t2 ∧
      t2.length = (List.replicate 20 (0 : Int)).length ∧
      UpdateLeaf 5 1 0 4 2 = .ok (leaf, 2, 2) ∧
      BuildLeaves 5 1 0 4 = .ok lv ∧ (leaf, 2) ∈ lv ∧
      OnPath 1 0 4 2 leaf ∧ t2[leaf]? = some 10 ∧
      ∀ k, ¬ OnPath 1 0 4 2 k → t2[k]? = (List.replicate 20 (0 : Int))[k]? :=
  update_footprint (fun a b : Int => a + b) (List.replicate 20 0) 5 5 2 10 (by decide)
    (by norm_num) (by decide) (by decide) (by decide)

/-- C17 (inverted query range): in every reachable state of a non-empty sequence and
for every `l > r`, `Get(l, r)` flushes the pending buffer as usual and returns the
default value `T()`; the recursive `Get` evaluates no subscript of `Tree`. -/
theorem inverted_query {T : Type} (op : T → T → T) (dflt : T) (S R : List T) (s : TRsq T)
    (fuel l r : Nat) (hS : S ≠ []) (hsmall : 4 * S.length < 2 ^ 64)
    (hreach : Reach op dflt S s R) (hlr : r < l) (hfuel : s.N ≤ fuel) :
    ∃ s1, FlushChanges op fuel s = .ok s1 ∧ s1.Updates = [] ∧
      Get op dflt fuel s l r = .ok (dflt, s1) ∧
      GetAccess fuel 1 0 ((s1.N + 2 ^ 64 - 1) % 2 ^ 64) l r = .ok [] := by
  obtain ⟨hinv, _⟩ := hreach.inv op dflt hS hsmall
  obtain ⟨t, hf, _, _⟩ := FlushChanges_spec op fuel s R hinv hfuel
  have hpos := hinv.nonempty
  obtain ⟨f, rfl⟩ : ∃ f, fuel = f + 1 := ⟨fuel - 1, by omega⟩
  refine ⟨_, hf, rfl, ?_, GetAccess_empty f 1 0 _ l r hlr⟩
  rw [Get_of_flush op dflt _ s _ l r hf, GetRec_empty op dflt f _ _ _ _ _ _ hlr]
  rfl

/-- Witness of C17: `Get(3, 1)` in the dirty state after `Modify(2, 10)` on
`[3, 1, 4, 1, 5]`. -/
theorem inverted_query_witness :
    ∃ s0, construct (fun a b : Int => a + b) 0 5 [3, 1, 4, 1, 5] = .ok s0 ∧
      ∃ s1, FlushChanges (fun a b : Int => a + b) 5 (Modify s0 2 10) = .ok s1 ∧
        s1.Updates = [] ∧
        Get (fun a b : Int => a + b) 0 5 (Modify s0 2 10) 3 1 = .ok (0, s1) ∧
        GetAccess 5 1 0 ((s1.N + 2 ^ 64 - 1) % 2 ^ 64) 3 1 = .ok [] :=
  ⟨_, rfl, inverted_query (fun a b : Int => a + b) 0 [3, 1, 4, 1, 5] _ _ 5 3 1
    (by decide) (by norm_num) (Reach.modify _ _ 2 10 (Reach.construct 5 _ rfl))
    (by decide) (by decide)⟩

/-- C18 (midpoint agreement): for `0 <= lb <= rb < N` with `4 * N` a `size_t`, the
split point `(lb + rb) / 2` of `Update` and the split point `lb + (rb - lb) / 2` of
`Build` and `Get`, both in `size_t` arithmetic, are equal; so `Update(1, 0, N-1, pos,
v)` reaches its base case at exactly the one node that `Build` assigned to `pos`: the
slot that holds `S[pos]` after the construction holds `v` after the update. -/
theorem midpoint_agreement {T : Type} (op : T → T → T) (dflt : T) (S : List T) (v : T)
    (fuel lb rb pos : Nat) (hsmall : 4 * S.length < 2 ^ 64) (hlb : lb ≤ rb)
    (hrb : rb < S.length) (hpos : pos < S.length) (hfuel : S.length ≤ fuel) :
    midUpdate lb rb = midBuild lb rb ∧
      ∃ s leaf lv t2, construct op dflt fuel S = .ok s ∧
        BuildLeaves fuel 1 0 (S.length - 1) = .ok lv ∧ (leaf, pos) ∈ lv ∧
        (∀ k, (k, pos) ∈ lv → k = leaf) ∧ s.Tree[leaf]? = S[pos]? ∧
        UpdateLeaf fuel 1 0 (S.length - 1) pos = .ok (leaf, pos, pos) ∧
        Update op fuel s.Tree 1 0 (S.length - 1) pos v = .ok t2 ∧ t2[leaf]? = some v := by
  have hS : S ≠ [] := by
    intro e
    rw [e] at hpos
    exact Nat.not_lt_zero _ hpos
  have hN : 1 ≤ S.length := by omega
  refine ⟨by rw [midUpdate_eq lb rb hlb (by omega), midBuild_eq lb rb hlb (by omega)], ?_⟩
  obtain ⟨h, hh1, hh2, hh3⟩ := root_bounds S.length hN hsmall
  obtain ⟨t, hc, hl, hinv⟩ := construct_spec op dflt S fuel hS hsmall hfuel
  obtain ⟨leaf, lv, hleaf, hlv, hmem, huniq⟩ :=
    UpdateLeaf_spec fuel 1 0 (S.length - 1) pos (by omega) (Nat.zero_le _) (by omega) hh3
  obtain ⟨t2, leaf2, hu, _, hleaf2, _, hval, _⟩ :=
    Update_path op v h fuel t 1 0 (S.length - 1) pos (by omega) le_rfl (Nat.zero_le _)
      (by omega) hh3 hh1 (by omega) (by omega)
  rw [hleaf] at hleaf2
  simp only [Res.ok.injEq, Prod.mk.injEq, and_true] at hleaf2
  subst hleaf2
  exact ⟨_, leaf, lv, t2, hc, hlv, hmem, huniq,
    BuildLeaves_of_inv hinv (by omega) (by omega) fuel lv hlv leaf pos hmem, hleaf, hu, hval⟩

/-- Witness of C18: `[3, 1, 4, 1, 5]`, the range `[3, 4]` and the position 2. -/
theorem midpoint_agreement_witness :
    midUpdate 3 4 = midBuild 3 4 ∧
      ∃ s leaf lv t2, construct (fun a b : Int => a + b) 0 5 [3, 1, 4, 1, 5] = .ok s ∧
        BuildLeaves 5 1 0 4 = .ok lv ∧ (leaf, 2) ∈ lv ∧
        (∀ k, (k, 2) ∈ lv → k = leaf) ∧ s.Tree[leaf]? = ([3, 1, 4, 1, 5] : List Int)[2]? ∧
        UpdateLeaf 5 1 0 4 2 = .ok (leaf, 2, 2) ∧
        Update (fun a b : Int => a + b) 5 s.Tree 1 0 4 2 10 = .ok t2 ∧
        t2[leaf]? = some 10 :=
  midpoint_agreement (fun a b : Int => a + b) 0 [3, 1, 4, 1, 5] 10 5 3 4 2 (by norm_num)
    (by decide) (by decide) (by decide) (by decide)

/-- C19 (buffer key bound): in every state reached from a construction by `Modify` and
`Get` calls, every key of the pending buffer is below `N`; so the `Update` that
`FlushChanges` starts at the root for it has `0 <= pos <= N-1` and reaches its base
case at a node whose range is exactly `[pos, pos]`. -/
theorem buffer_key_bound {T : Type} (op : T → T → T) (dflt : T) (S R : List T) (s : TRsq T)
    (fuel k : Nat) (v : T) (hsmall : 4 * S.length < 2 ^ 64) (hreach : Reach op dflt S s R)
    (hmem : (k, v) ∈ s.Updates) (hfuel : s.N ≤ fuel) :
    k < s.N ∧ k ≤ (s.N + 2 ^ 64 - 1) % 2 ^ 64 ∧
      ∃ leaf, UpdateLeaf fuel 1 0 ((s.N + 2 ^ 64 - 1) % 2 ^ 64) k = .ok (leaf, k, k) := by
  obtain ⟨hN, hkeys⟩ := hreach.keys_lt op dflt
  have hk := hkeys k v hmem
  have e := pred_size s.N (by omega) (by omega)
  rw [e]
  obtain ⟨leaf, _, hleaf, _⟩ :=
    UpdateLeaf_spec fuel 1 0 (s.N - 1) k (by omega) (Nat.zero_le _) (by omega) (by omega)
  exact ⟨hk, by omega, leaf, hleaf⟩

/-- Witness of C19: the entry `(2, 10)` of the dirty state after `Modify(2, 10)` on
`[3, 1, 4, 1, 5]`. -/
theorem buffer_key_bound_witness :
    ∃ s0, construct (fun a b : Int => a + b) 0 5 [3, 1, 4, 1, 5] = .ok s0 ∧
      (2 < (Modify s0 2 10).N ∧ 2 ≤ ((Modify s0 2 10).N + 2 ^ 64 - 1) % 2 ^ 64 ∧
        ∃ leaf, UpdateLeaf 5 1 0 (((Modify s0 2 10).N + 2 ^ 64 - 1) % 2 ^ 64) 2
          = .ok (leaf, 2, 2)) :=
  ⟨_, rfl, buffer_key_bound (fun a b : Int => a + b) 0 [3, 1, 4, 1, 5] _ _ 5 2 10
    (by norm_num) (Reach.modify _ _ 2 10 (Reach.construct 5 _ rfl)) (by decide) (by decide)⟩

end RangeSumQuery
